import Mathlib

/-!
# A shallow embedding of `queue.c`

The queue of `queue.c` is a circular doubly-linked list anchored at a sentinel
`struct list_head`.  Pointers are natural numbers (`0` is `NULL`), and the
memory is a record of total maps, one per field:

* `next`, `prev` : the two links of the `list_head` at an address;
* `value`        : the `char *value` field of the `element_t` whose embedded
                   `list_head` is at an address (`list_entry` is the identity on
                   addresses: the offset of `list` inside `element_t` is not modelled);
* `str`          : the bytes stored in a heap-allocated character buffer;
* `buf`          : the bytes of a caller-supplied output buffer, by offset;
* `live`         : which blocks are currently allocated;
* `freed`        : the log of the arguments passed to `free`, oldest first.

The answers of the allocator (`malloc`, and the `malloc` inside `strdup`) are
parameters of the operations that allocate: `0` is a failed allocation.
Loops take a fuel argument and return `none` when it runs out.
-/

namespace Queue

/-! ## Memory -/

@[ext]
structure Heap where
  next : Nat → Nat
  prev : Nat → Nat
  value : Nat → Nat
  str : Nat → List Nat
  buf : Nat → Nat → Nat
  live : Nat → Bool
  freed : List Nat

/-- The assignment `a->next = v`. -/
def Heap.setNext (h : Heap) (a v : Nat) : Heap :=
  { h with next := Function.update h.next a v }

/-- The assignment `a->prev = v`. -/
def Heap.setPrev (h : Heap) (a v : Nat) : Heap :=
  { h with prev := Function.update h.prev a v }

/-- The assignment `e->value = p`. -/
def Heap.setValue (h : Heap) (e p : Nat) : Heap :=
  { h with value := Function.update h.value e p }

/-- The C string held by a byte sequence: the bytes before the first `0`. -/
def cstr (s : List Nat) : List Nat :=
  s.takeWhile (fun c => c != 0)

/-- The text of the element at `e`: the C string its `value` field points to. -/
def Heap.text (h : Heap) (e : Nat) : List Nat :=
  cstr (h.str (h.value e))

/-- The call `malloc(..)` whose answer is `r` (`0`: the allocation fails). -/
def malloc (h : Heap) (r : Nat) : Heap × Nat :=
  if r = 0 then (h, 0)
  else ({ h with live := Function.update h.live r true }, r)

/-- The call `free(p)`; `free(NULL)` does nothing. -/
def free (h : Heap) (p : Nat) : Heap :=
  if p = 0 then h
  else { h with live := Function.update h.live p false, freed := h.freed ++ [p] }

/-- The call `strdup(s)` whose inner allocation answers `r`: a fresh buffer
holding a copy of the C string at `s`. -/
def strdup (h : Heap) (s : List Nat) (r : Nat) : Heap × Nat :=
  if r = 0 then (h, 0)
  else ({ h with live := Function.update h.live r true,
                 str := Function.update h.str r (cstr s) }, r)

/-- The call `strncpy(dst, src, n)`: exactly `n` bytes of `dst` are written, the
bytes of the C string `src` first and `0` after its end. -/
def strncpy (h : Heap) (dst : Nat) (src : List Nat) (n : Nat) : Heap :=
  { h with
    buf := Function.update h.buf dst
             (fun i => if i < n then (cstr src).getD i 0 else h.buf dst i) }

/-- The assignment `sp[i] = c` on an output buffer. -/
def Heap.setByte (h : Heap) (dst i c : Nat) : Heap :=
  { h with buf := Function.update h.buf dst (Function.update (h.buf dst) i c) }

/-- The call `strcmp(a, b)`: the difference of the first pair of bytes that
differ, the end of a sequence and a `0` byte both being the terminator. -/
def strcmp : List Nat → List Nat → Int
  | [], [] => 0
  | [], b :: _ => 0 - (b : Int)
  | a :: _, [] => (a : Int)
  | a :: as, b :: bs =>
    if a = b then (if a = 0 then 0 else strcmp as bs) else (a : Int) - (b : Int)

/-- Arithmetic of `size_t`: `x - 1` modulo `2^64`. -/
def sizePred (x : Nat) : Nat :=
  (x % 2 ^ 64 + (2 ^ 64 - 1)) % 2 ^ 64

/-- Arithmetic of `int`: the two's complement value of `x` in 32 bits. -/
def wrapInt32 (x : Int) : Int :=
  (x + 2 ^ 31) % 2 ^ 32 - 2 ^ 31

/-! ## The list primitives of `list.h` -/

/-- Modelled from the spec: `INIT_LIST_HEAD` of `list.h`, which is not in the
sources; it initializes a node "as a self-linked empty circular list". -/
def INIT_LIST_HEAD (h : Heap) (head : Nat) : Heap :=
  (h.setNext head head).setPrev head head

/-- Modelled from the spec: `list_empty` of `list.h`, which is not in the
sources; the "emptiness check is exactly sentinel.next == sentinel". -/
def list_empty (h : Heap) (head : Nat) : Bool :=
  h.next head == head

/-- Modelled from the spec: `list_add` of `list.h`, which is not in the sources;
it splices the new node "immediately after" the sentinel. -/
def list_add (h : Heap) (node head : Nat) : Heap :=
  let next := h.next head
  let h1 := h.setPrev next node
  let h2 := h1.setNext node next
  let h3 := h2.setPrev node head
  h3.setNext head node

/-- Modelled from the spec: `list_add_tail` of `list.h`, which is not in the
sources; it splices the new node "immediately before" the sentinel, that is
after `sentinel.prev`. -/
def list_add_tail (h : Heap) (node head : Nat) : Heap :=
  let prev := h.prev head
  let h1 := h.setNext prev node
  let h2 := h1.setNext node head
  let h3 := h2.setPrev node prev
  h3.setPrev head node

/-- Modelled from the spec: `list_del` of `list.h`, which is not in the sources;
it reconnects the former neighbours of the node to each other, and leaves the
node in "the singleton state produced by list_del, where the element's own Node
again points to itself". -/
def list_del (h : Heap) (node : Nat) : Heap :=
  let next := h.next node
  let prev := h.prev node
  let h1 := h.setPrev next prev
  let h2 := h1.setNext prev next
  let h3 := h2.setNext node node
  h3.setPrev node node

/-! ## The operations of `queue.c` -/

/-- The function `q_new`; `r` is the answer of `malloc`. -/
def q_new (h : Heap) (r : Nat) : Heap × Nat :=
  let (h1, q) := malloc h r
  if q ≠ 0 then (INIT_LIST_HEAD h1 q, q) else (h1, q)

/-- The function `q_release_element`. -/
def q_release_element (h : Heap) (e : Nat) : Heap :=
  free (free h (h.value e)) e

/-- The loop of `q_free`, from the cursor `node`. -/
def q_free_loop (head : Nat) : Nat → Heap → Nat → Option Heap
  | 0, _, _ => none
  | fuel + 1, h, node =>
    if node ≠ head then
      let node1 := h.next node
      q_free_loop head fuel (q_release_element h (h.prev node1)) node1
    else some h

/-- The function `q_free`. -/
def q_free (fuel : Nat) (h : Heap) (l : Nat) : Option Heap :=
  if l = 0 then some h
  else (q_free_loop l fuel h (h.next l)).map (fun h1 => free h1 l)

/-- The function `q_insert_head`; `re` and `rs` are the answers of `malloc` and
of the allocation inside `strdup`. -/
def q_insert_head (h : Heap) (head : Nat) (s : List Nat) (re rs : Nat) : Heap × Bool :=
  if head = 0 then (h, false)
  else
    let (h1, e) := malloc h re
    if e = 0 then (h1, false)
    else
      let (h2, p) := strdup h1 s rs
      let h3 := h2.setValue e p
      if h3.value e = 0 then (free h3 e, false)
      else (list_add h3 e head, true)

/-- The function `q_insert_tail`; `re` and `rs` are the answers of `malloc` and
of the allocation inside `strdup`. -/
def q_insert_tail (h : Heap) (head : Nat) (s : List Nat) (re rs : Nat) : Heap × Bool :=
  if head = 0 then (h, false)
  else
    let (h1, e) := malloc h re
    if e = 0 then (h1, false)
    else
      let (h2, p) := strdup h1 s rs
      let h3 := h2.setValue e p
      if h3.value e = 0 then (free h3 e, false)
      else (list_add_tail h3 e head, true)

/-- The function `q_remove_head`; the result is the heap and the element
returned (`0` for `NULL`). -/
def q_remove_head (h : Heap) (head sp bufsize : Nat) : Heap × Nat :=
  if head = 0 ∨ list_empty h head then (h, 0)
  else
    let e := h.next head
    let h1 :=
      if sp ≠ 0 then
        (strncpy h sp (h.str (h.value e)) (sizePred bufsize)).setByte sp (sizePred bufsize) 0
      else h
    (list_del h1 e, e)

/-- The function `q_remove_tail`; the result is the heap and the element
returned (`0` for `NULL`). -/
def q_remove_tail (h : Heap) (head sp bufsize : Nat) : Heap × Nat :=
  if head = 0 ∨ list_empty h head then (h, 0)
  else
    let e := h.prev head
    let h1 :=
      if sp ≠ 0 then
        (strncpy h sp (h.str (h.value e)) (sizePred bufsize)).setByte sp (sizePred bufsize) 0
      else h
    (list_del h1 e, e)

/-- The loop of `q_size`, from the cursor `it` with the counter `i`. -/
def q_size_loop (h : Heap) (head : Nat) : Nat → Nat → Int → Option Int
  | 0, _, _ => none
  | fuel + 1, it, i =>
    if it ≠ head then q_size_loop h head fuel (h.next it) (wrapInt32 (i + 1))
    else some i

/-- The function `q_size`. -/
def q_size (fuel : Nat) (h : Heap) (head : Nat) : Option Int :=
  if head = 0 ∨ list_empty h head then some 0
  else q_size_loop h head fuel (h.next head) 0

/-- The loop of `q_delete_mid`: the two cursors `l` and `r` step towards each
other; the result is the final `l`. -/
def q_delete_mid_loop (h : Heap) : Nat → Nat → Nat → Option Nat
  | 0, _, _ => none
  | fuel + 1, l, r =>
    if l ≠ r ∧ h.next l ≠ r then q_delete_mid_loop h fuel (h.next l) (h.prev r)
    else some l

/-- The function `q_delete_mid`. -/
def q_delete_mid (fuel : Nat) (h : Heap) (head : Nat) : Option (Heap × Bool) :=
  if head = 0 ∨ list_empty h head then some (h, false)
  else
    match q_delete_mid_loop h fuel (h.next head) (h.prev head) with
    | none => none
    | some l => some (q_release_element (list_del h l) l, true)

/-- One unlinking step of `q_delete_dup` through the link cell `&c->next`:
`tmp = *curr; (*curr)->next->prev = (*curr)->prev; *curr = (*curr)->next;`.
The result is the heap and `tmp`. -/
def q_delete_dup_unlink (h : Heap) (c : Nat) : Heap × Nat :=
  let tmp := h.next c
  let h1 := h.setPrev (h.next (h.next c)) (h.prev (h.next c))
  let h2 := h1.setNext c (h1.next (h1.next c))
  (h2, tmp)

/-- The inner `do .. while` of `q_delete_dup`, with `curr = &c->next`. -/
def q_delete_dup_run (head c : Nat) : Nat → Heap → Option Heap
  | 0, _ => none
  | fuel + 1, h =>
    let (h2, tmp) := q_delete_dup_unlink h c
    let h3 := q_release_element h2 tmp
    if h3.next (h3.next c) ≠ head ∧
        strcmp (h3.str (h3.value (h3.next c)))
          (h3.str (h3.value (h3.next (h3.next c)))) = 0 then
      q_delete_dup_run head c fuel h3
    else some h3

/-- The outer loop of `q_delete_dup`, with `curr = &c->next`.  The `printf` of
the source is not modelled. -/
def q_delete_dup_loop (head : Nat) : Nat → Heap → Nat → Option Heap
  | 0, _, _ => none
  | fuel + 1, h, c =>
    if h.next c ≠ head then
      if h.next (h.next c) = head ∨
          strcmp (h.str (h.value (h.next c)))
            (h.str (h.value (h.next (h.next c)))) ≠ 0 then
        q_delete_dup_loop head fuel h (h.next c)
      else
        match q_delete_dup_run head c fuel h with
        | none => none
        | some h1 =>
          let (h3, tmp) := q_delete_dup_unlink h1 c
          let h4 := h3.setPrev (h3.next (h3.next c)) (h3.next c)
          q_delete_dup_loop head fuel (q_release_element h4 tmp) c
    else some h

/-- The function `q_delete_dup`. -/
def q_delete_dup (fuel : Nat) (h : Heap) (head : Nat) : Option (Heap × Bool) :=
  if head = 0 then some (h, false)
  else (q_delete_dup_loop head fuel h head).map (fun h1 => (h1, true))

/-- The body of the loop of `q_swap` on the pair `left`, `right`, up to the
last exchange of links. -/
def q_swap_pair (h : Heap) (left right : Nat) : Heap :=
  let h1 := h.setPrev (h.next right) left
  let h2 := h1.setNext (h1.prev left) right
  let h3 := h2.setPrev right (h2.prev left)
  let h4 := h3.setNext left (h3.next right)
  let h5 := h4.setNext right left
  h5.setPrev left right

/-- The loop of `q_swap`. -/
def q_swap_loop (head : Nat) : Nat → Heap → Nat → Nat → Option Heap
  | 0, _, _, _ => none
  | fuel + 1, h, left, right =>
    if left ≠ head ∧ right ≠ head then
      let h6 := q_swap_pair h left right
      q_swap_loop head fuel h6 (h6.next left) (h6.next (h6.next left))
    else some h

/-- The function `q_swap`. -/
def q_swap (fuel : Nat) (h : Heap) (head : Nat) : Option Heap :=
  if head = 0 ∨ list_empty h head then some h
  else q_swap_loop head fuel h (h.next head) (h.next (h.next head))

/-- The body of the loop of `q_reverse` on the node `it`: its two links are
exchanged. -/
def q_reverse_node (h : Heap) (it : Nat) : Heap :=
  let tmp := h.next it
  let h1 := h.setNext it (h.prev it)
  h1.setPrev it tmp

/-- The `do .. while` of `q_reverse`, from the cursor `it`. -/
def q_reverse_loop (head : Nat) : Nat → Heap → Nat → Option Heap
  | 0, _, _ => none
  | fuel + 1, h, it =>
    let h2 := q_reverse_node h it
    if h2.prev it ≠ head then q_reverse_loop head fuel h2 (h2.prev it)
    else some h2

/-- The function `q_reverse`. -/
def q_reverse (fuel : Nat) (h : Heap) (head : Nat) : Option Heap :=
  if head = 0 ∨ list_empty h head then some h
  else q_reverse_loop head fuel h head

/-- The function `q_sort`, whose body is empty. -/
def q_sort (h : Heap) (_head : Nat) : Heap :=
  h

/-! ## Well-formed queues -/

/-- A doubly-linked path: following `next` from `p` visits the nodes `as` in
order and then reaches `q`, and every `prev` link taken on the way back is the
mirror of the `next` link. -/
def seg (h : Heap) : Nat → List Nat → Nat → Prop
  | p, [], q => h.next p = q ∧ h.prev q = p
  | p, a :: as, q => h.next p = a ∧ h.prev a = p ∧ seg h a as q

instance seg.dec (h : Heap) : (as : List Nat) → (p q : Nat) → Decidable (seg h p as q)
  | [], p, q => inferInstanceAs (Decidable (h.next p = q ∧ h.prev q = p))
  | a :: as, p, q =>
    have := seg.dec h as a q
    inferInstanceAs (Decidable (h.next p = a ∧ h.prev a = p ∧ seg h a as q))

/-- The queue at the sentinel `head` is well formed and its forward sequence of
elements is `ns`: no node is `NULL`, the elements are pairwise distinct and
distinct from the sentinel, following `next` from the sentinel goes through
`ns` and returns to the sentinel, and the `prev` links mirror the `next` links. -/
def WF (h : Heap) (head : Nat) (ns : List Nat) : Prop :=
  head ≠ 0 ∧ 0 ∉ ns ∧ head ∉ ns ∧ ns.Nodup ∧ seg h head ns head

instance WF.dec (h : Heap) (head : Nat) (ns : List Nat) : Decidable (WF h head ns) :=
  inferInstanceAs (Decidable (head ≠ 0 ∧ 0 ∉ ns ∧ head ∉ ns ∧ ns.Nodup ∧ seg h head ns head))

/-- A small concrete memory: the sentinel is at `1`, the elements `a`, `b`, ..
of `cells` are linked in this order, and the element at address `a` owns the
text buffer at `a + 100`, whose text is the second component. -/
def mkHeap (cells : List (Nat × List Nat)) : Heap :=
  let ns := cells.map Prod.fst
  let cyc := 1 :: ns
  { next := fun a => if a ∈ cyc then (cyc ++ [1]).getD (cyc.indexOf a + 1) 0 else 0
    prev := fun a => if a ∈ cyc then (cyc.getLastD 1 :: cyc).getD (cyc.indexOf a) 0 else 0
    value := fun a => a + 100
    str := fun p => ((cells.find? (fun c => c.1 + 100 == p)).map Prod.snd).getD []
    buf := fun _ _ => 0
    live := fun a => decide (a ∈ cyc ∨ a ∈ ns.map (· + 100))
    freed := [] }

/-- The nodes met by following `next` from `p` until the sentinel is reached,
in at most `fuel` steps. -/
def elements (h : Heap) (head : Nat) : Nat → Nat → Option (List Nat)
  | 0, _ => none
  | fuel + 1, p =>
    if p = head then some [] else (elements h head fuel (h.next p)).map (fun l => p :: l)

/-- The forward sequence of the queue: the elements from `sentinel.next` up to
the sentinel. -/
def forward (fuel : Nat) (h : Heap) (head : Nat) : Option (List Nat) :=
  elements h head fuel (h.next head)

/-- The invariants of the data model, in their own words: following `next` from
the sentinel returns to the sentinel after finitely many steps, no node on the
way is `NULL`, and every node `A` of the chain has `A.next.prev == A` and
`A.prev.next == A`. -/
def circular (h : Heap) (head : Nat) : Prop :=
  head ≠ 0 ∧ ∃ fuel ns, forward fuel h head = some ns ∧ 0 ∉ ns ∧
    ∀ A ∈ head :: ns, h.prev (h.next A) = A ∧ h.next (h.prev A) = A

/-- The calls `q_insert_tail(head, s)` for the texts of a list in turn, each
with the two answers of the allocator; the result is the heap and whether every
call returned `true`. -/
def insert_tails (head : Nat) : List (List Nat × Nat × Nat) → Heap → Heap × Bool
  | [], h => (h, true)
  | (s, re, rs) :: rest, h =>
    let r1 := q_insert_tail h head s re rs
    let r2 := insert_tails head rest r1.1
    (r2.1, r1.2 && r2.2)

/-- The call `q_remove_head(head, sp, bufsize)` repeated `n` times; the result is
the heap and the elements returned, in the order of the calls. -/
def remove_heads (head sp bufsize : Nat) : Nat → Heap → Heap × List Nat
  | 0, h => (h, [])
  | n + 1, h =>
    let r1 := q_remove_head h head sp bufsize
    let r2 := remove_heads head sp bufsize n r1.1
    (r2.1, r1.2 :: r2.2)

/-- The call `q_remove_tail(head, sp, bufsize)` repeated `n` times; the result is
the heap and the elements returned, in the order of the calls. -/
def remove_tails (head sp bufsize : Nat) : Nat → Heap → Heap × List Nat
  | 0, h => (h, [])
  | n + 1, h =>
    let r1 := q_remove_tail h head sp bufsize
    let r2 := remove_tails head sp bufsize n r1.1
    (r2.1, r1.2 :: r2.2)

/-- The addresses answered by the allocator over a run of insertions. -/
def callAddrs (calls : List (List Nat × Nat × Nat)) : List Nat :=
  calls.flatMap (fun c => [c.2.1, c.2.2])

/-- The scenario of the FIFO round trip: `q_new`, then `q_insert_tail` for every
text, then as many `q_remove_head` calls.  The result is whether every insertion
returned `true`, the final heap, and the elements returned by the removals. -/
def fifo_run (h0 : Heap) (q : Nat) (calls : List (List Nat × Nat × Nat))
    (sp bufsize : Nat) : Bool × Heap × List Nat :=
  let r0 := q_new h0 q
  let r1 := insert_tails r0.2 calls r0.1
  let r2 := remove_heads r0.2 sp bufsize calls.length r1.1
  (r1.2, r2.1, r2.2)

/-- The scenario of the reverse-order round trip: `q_new`, then `q_insert_tail`
for every text, then as many `q_remove_tail` calls. -/
def lifo_run (h0 : Heap) (q : Nat) (calls : List (List Nat × Nat × Nat))
    (sp bufsize : Nat) : Bool × Heap × List Nat :=
  let r0 := q_new h0 q
  let r1 := insert_tails r0.2 calls r0.1
  let r2 := remove_tails r0.2 sp bufsize calls.length r1.1
  (r1.2, r2.1, r2.2)

/-- A memory in which nothing is allocated and every cell holds `0`. -/
def zeroHeap : Heap :=
  { next := fun _ => 0, prev := fun _ => 0, value := fun _ => 0, str := fun _ => [],
    buf := fun _ _ => 0, live := fun _ => false, freed := [] }

/-- The memory in which the two links of every node of `l` are exchanged. -/
def swapLinks (h : Heap) (l : List Nat) : Heap :=
  { h with
    next := fun x => if x ∈ l then h.prev x else h.next x
    prev := fun x => if x ∈ l then h.next x else h.prev x }

/-- The forward sequence after the exchange of every adjacent pair counted
from the front; an unpaired last element stays. -/
def swapPairs : List Nat → List Nat
  | a :: b :: r => b :: a :: swapPairs r
  | l => l

/-- Two memories differ at most in their links: the texts, the output buffers
and the allocation state are the same. -/
def sameData (h1 h : Heap) : Prop :=
  h1.value = h.value ∧ h1.str = h.str ∧ h1.buf = h.buf ∧ h1.live = h.live ∧
    h1.freed = h.freed

/-- The comparison made by `q_delete_dup` on two elements: their texts are
equal for `strcmp`. -/
def sameText (h : Heap) (a b : Nat) : Prop :=
  strcmp (h.str (h.value a)) (h.str (h.value b)) = 0

instance sameText.dec (h : Heap) (a b : Nat) : Decidable (sameText h a b) :=
  inferInstanceAs (Decidable (strcmp (h.str (h.value a)) (h.str (h.value b)) = 0))

/-- What is left of `y :: ys` once the inner loop of `q_delete_dup` stops: the
elements from the last member of the run of equal texts that starts at `y`. -/
def runTail (h : Heap) : Nat → List Nat → List Nat
  | y, [] => [y]
  | y, z :: r => if sameText h y z then runTail h z r else y :: z :: r

/-- The forward sequence without the runs of two or more adjacent elements
that have equal texts.  The flag tells whether the element before the sequence
has the same text as its first element. -/
def dropRuns (h : Heap) : Bool → List Nat → List Nat
  | _, [] => []
  | b, [x] => if b then [] else [x]
  | b, x :: y :: r =>
    if sameText h x y then dropRuns h true (y :: r)
    else if b then dropRuns h false (y :: r)
    else x :: dropRuns h false (y :: r)

/-- A call of one of the four operations that insert or remove an element,
with its arguments (and, for an insertion, the two answers of the allocator). -/
inductive Op where
  | insertHead (s : List Nat) (re rs : Nat)
  | insertTail (s : List Nat) (re rs : Nat)
  | removeHead (sp bufsize : Nat)
  | removeTail (sp bufsize : Nat)

/-- Whether the call is an insertion. -/
def Op.isInsert : Op → Bool
  | Op.insertHead _ _ _ => true
  | Op.insertTail _ _ _ => true
  | Op.removeHead _ _ => false
  | Op.removeTail _ _ => false

/-- The call executed on the queue at `head`: the heap it leaves and whether it
was successful (an insertion returned `true`, a removal returned an element). -/
def Op.run (head : Nat) (h : Heap) : Op → Heap × Bool
  | Op.insertHead s re rs => q_insert_head h head s re rs
  | Op.insertTail s re rs => q_insert_tail h head s re rs
  | Op.removeHead sp bufsize =>
    ((q_remove_head h head sp bufsize).1, (q_remove_head h head sp bufsize).2 != 0)
  | Op.removeTail sp bufsize =>
    ((q_remove_tail h head sp bufsize).1, (q_remove_tail h head sp bufsize).2 != 0)

/-- The contract of the allocator for one call: an answer is `NULL` or a block
that is not allocated when it is handed out. -/
def Op.allocOk (h : Heap) : Op → Prop
  | Op.insertHead _ re rs =>
    (re = 0 ∨ h.live re = false) ∧ (rs = 0 ∨ (malloc h re).1.live rs = false)
  | Op.insertTail _ re rs =>
    (re = 0 ∨ h.live re = false) ∧ (rs = 0 ∨ (malloc h re).1.live rs = false)
  | Op.removeHead _ _ => True
  | Op.removeTail _ _ => True

instance Op.allocOk.dec (h : Heap) : (op : Op) → Decidable (op.allocOk h)
  | Op.insertHead _ re rs =>
    inferInstanceAs (Decidable
      ((re = 0 ∨ h.live re = false) ∧ (rs = 0 ∨ (malloc h re).1.live rs = false)))
  | Op.insertTail _ re rs =>
    inferInstanceAs (Decidable
      ((re = 0 ∨ h.live re = false) ∧ (rs = 0 ∨ (malloc h re).1.live rs = false)))
  | Op.removeHead _ _ => inferInstanceAs (Decidable True)
  | Op.removeTail _ _ => inferInstanceAs (Decidable True)

/-- A sequence of calls executed in order: the final heap, the number `k` of
successful insertions and the number `j` of successful removals. -/
def runOps (head : Nat) : List Op → Heap → Heap × Nat × Nat
  | [], h => (h, 0, 0)
  | op :: ops, h =>
    let r := op.run head h
    let t := runOps head ops r.1
    (t.1, t.2.1 + (if op.isInsert && r.2 then 1 else 0),
      t.2.2 + (if !op.isInsert && r.2 then 1 else 0))

/-- The contract of the allocator along a sequence of calls. -/
def allocOk (head : Nat) : List Op → Heap → Prop
  | [], _ => True
  | op :: ops, h => op.allocOk h ∧ allocOk head ops (op.run head h).1

instance allocOk.dec (head : Nat) : (ops : List Op) → (h : Heap) → Decidable (allocOk head ops h)
  | [], _ => inferInstanceAs (Decidable True)
  | op :: ops, h =>
    have := allocOk.dec head ops (op.run head h).1
    inferInstanceAs (Decidable (op.allocOk h ∧ allocOk head ops (op.run head h).1))

/-- A queue of `2^31` elements: the sentinel is at `1` and the elements are at
`2`, `3`, .., `2^31 + 1`, linked in this order. -/
def bigHeap : Heap :=
  { zeroHeap with
    next := fun a => if a = 2147483649 then 1 else a + 1
    prev := fun a => if a = 1 then 2147483649 else a - 1 }

/-- The order of `strcmp` on two elements: the text of `a` is not after the
text of `b`. -/
def leText (h : Heap) (a b : Nat) : Prop :=
  strcmp (h.str (h.value a)) (h.str (h.value b)) ≤ 0

instance leText.dec (h : Heap) (a b : Nat) : Decidable (leText h a b) :=
  inferInstanceAs (Decidable (strcmp (h.str (h.value a)) (h.str (h.value b)) ≤ 0))

/-- The texts of the forward sequence are sorted ascending for `strcmp`. -/
def sortedTexts (h : Heap) : List Nat → Prop
  | [] => True
  | [_] => True
  | a :: b :: r => leText h a b ∧ sortedTexts h (b :: r)

instance sortedTexts.dec (h : Heap) : (l : List Nat) → Decidable (sortedTexts h l)
  | [] => inferInstanceAs (Decidable True)
  | [_] => inferInstanceAs (Decidable True)
  | a :: b :: r =>
    have := sortedTexts.dec h (b :: r)
    inferInstanceAs (Decidable (leText h a b ∧ sortedTexts h (b :: r)))

/-- The elements of the forward sequence whose text occurs exactly once in it,
in their original order. -/
def uniqueTexts (h : Heap) (ns : List Nat) : List Nat :=
  ns.filter (fun e => decide ((ns.map h.text).count (h.text e) = 1))

/-- The C string held by an output buffer: its bytes from position `i` up to
the first `0`, looking at `fuel` positions at most. -/
def readString (b : Nat → Nat) : Nat → Nat → List Nat
  | 0, _ => []
  | fuel + 1, i => if b i = 0 then [] else b i :: readString b fuel (i + 1)

/-- A queue with the single element `2`, whose text is `"a"`, in a memory whose
output buffers hold the byte `7` at every position. -/
def inkHeap : Heap :=
  { mkHeap [(2, [97])] with buf := fun _ _ => 7 }

/-- Whether two neighbours have different texts; a missing neighbour counts as
different. -/
def differs (h : Heap) : Option Nat → Option Nat → Bool
  | some a, some b => decide (h.text a ≠ h.text b)
  | _, _ => true

/-- Whether the element at index `i` of the sequence stays under the rule "its
text differs from the text before it (when `i > 0`; for `i = 0` the flag `b` tells
whether an element before the sequence has the same text) and from the text
after it (when there is one)". -/
def keptAt (h : Heap) (b : Bool) (ns : List Nat) (i : Nat) : Bool :=
  (if i = 0 then !b else differs h ns[i - 1]? ns[i]?) && differs h ns[i]? ns[i + 1]?

/-- The subsequence of the elements whose text differs from the texts of both
neighbours. -/
def isolated (h : Heap) (b : Bool) (ns : List Nat) : List Nat :=
  (List.range ns.length).filterMap (fun i => if keptAt h b ns i then ns[i]? else none)

/-- An access to the memory made by `q_free` or by `q_delete_dup`. -/
inductive Ev where
  /-- A field (`next`, `prev` or `value`) of the block at `a` is read. -/
  | read (a : Nat)
  /-- A link of the node at `a` is written. -/
  | write (a : Nat)
  /-- The cursor of `q_delete_dup` writes `*curr`, where `curr == &c->next`. -/
  | through (c : Nat)
  /-- The call `strcmp` on the texts of the elements `a` and `b`. -/
  | cmp (a b : Nat)
  /-- The call `free(p)` on a non-null `p`. -/
  | free (p : Nat)
  deriving DecidableEq

/-- The blocks an access touches. -/
def Ev.mentions : Ev → List Nat
  | Ev.read a => [a]
  | Ev.write a => [a]
  | Ev.through c => [c]
  | Ev.cmp a b => [a, b]
  | Ev.free p => [p]

/-- The blocks passed to `free` along a trace, in order. -/
def frees : List Ev → List Nat
  | [] => []
  | Ev.free p :: t => p :: frees t
  | _ :: t => frees t

/-- No block is read, written, compared or freed again once it has been freed. -/
def safeTrace : List Ev → Prop
  | [] => True
  | Ev.free p :: t => (∀ ev ∈ t, p ∉ ev.mentions) ∧ safeTrace t
  | _ :: t => safeTrace t

instance safeTrace.dec : (t : List Ev) → Decidable (safeTrace t)
  | [] => inferInstanceAs (Decidable True)
  | Ev.free p :: t =>
    have := safeTrace.dec t
    inferInstanceAs (Decidable ((∀ ev ∈ t, p ∉ ev.mentions) ∧ safeTrace t))
  | Ev.read _ :: t => safeTrace.dec t
  | Ev.write _ :: t => safeTrace.dec t
  | Ev.through _ :: t => safeTrace.dec t
  | Ev.cmp _ _ :: t => safeTrace.dec t

/-- The accesses of `q_release_element(e)`: the field `value` is read, then the
text buffer and the element are freed. -/
def releaseEvents (h : Heap) (e : Nat) : List Ev :=
  Ev.read e ::
    ((if h.value e = 0 then [] else [Ev.free (h.value e)]) ++ (if e = 0 then [] else [Ev.free e]))

/-- The loop of `q_free` with its accesses: `node = node->next` reads a link of
`node`, `node->prev` a link of the new `node`, and the element found there is
released. -/
def q_free_loop_tr (head : Nat) : Nat → Heap → Nat → Option (Heap × List Ev)
  | 0, _, _ => none
  | fuel + 1, h, node =>
    if node ≠ head then
      let node1 := h.next node
      (q_free_loop_tr head fuel (q_release_element h (h.prev node1)) node1).map
        (fun r => (r.1, [Ev.read node, Ev.read node1] ++ releaseEvents h (h.prev node1) ++ r.2))
    else some (h, [])

/-- The function `q_free` with its accesses. -/
def q_free_tr (fuel : Nat) (h : Heap) (l : Nat) : Option (Heap × List Ev) :=
  if l = 0 then some (h, [])
  else (q_free_loop_tr l fuel h (h.next l)).map
    (fun r => (free r.1 l, [Ev.read l] ++ r.2 ++ [Ev.free l]))

/-- Every element of the queue owns its text buffer: the buffer is not `NULL`,
it is not a node of the queue, and no two elements share one. -/
def owned (h : Heap) (head : Nat) (ns : List Nat) : Prop :=
  (∀ e ∈ ns, h.value e ≠ 0) ∧ (∀ e ∈ ns, h.value e ∉ head :: ns) ∧
    (ns.map h.value).Nodup

instance owned.dec (h : Heap) (head : Nat) (ns : List Nat) : Decidable (owned h head ns) :=
  inferInstanceAs (Decidable ((∀ e ∈ ns, h.value e ≠ 0) ∧ (∀ e ∈ ns, h.value e ∉ head :: ns) ∧
    (ns.map h.value).Nodup))

/-! ### The accesses of `q_delete_dup`

The cursor is `curr == &c->next`, so `*curr` reads a link of `c`; a field of
`*curr` is a field of `h.next c`. -/

/-- The accesses of `strcmp(list_entry((*curr))->value,
list_entry((*curr)->next)->value)`: the two `value` fields are reached from the
cursor, then the two texts are read and compared. -/
def cmpEvents (h : Heap) (c : Nat) : List Ev :=
  [Ev.read c, Ev.read (h.next c), Ev.read c, Ev.read (h.next c), Ev.read (h.next (h.next c)),
    Ev.read (h.value (h.next c)), Ev.read (h.value (h.next (h.next c))),
    Ev.cmp (h.next c) (h.next (h.next c))]

/-- The accesses of the test `(*curr)->next == head || strcmp(..)` and of the
test `(*curr)->next != head && !strcmp(..)`: the texts are compared only when
`(*curr)->next` is not the sentinel. -/
def testEvents (h : Heap) (head c : Nat) : List Ev :=
  [Ev.read c, Ev.read (h.next c)] ++
    (if h.next (h.next c) = head then [] else cmpEvents h c)

/-- The comparison made by such a test, if any: the memory it is made in and the
two elements whose texts are compared. -/
def cmpSnaps (h : Heap) (head c : Nat) : List (Heap × Nat × Nat) :=
  if h.next (h.next c) = head then [] else [(h, h.next c, h.next (h.next c))]

/-- The accesses of `printf("%s is a dup\n", list_entry((*curr))->value)`. -/
def printEvents (h : Heap) (c : Nat) : List Ev :=
  [Ev.read c, Ev.read (h.next c), Ev.read (h.value (h.next c))]

/-- The accesses of `tmp = *curr; (*curr)->next->prev = (*curr)->prev;
*curr = (*curr)->next;`. -/
def unlinkEvents (h : Heap) (c : Nat) : List Ev :=
  [Ev.read c, Ev.read c, Ev.read (h.next c), Ev.read c, Ev.read (h.next c),
    Ev.write (h.next (h.next c)), Ev.read c, Ev.read (h.next c), Ev.through c]

/-- The accesses of `(*curr)->next->prev = *curr;`. -/
def relinkEvents (h : Heap) (c : Nat) : List Ev :=
  [Ev.read c, Ev.read (h.next c), Ev.read c, Ev.write (h.next (h.next c))]

/-- The inner `do .. while` of `q_delete_dup` with its accesses and its
comparisons. -/
def q_delete_dup_run_tr (head c : Nat) :
    Nat → Heap → Option (Heap × List Ev × List (Heap × Nat × Nat))
  | 0, _ => none
  | fuel + 1, h =>
    let (h2, tmp) := q_delete_dup_unlink h c
    let h3 := q_release_element h2 tmp
    let evs := unlinkEvents h c ++ releaseEvents h2 tmp ++ testEvents h3 head c
    if h3.next (h3.next c) ≠ head ∧
        strcmp (h3.str (h3.value (h3.next c)))
          (h3.str (h3.value (h3.next (h3.next c)))) = 0 then
      (q_delete_dup_run_tr head c fuel h3).map
        (fun r => (r.1, evs ++ r.2.1, cmpSnaps h3 head c ++ r.2.2))
    else some (h3, evs, cmpSnaps h3 head c)

/-- The outer loop of `q_delete_dup` with its accesses and its comparisons.  The
result is the heap, the node `c` of the last cursor `&c->next`, the accesses in
order and the comparisons in order. -/
def q_delete_dup_loop_tr (head : Nat) :
    Nat → Heap → Nat → Option (Heap × Nat × List Ev × List (Heap × Nat × Nat))
  | 0, _, _ => none
  | fuel + 1, h, c =>
    if h.next c ≠ head then
      if h.next (h.next c) = head ∨
          strcmp (h.str (h.value (h.next c)))
            (h.str (h.value (h.next (h.next c)))) ≠ 0 then
        (q_delete_dup_loop_tr head fuel h (h.next c)).map
          (fun r => (r.1, r.2.1,
            [Ev.read c] ++ testEvents h head c ++ [Ev.read c] ++ r.2.2.1,
            cmpSnaps h head c ++ r.2.2.2))
      else
        match q_delete_dup_run_tr head c fuel h with
        | none => none
        | some (h1, t1, k1) =>
          let (h3, tmp) := q_delete_dup_unlink h1 c
          let h4 := h3.setPrev (h3.next (h3.next c)) (h3.next c)
          (q_delete_dup_loop_tr head fuel (q_release_element h4 tmp) c).map
            (fun r => (r.1, r.2.1,
              [Ev.read c] ++ testEvents h head c ++ printEvents h c ++ t1 ++
                unlinkEvents h1 c ++ relinkEvents h3 c ++ releaseEvents h4 tmp ++ r.2.2.1,
              cmpSnaps h head c ++ k1 ++ r.2.2.2))
    else some (h, c, [Ev.read c], [])


/-- The comparisons of a trace, in order. -/
def cmps : List Ev → List (Nat × Nat)
  | [] => []
  | Ev.cmp a b :: t => (a, b) :: cmps t
  | _ :: t => cmps t


/-! ## Lemmas -/

@[simp] theorem setNext_next (h : Heap) (a v x : Nat) :
    (h.setNext a v).next x = if x = a then v else h.next x := by
  simp [Heap.setNext, Function.update_apply]

@[simp] theorem setNext_prev (h : Heap) (a v : Nat) : (h.setNext a v).prev = h.prev := rfl
@[simp] theorem setNext_value (h : Heap) (a v : Nat) : (h.setNext a v).value = h.value := rfl
@[simp] theorem setNext_str (h : Heap) (a v : Nat) : (h.setNext a v).str = h.str := rfl
@[simp] theorem setNext_buf (h : Heap) (a v : Nat) : (h.setNext a v).buf = h.buf := rfl
@[simp] theorem setNext_live (h : Heap) (a v : Nat) : (h.setNext a v).live = h.live := rfl
@[simp] theorem setNext_freed (h : Heap) (a v : Nat) : (h.setNext a v).freed = h.freed := rfl

@[simp] theorem setPrev_prev (h : Heap) (a v x : Nat) :
    (h.setPrev a v).prev x = if x = a then v else h.prev x := by
  simp [Heap.setPrev, Function.update_apply]

@[simp] theorem setPrev_next (h : Heap) (a v : Nat) : (h.setPrev a v).next = h.next := rfl
@[simp] theorem setPrev_value (h : Heap) (a v : Nat) : (h.setPrev a v).value = h.value := rfl
@[simp] theorem setPrev_str (h : Heap) (a v : Nat) : (h.setPrev a v).str = h.str := rfl
@[simp] theorem setPrev_buf (h : Heap) (a v : Nat) : (h.setPrev a v).buf = h.buf := rfl
@[simp] theorem setPrev_live (h : Heap) (a v : Nat) : (h.setPrev a v).live = h.live := rfl
@[simp] theorem setPrev_freed (h : Heap) (a v : Nat) : (h.setPrev a v).freed = h.freed := rfl

@[simp] theorem setValue_value (h : Heap) (a v x : Nat) :
    (h.setValue a v).value x = if x = a then v else h.value x := by
  simp [Heap.setValue, Function.update_apply]

@[simp] theorem setValue_next (h : Heap) (a v : Nat) : (h.setValue a v).next = h.next := rfl
@[simp] theorem setValue_prev (h : Heap) (a v : Nat) : (h.setValue a v).prev = h.prev := rfl
@[simp] theorem setValue_str (h : Heap) (a v : Nat) : (h.setValue a v).str = h.str := rfl
@[simp] theorem setValue_buf (h : Heap) (a v : Nat) : (h.setValue a v).buf = h.buf := rfl
@[simp] theorem setValue_live (h : Heap) (a v : Nat) : (h.setValue a v).live = h.live := rfl
@[simp] theorem setValue_freed (h : Heap) (a v : Nat) : (h.setValue a v).freed = h.freed := rfl

@[simp] theorem free_next (h : Heap) (a : Nat) : (free h a).next = h.next := by
  unfold free; split <;> rfl
@[simp] theorem free_prev (h : Heap) (a : Nat) : (free h a).prev = h.prev := by
  unfold free; split <;> rfl
@[simp] theorem free_value (h : Heap) (a : Nat) : (free h a).value = h.value := by
  unfold free; split <;> rfl
@[simp] theorem free_str (h : Heap) (a : Nat) : (free h a).str = h.str := by
  unfold free; split <;> rfl
@[simp] theorem free_buf (h : Heap) (a : Nat) : (free h a).buf = h.buf := by
  unfold free; split <;> rfl

@[simp] theorem release_next (h : Heap) (a : Nat) :
    (q_release_element h a).next = h.next := by
  simp [q_release_element]
@[simp] theorem release_prev (h : Heap) (a : Nat) :
    (q_release_element h a).prev = h.prev := by
  simp [q_release_element]
@[simp] theorem release_value (h : Heap) (a : Nat) :
    (q_release_element h a).value = h.value := by
  simp [q_release_element]
@[simp] theorem release_str (h : Heap) (a : Nat) :
    (q_release_element h a).str = h.str := by
  simp [q_release_element]
@[simp] theorem release_buf (h : Heap) (a : Nat) :
    (q_release_element h a).buf = h.buf := by
  simp [q_release_element]


/-! ### Paths -/

theorem seg_nil (h : Heap) (p q : Nat) : seg h p [] q ↔ h.next p = q ∧ h.prev q = p :=
  Iff.rfl

theorem seg_cons (h : Heap) (p a q : Nat) (as : List Nat) :
    seg h p (a :: as) q ↔ h.next p = a ∧ h.prev a = p ∧ seg h a as q :=
  Iff.rfl

/-- A path only depends on the `next` links of its source and inner nodes and
on the `prev` links of its inner nodes and target. -/
theorem seg_congr {h h1 : Heap} {p q : Nat} {as : List Nat}
    (hn : ∀ x ∈ p :: as, h1.next x = h.next x)
    (hp : ∀ x ∈ as ++ [q], h1.prev x = h.prev x)
    (hs : seg h p as q) : seg h1 p as q := by
  induction as generalizing p with
  | nil =>
    rw [seg_nil] at hs ⊢
    rw [hn p (by simp), hp q (by simp)]
    exact hs
  | cons a as ih =>
    rw [seg_cons] at hs ⊢
    refine ⟨by rw [hn p (by simp)]; exact hs.1, by rw [hp a (by simp)]; exact hs.2.1, ?_⟩
    exact ih (fun x hx => hn x (List.mem_cons_of_mem _ hx))
      (fun x hx => hp x (by simp at hx ⊢; tauto)) hs.2.2

theorem seg_append (h : Heap) (p b q : Nat) (as bs : List Nat) :
    seg h p (as ++ b :: bs) q ↔ seg h p as b ∧ seg h b bs q := by
  induction as generalizing p with
  | nil => simp [seg]; tauto
  | cons a as ih => simp [seg, ih]; tauto

theorem seg_concat (h : Heap) (p b q : Nat) (as : List Nat) :
    seg h p (as ++ [b]) q ↔ seg h p as b ∧ h.next b = q ∧ h.prev q = b := by
  rw [seg_append]; rfl

/-- The first node after the source of a path. -/
theorem seg_next {h : Heap} {p q : Nat} {as : List Nat} (hs : seg h p as q) :
    h.next p = (as ++ [q]).headI := by
  cases as with
  | nil => exact hs.1
  | cons a as => exact hs.1

/-- The last node before the target of a path. -/
theorem seg_prev {h : Heap} {p q : Nat} {as : List Nat} (hs : seg h p as q) :
    h.prev q = (p :: as).getLast (List.cons_ne_nil _ _) := by
  induction as generalizing p with
  | nil => exact hs.2
  | cons a as ih => simpa using ih hs.2.2

/-! ### Splicing and unlinking -/

theorem list_add_tail_next (h : Heap) (e head x : Nat) :
    (list_add_tail h e head).next x =
      if x = e then head else if x = h.prev head then e else h.next x := by
  simp [list_add_tail]

theorem list_add_tail_prev (h : Heap) (e head x : Nat) :
    (list_add_tail h e head).prev x =
      if x = head then e else if x = e then h.prev head else h.prev x := by
  simp [list_add_tail]

theorem list_add_tail_wf {h : Heap} {head e : Nat} {ns : List Nat}
    (hw : WF h head ns) (he0 : e ≠ 0) (heh : e ≠ head) (hens : e ∉ ns) :
    WF (list_add_tail h e head) head (ns ++ [e]) := by
  obtain ⟨h0, hz, hh, hnd, hs⟩ := hw
  refine ⟨h0, ?_, ?_, ?_, ?_⟩
  · simp [hz, he0.symm]
  · simp [hh, heh.symm]
  · exact List.Nodup.append hnd (List.nodup_singleton e) (by simpa using hens)
  · rcases List.eq_nil_or_concat ns with rfl | ⟨ns1, l, rfl⟩
    · rw [seg_nil] at hs
      simp [seg, list_add_tail_next, list_add_tail_prev, hs.1, hs.2, heh, heh.symm]
    · rw [List.concat_eq_append] at *
      rw [seg_concat] at hs
      obtain ⟨hs1, hs2, hs3⟩ := hs
      have hle : l ≠ e := fun c => hens (by simp [c])
      have hlh : l ≠ head := fun c => hh (by simp [c])
      rw [seg_concat, seg_concat]
      refine ⟨⟨seg_congr ?_ ?_ hs1, ?_, ?_⟩, ?_, ?_⟩
      · intro x hx
        have hxe : x ≠ e := by
          rintro rfl
          rcases List.mem_cons.1 hx with c | c
          · exact heh c
          · exact hens (by simp [c])
        have hxl : x ≠ l := by
          rintro rfl
          rcases List.mem_cons.1 hx with c | c
          · exact hlh c
          · exact (List.nodup_append.1 hnd).2.2 c (by simp)
        simp [list_add_tail_next, hxe, hxl, hs3]
      · intro x hx
        have hxh : x ≠ head := by
          rintro rfl
          exact hh (by simpa using hx)
        have hxe : x ≠ e := by
          rintro rfl
          exact hens (by simpa using hx)
        simp [list_add_tail_prev, hxe, hxh]
      · simp [list_add_tail_next, hs3, hle]
      · simp [list_add_tail_prev, hs3, heh]
      · simp [list_add_tail_next]
      · simp [list_add_tail_prev]

theorem list_del_next (h : Heap) (e x : Nat) :
    (list_del h e).next x =
      if x = e then e else if x = h.prev e then h.next e else h.next x := by
  simp [list_del]

theorem list_del_prev (h : Heap) (e x : Nat) :
    (list_del h e).prev x =
      if x = e then e else if x = h.next e then h.prev e else h.prev x := by
  simp [list_del]

/-- Unlinking the node `e` that sits between the paths `as` and `bs`: the
links of every other node are as before, except that the predecessor `P` and
the successor `N` of `e` now point to each other. -/
theorem seg_unlink {h h1 : Heap} {e P N : Nat}
    (hn : ∀ x, x ≠ e → h1.next x = if x = P then N else h.next x)
    (hp : ∀ x, x ≠ e → h1.prev x = if x = N then P else h.prev x)
    (bs : List Nat) (q : Nat) (hN : N = (bs ++ [q]).headI) (hsb : seg h e bs q)
    (hqe : q ≠ e) (hbe : e ∉ bs) (hqb : q ∉ bs) (hbn : bs.Nodup) :
    ∀ (as : List Nat) (p : Nat), P = (p :: as).getLast (List.cons_ne_nil _ _) →
      seg h p as e → (p :: as).Nodup → e ∉ p :: as → q ∉ as →
      (∀ x ∈ p :: as, x ∉ bs) → seg h1 p (as ++ bs) q := by
  intro as
  induction as with
  | nil =>
    intro p hP hsa _ hea _ hdis
    simp at hP hea
    subst hP
    have hpe : P ≠ e := fun c => hea c.symm
    have hPb : P ∉ bs := hdis P (by simp)
    cases bs with
    | nil =>
      simp at hN
      subst hN
      simp [seg, hn P hpe, hp N hqe]
    | cons b bs =>
      simp at hN
      subst hN
      simp only [List.mem_cons, not_or, List.nodup_cons] at hbe hqb hbn hPb
      rw [seg_cons] at hsb
      have hNe : N ≠ e := Ne.symm hbe.1
      simp only [List.nil_append, seg_cons, hn P hpe, hp N hNe, if_true]
      refine ⟨trivial, trivial, seg_congr ?_ ?_ hsb.2.2⟩
      · intro x hx
        have h1 : x ≠ e := by rintro rfl; simp at hx; tauto
        have h2 : x ≠ P := by rintro rfl; simp at hx; tauto
        simp [hn x h1, h2]
      · intro x hx
        have h1 : x ≠ e := by rintro rfl; simp at hx; tauto
        have h2 : x ≠ N := by rintro rfl; simp at hx; tauto
        simp [hp x h1, h2]
  | cons a as ih =>
    intro p hP hsa hnd hea hqa hdis
    rw [seg_cons] at hsa
    simp only [List.mem_cons, not_or, List.nodup_cons] at hnd hea hqa
    have hPm : P ∈ a :: as := by
      rw [hP, List.getLast_cons (List.cons_ne_nil _ _)]
      exact List.getLast_mem _
    have hNm : N ∈ bs ++ [q] := by
      rw [hN]
      cases bs <;> simp
    have hpe : p ≠ e := fun c => hea.1 c.symm
    have hpP : p ≠ P := by
      rintro rfl
      rcases List.mem_cons.1 hPm with c | c
      · exact hnd.1.1 c
      · exact hnd.1.2 c
    have hae : a ≠ e := fun c => hea.2.1 c.symm
    have haN : a ≠ N := by
      rintro rfl
      rcases List.mem_append.1 hNm with c | c
      · exact hdis a (by simp) c
      · simp at c; exact hqa.1 c.symm
    rw [List.cons_append, seg_cons]
    refine ⟨by simp [hn p hpe, hpP, hsa.1], by simp [hp a hae, haN, hsa.2.1], ?_⟩
    refine ih a ?_ hsa.2.2 (List.nodup_cons.2 hnd.2) ?_ hqa.2 ?_
    · rw [hP, List.getLast_cons (List.cons_ne_nil _ _)]
    · simp; tauto
    · intro x hx; exact hdis x (List.mem_cons_of_mem _ hx)

/-- Unlinking an element of a well-formed queue removes it from the forward
sequence and keeps everything else in place. -/
theorem unlink_wf {h h1 : Heap} {head e : Nat} {as bs : List Nat}
    (hw : WF h head (as ++ e :: bs))
    (hn : ∀ x, x ≠ e → h1.next x = if x = h.prev e then h.next e else h.next x)
    (hp : ∀ x, x ≠ e → h1.prev x = if x = h.next e then h.prev e else h.prev x) :
    WF h1 head (as ++ bs) := by
  obtain ⟨h0, hz, hh, hnd, hs⟩ := hw
  rw [seg_append] at hs
  have hnd1 := List.nodup_append.1 hnd
  have hnd2 := List.nodup_cons.1 hnd1.2.1
  simp only [List.mem_append, List.mem_cons, not_or] at hz hh
  refine ⟨h0, by simp; tauto, by simp; tauto, ?_, ?_⟩
  · exact List.Nodup.append hnd1.1 hnd2.2 (fun x hx hy => hnd1.2.2 hx (List.mem_cons_of_mem _ hy))
  · refine seg_unlink hn hp bs head (seg_next hs.2) hs.2
      hh.2.1 hnd2.1 hh.2.2 hnd2.2 as head (seg_prev hs.1) hs.1 ?_ ?_ hh.1 ?_
    · exact List.nodup_cons.2 ⟨hh.1, hnd1.1⟩
    · simp only [List.mem_cons, not_or]
      exact ⟨Ne.symm hh.2.1, fun c => hnd1.2.2 c (by simp)⟩
    · intro x hx hb
      rcases List.mem_cons.1 hx with rfl | c
      · exact hh.2.2 hb
      · exact hnd1.2.2 c (List.mem_cons_of_mem _ hb)

theorem list_del_wf {h : Heap} {head e : Nat} {as bs : List Nat}
    (hw : WF h head (as ++ e :: bs)) : WF (list_del h e) head (as ++ bs) :=
  unlink_wf hw (fun x hx => by simp [list_del_next, hx]) (fun x hx => by simp [list_del_prev, hx])

/-- In a well-formed queue the node after the one that ends the prefix `pre`
of the cycle is the first node of what follows. -/
theorem seg_next_at {h : Heap} {q : Nat} :
    ∀ (pre : List Nat) (p it : Nat) (rest : List Nat), seg h p (pre ++ it :: rest) q →
      h.next it = (rest ++ [q]).headI ∧ h.prev it = (p :: pre).getLast (List.cons_ne_nil _ _) := by
  intro pre p it rest hs
  rw [seg_append] at hs
  exact ⟨seg_next hs.2, seg_prev hs.1⟩

theorem list_add_next (h : Heap) (e head x : Nat) :
    (list_add h e head).next x =
      if x = head then e else if x = e then h.next head else h.next x := by
  simp [list_add]

theorem list_add_prev (h : Heap) (e head x : Nat) :
    (list_add h e head).prev x =
      if x = e then head else if x = h.next head then e else h.prev x := by
  simp [list_add]

theorem list_add_wf {h : Heap} {head e : Nat} {ns : List Nat}
    (hw : WF h head ns) (he0 : e ≠ 0) (heh : e ≠ head) (hens : e ∉ ns) :
    WF (list_add h e head) head (e :: ns) := by
  obtain ⟨h0, hz, hh, hnd, hs⟩ := hw
  refine ⟨h0, ?_, ?_, ?_, ?_⟩
  · simp [hz, he0.symm]
  · simp [hh, heh.symm]
  · exact List.nodup_cons.2 ⟨hens, hnd⟩
  · rw [seg_cons]
    refine ⟨by simp [list_add_next], by simp [list_add_prev], ?_⟩
    cases ns with
    | nil =>
      rw [seg_nil] at hs
      simp [seg, list_add_next, list_add_prev, hs.1, heh, heh.symm]
    | cons a as =>
      rw [seg_cons] at hs
      simp only [List.mem_cons, not_or, List.nodup_cons] at hz hh hnd hens
      rw [seg_cons]
      refine ⟨by simp [list_add_next, heh, hs.1], ?_, seg_congr ?_ ?_ hs.2.2⟩
      · simp [list_add_prev, Ne.symm hens.1, hs.1]
      · intro x hx
        have h1 : x ≠ head := by rintro rfl; simp at hx; tauto
        have h2 : x ≠ e := by rintro rfl; simp at hx; tauto
        simp [list_add_next, h1, h2]
      · intro x hx
        have h1 : x ≠ e := by rintro rfl; simp at hx; tauto
        have h2 : x ≠ a := by rintro rfl; simp at hx; tauto
        simp [list_add_prev, h1, h2, hs.1]

/-- Well-formedness only reads the links. -/
theorem WF.congr {h h1 : Heap} {head : Nat} {ns : List Nat} (hw : WF h head ns)
    (hn : h1.next = h.next) (hp : h1.prev = h.prev) : WF h1 head ns := by
  obtain ⟨h0, hz, hh, hnd, hs⟩ := hw
  exact ⟨h0, hz, hh, hnd, seg_congr (fun x _ => by rw [hn]) (fun x _ => by rw [hp]) hs⟩

theorem WF.next_head {h : Heap} {head : Nat} {ns : List Nat} (hw : WF h head ns) :
    h.next head = (ns ++ [head]).headI :=
  seg_next hw.2.2.2.2

theorem WF.prev_head {h : Heap} {head : Nat} {ns : List Nat} (hw : WF h head ns) :
    h.prev head = (head :: ns).getLast (List.cons_ne_nil _ _) :=
  seg_prev hw.2.2.2.2

theorem WF.list_empty_iff {h : Heap} {head : Nat} {ns : List Nat} (hw : WF h head ns) :
    list_empty h head = true ↔ ns = [] := by
  unfold list_empty
  rw [hw.next_head]
  cases ns with
  | nil => simp
  | cons a as =>
    have := hw.2.2.1
    simp at this ⊢
    tauto

/-! ### The invariants in the words of the data model -/

theorem seg_prev_next {h : Heap} {q : Nat} :
    ∀ (as : List Nat) (p : Nat), seg h p as q → ∀ x ∈ p :: as, h.prev (h.next x) = x := by
  intro as
  induction as with
  | nil =>
    intro p hs x hx
    simp at hx
    subst hx
    rw [hs.1, hs.2]
  | cons a as ih =>
    intro p hs x hx
    rw [seg_cons] at hs
    rcases List.mem_cons.1 hx with rfl | hx
    · rw [hs.1, hs.2.1]
    · exact ih a hs.2.2 x hx

theorem seg_next_prev {h : Heap} {q : Nat} :
    ∀ (as : List Nat) (p : Nat), seg h p as q → ∀ x ∈ as ++ [q], h.next (h.prev x) = x := by
  intro as
  induction as with
  | nil =>
    intro p hs x hx
    simp at hx
    subst hx
    rw [hs.2, hs.1]
  | cons a as ih =>
    intro p hs x hx
    rw [seg_cons] at hs
    rcases List.mem_cons.1 hx with rfl | hx
    · rw [hs.2.1, hs.1]
    · exact ih a hs.2.2 x hx

theorem seg_prev_mem {h : Heap} {q : Nat} :
    ∀ (as : List Nat) (p : Nat), seg h p as q → ∀ x ∈ as, h.prev x ∈ p :: as := by
  intro as
  induction as with
  | nil => intro p _ x hx; simp at hx
  | cons a as ih =>
    intro p hs x hx
    rw [seg_cons] at hs
    rcases List.mem_cons.1 hx with rfl | hx
    · simp [hs.2.1]
    · exact List.mem_cons_of_mem _ (ih a hs.2.2 x hx)

/-- The nodes of a doubly-linked path that does not come back to its source
are pairwise distinct. -/
theorem seg_nodup {h : Heap} {q : Nat} :
    ∀ (as : List Nat) (p : Nat), seg h p as q → p ∉ as → as.Nodup := by
  intro as
  induction as with
  | nil => intro _ _ _; exact List.nodup_nil
  | cons a as ih =>
    intro p hs hp
    rw [seg_cons] at hs
    have ha : a ∉ as := by
      intro c
      have := seg_prev_mem as a hs.2.2 a c
      rw [hs.2.1] at this
      exact hp this
    exact List.nodup_cons.2 ⟨ha, ih a hs.2.2 ha⟩

theorem elements_of_seg {h : Heap} {head : Nat} :
    ∀ (ns : List Nat) (q fuel : Nat), seg h q ns head → head ∉ ns → ns.length < fuel →
      elements h head fuel (h.next q) = some ns := by
  intro ns
  induction ns with
  | nil =>
    intro q fuel hs _ hf
    obtain ⟨fuel, rfl⟩ : ∃ k, fuel = k + 1 := ⟨fuel - 1, by simp at hf; omega⟩
    simp [elements, hs.1]
  | cons a ns ih =>
    intro q fuel hs hh hf
    obtain ⟨fuel, rfl⟩ : ∃ k, fuel = k + 1 := ⟨fuel - 1, by simp at hf; omega⟩
    rw [seg_cons] at hs
    simp only [List.mem_cons, not_or] at hh
    simp [elements, hs.1, Ne.symm hh.1, ih a fuel hs.2.2 hh.2 (by simp at hf; omega)]

theorem seg_of_elements {h : Heap} {head : Nat} :
    ∀ (fuel q : Nat) (ns : List Nat), elements h head fuel (h.next q) = some ns →
      (∀ A ∈ q :: ns, h.prev (h.next A) = A) → seg h q ns head ∧ head ∉ ns := by
  intro fuel
  induction fuel with
  | zero => intro q ns he; simp [elements] at he
  | succ fuel ih =>
    intro q ns he hA
    by_cases hq : h.next q = head
    · simp [elements, hq] at he
      subst he
      refine ⟨⟨hq, ?_⟩, by simp⟩
      rw [← hq]
      exact hA q (by simp)
    · simp only [elements, hq, if_false, Option.map_eq_some'] at he
      obtain ⟨rest, hr, rfl⟩ := he
      obtain ⟨hs, hh⟩ := ih (h.next q) rest hr (fun A hA1 => hA A (List.mem_cons_of_mem _ hA1))
      refine ⟨⟨rfl, hA q (by simp), hs⟩, ?_⟩
      simp only [List.mem_cons, not_or]
      exact ⟨fun c => hq c.symm, hh⟩

/-- The predicate `WF` says what the data model says: a queue satisfies the
invariants of the data model exactly when it is well formed for some forward
sequence, which is then the one found by following `next`. -/
theorem circular_iff (h : Heap) (head : Nat) : circular h head ↔ ∃ ns, WF h head ns := by
  constructor
  · rintro ⟨h0, fuel, ns, hf, hz, hA⟩
    obtain ⟨hs, hh⟩ := seg_of_elements fuel head ns hf (fun A hA1 => (hA A hA1).1)
    exact ⟨ns, h0, hz, hh, seg_nodup ns head hs hh, hs⟩
  · rintro ⟨ns, h0, hz, hh, hnd, hs⟩
    refine ⟨h0, ns.length + 1, ns, elements_of_seg ns head _ hs hh (by omega), hz, ?_⟩
    intro A hA
    refine ⟨seg_prev_next ns head hs A hA, seg_next_prev ns head hs A ?_⟩
    simp at hA ⊢
    tauto

theorem elements_length {h : Heap} {head : Nat} :
    ∀ (fuel p : Nat) (ns : List Nat), elements h head fuel p = some ns → ns.length < fuel := by
  intro fuel
  induction fuel with
  | zero => intro p ns he; simp [elements] at he
  | succ fuel ih =>
    intro p ns he
    by_cases hp : p = head
    · simp [elements, hp] at he
      subst he
      simp
    · simp only [elements, hp, if_false, Option.map_eq_some'] at he
      obtain ⟨rest, hr, rfl⟩ := he
      have := ih _ rest hr
      simp only [List.length_cons]
      omega

theorem WF.of_forward {h : Heap} {head fuel : Nat} {ns : List Nat} (h0 : head ≠ 0)
    (hfw : forward fuel h head = some ns) (hz : 0 ∉ ns)
    (hA : ∀ A ∈ head :: ns, h.prev (h.next A) = A ∧ h.next (h.prev A) = A) :
    WF h head ns ∧ ns.length < fuel := by
  obtain ⟨hs, hh⟩ := seg_of_elements fuel head ns hfw (fun A hA1 => (hA A hA1).1)
  exact ⟨⟨h0, hz, hh, seg_nodup ns head hs hh, hs⟩, elements_length fuel _ ns hfw⟩

theorem WF.forward_eq {h : Heap} {head : Nat} {ns : List Nat} {fuel : Nat}
    (hw : WF h head ns) (hf : ns.length < fuel) : forward fuel h head = some ns :=
  elements_of_seg ns head fuel hw.2.2.2.2 hw.2.2.1 hf

/-! ### Insertion and removal -/

theorem q_insert_tail_spec {h : Heap} {head : Nat} {ns : List Nat} (s : List Nat)
    {re rs : Nat} (hw : WF h head ns) (hre : re ≠ 0) (hrs : rs ≠ 0) (hreh : re ≠ head)
    (hren : re ∉ ns) :
    (q_insert_tail h head s re rs).2 = true ∧
      WF (q_insert_tail h head s re rs).1 head (ns ++ [re]) ∧
      (q_insert_tail h head s re rs).1.value = Function.update h.value re rs ∧
      (q_insert_tail h head s re rs).1.str = Function.update h.str rs (cstr s) := by
  have h0 := hw.1
  have e1 : q_insert_tail h head s re rs =
      (list_add_tail ((strdup (malloc h re).1 s rs).1.setValue re rs) re head, true) := by
    simp [q_insert_tail, malloc, strdup, h0, hre, hrs]
  rw [e1]
  refine ⟨rfl, ?_, ?_, ?_⟩
  · refine list_add_tail_wf (hw.congr ?_ ?_) hre hreh hren <;>
      simp [malloc, strdup, hre, hrs]
  · funext x
    simp [list_add_tail, malloc, strdup, hre, hrs, Function.update_apply]
  · simp [list_add_tail, malloc, strdup, hre, hrs]

theorem q_insert_head_spec {h : Heap} {head : Nat} {ns : List Nat} (s : List Nat)
    {re rs : Nat} (hw : WF h head ns) (hre : re ≠ 0) (hrs : rs ≠ 0) (hreh : re ≠ head)
    (hren : re ∉ ns) :
    (q_insert_head h head s re rs).2 = true ∧
      WF (q_insert_head h head s re rs).1 head (re :: ns) ∧
      (q_insert_head h head s re rs).1.value = Function.update h.value re rs ∧
      (q_insert_head h head s re rs).1.str = Function.update h.str rs (cstr s) := by
  have h0 := hw.1
  have e1 : q_insert_head h head s re rs =
      (list_add ((strdup (malloc h re).1 s rs).1.setValue re rs) re head, true) := by
    simp [q_insert_head, malloc, strdup, h0, hre, hrs]
  rw [e1]
  refine ⟨rfl, ?_, ?_, ?_⟩
  · refine list_add_wf (hw.congr ?_ ?_) hre hreh hren <;>
      simp [malloc, strdup, hre, hrs]
  · funext x
    simp [list_add, malloc, strdup, hre, hrs, Function.update_apply]
  · simp [list_add, malloc, strdup, hre, hrs]

theorem q_remove_head_spec {h : Heap} {head e : Nat} {ns : List Nat} (sp bufsize : Nat)
    (hw : WF h head (e :: ns)) :
    (q_remove_head h head sp bufsize).2 = e ∧
      WF (q_remove_head h head sp bufsize).1 head ns ∧
      (q_remove_head h head sp bufsize).1.value = h.value ∧
      (q_remove_head h head sp bufsize).1.str = h.str := by
  have h0 := hw.1
  have hne : list_empty h head = false := by
    rw [Bool.eq_false_iff, Ne, hw.list_empty_iff]; simp
  have hnx : h.next head = e := hw.next_head
  unfold q_remove_head
  simp only [h0, hne, false_or, Bool.false_eq_true, if_false, hnx]
  refine ⟨trivial, ?_, ?_, ?_⟩
  · have hw1 : WF (if sp ≠ 0 then
        (strncpy h sp (h.str (h.value e)) (sizePred bufsize)).setByte sp (sizePred bufsize) 0
        else h) head ([] ++ e :: ns) := by
      refine hw.congr ?_ ?_ <;> split <;> rfl
    exact list_del_wf hw1
  · split <;> rfl
  · split <;> rfl

theorem q_remove_tail_spec {h : Heap} {head e : Nat} {ns : List Nat} (sp bufsize : Nat)
    (hw : WF h head (ns ++ [e])) :
    (q_remove_tail h head sp bufsize).2 = e ∧
      WF (q_remove_tail h head sp bufsize).1 head ns ∧
      (q_remove_tail h head sp bufsize).1.value = h.value ∧
      (q_remove_tail h head sp bufsize).1.str = h.str := by
  have h0 := hw.1
  have hne : list_empty h head = false := by
    rw [Bool.eq_false_iff, Ne, hw.list_empty_iff]; simp
  have hpv : h.prev head = e := by
    rw [hw.prev_head]; simp
  unfold q_remove_tail
  simp only [h0, hne, false_or, Bool.false_eq_true, if_false, hpv]
  refine ⟨trivial, ?_, ?_, ?_⟩
  · have hw1 : WF (if sp ≠ 0 then
        (strncpy h sp (h.str (h.value e)) (sizePred bufsize)).setByte sp (sizePred bufsize) 0
        else h) head (ns ++ e :: []) := by
      refine hw.congr ?_ ?_ <;> split <;> rfl
    simpa using list_del_wf hw1
  · split <;> rfl
  · split <;> rfl

theorem cstr_idem (s : List Nat) : cstr (cstr s) = cstr s := by
  unfold cstr
  induction s with
  | nil => rfl
  | cons a as ih =>
    by_cases ha : a = 0
    · simp [List.takeWhile_cons, ha]
    · simp [List.takeWhile_cons, ha, ih]

theorem q_new_spec (h : Heap) {q : Nat} (hq : q ≠ 0) :
    (q_new h q).2 = q ∧ WF (q_new h q).1 q [] ∧ (q_new h q).1.value = h.value ∧
      (q_new h q).1.str = h.str := by
  simp [q_new, malloc, hq, INIT_LIST_HEAD, WF, seg]

theorem insert_tails_spec (head : Nat) :
    ∀ (calls : List (List Nat × Nat × Nat)) (h : Heap) (ns : List Nat),
      WF h head ns → (callAddrs calls).Nodup → 0 ∉ callAddrs calls →
      head ∉ callAddrs calls → (∀ a ∈ callAddrs calls, a ∉ ns) →
      (∀ a ∈ callAddrs calls, a ∉ ns.map h.value) →
      (insert_tails head calls h).2 = true ∧
        WF (insert_tails head calls h).1 head (ns ++ calls.map (fun c => c.2.1)) ∧
        (ns ++ calls.map (fun c => c.2.1)).map (insert_tails head calls h).1.text =
          ns.map h.text ++ calls.map (fun c => cstr c.1) := by
  intro calls
  induction calls with
  | nil =>
    intro h ns hw _ _ _ _ _
    simp [insert_tails, hw]
  | cons c rest ih =>
    obtain ⟨s, re, rs⟩ := c
    intro h ns hw hnd hz hh hns hvs
    simp only [callAddrs, List.flatMap_cons, List.cons_append, List.nil_append,
      List.nodup_cons, List.mem_cons, not_or, forall_eq_or_imp] at hnd hz hh hns hvs
    have hc : callAddrs rest = rest.flatMap (fun c => [c.2.1, c.2.2]) := rfl
    rw [← hc] at hnd hz hh hns hvs
    obtain ⟨ok1, hw1, hv1, hs1⟩ :=
      q_insert_tail_spec s hw (Ne.symm hz.1) (Ne.symm hz.2.1) (Ne.symm hh.1) hns.1
    have hval : ns.map (q_insert_tail h head s re rs).1.value = ns.map h.value := by
      apply List.map_congr_left
      intro x hx
      have : x ≠ re := by rintro rfl; exact hns.1 hx
      simp [hv1, Function.update_apply, this]
    have htx : ns.map (q_insert_tail h head s re rs).1.text = ns.map h.text := by
      apply List.map_congr_left
      intro x hx
      have h1 : x ≠ re := by rintro rfl; exact hns.1 hx
      have h2 : h.value x ≠ rs := by
        intro c
        exact hvs.2.1 (c ▸ List.mem_map_of_mem h.value hx)
      simp [Heap.text, hv1, hs1, Function.update_apply, h1, h2]
    have hte : (q_insert_tail h head s re rs).1.text re = cstr s := by
      simp [Heap.text, hv1, hs1, cstr_idem]
    obtain ⟨ok2, hw2, ht2⟩ := ih (q_insert_tail h head s re rs).1 (ns ++ [re]) hw1 hnd.2.2
      hz.2.2 hh.2.2
      (fun a ha => by
        have := hns.2.2 a ha
        simp only [List.mem_append, List.mem_singleton, not_or]
        exact ⟨this, fun c => hnd.1.2 (c ▸ ha)⟩)
      (fun a ha => by
        rw [List.map_append, hval]
        simp only [List.mem_append, List.map_cons, List.map_nil, List.mem_singleton, not_or]
        refine ⟨hvs.2.2 a ha, ?_⟩
        simp only [hv1, Function.update_same]
        exact fun c => hnd.2.1 (c ▸ ha))
    simp only [insert_tails, List.map_cons]
    refine ⟨by simp [ok1, ok2], ?_, ?_⟩
    · simpa using hw2
    · have e : ns ++ re :: rest.map (fun c => c.2.1) =
          (ns ++ [re]) ++ rest.map (fun c => c.2.1) := by simp
      rw [e, ht2, List.map_append, htx]
      simp [hte]

theorem remove_heads_spec (head sp bufsize : Nat) :
    ∀ (es : List Nat) (h : Heap) (rest : List Nat), WF h head (es ++ rest) →
      (remove_heads head sp bufsize es.length h).2 = es ∧
        WF (remove_heads head sp bufsize es.length h).1 head rest ∧
        (remove_heads head sp bufsize es.length h).1.value = h.value ∧
        (remove_heads head sp bufsize es.length h).1.str = h.str := by
  intro es
  induction es with
  | nil => intro h rest hw; simpa [remove_heads] using hw
  | cons e es ih =>
    intro h rest hw
    obtain ⟨h1, h2, h3, h4⟩ := q_remove_head_spec sp bufsize hw
    obtain ⟨i1, i2, i3, i4⟩ := ih _ rest h2
    simp only [remove_heads, List.length_cons]
    exact ⟨by rw [h1, i1], i2, by rw [i3, h3], by rw [i4, h4]⟩

theorem remove_tails_spec (head sp bufsize : Nat) :
    ∀ (es : List Nat) (h : Heap) (pre : List Nat), WF h head (pre ++ es) →
      (remove_tails head sp bufsize es.length h).2 = es.reverse ∧
        WF (remove_tails head sp bufsize es.length h).1 head pre ∧
        (remove_tails head sp bufsize es.length h).1.value = h.value ∧
        (remove_tails head sp bufsize es.length h).1.str = h.str := by
  intro es
  induction es using List.reverseRecOn with
  | nil => intro h pre hw; simpa [remove_tails] using hw
  | append_singleton es e ih =>
    intro h pre hw
    rw [← List.append_assoc] at hw
    obtain ⟨h1, h2, h3, h4⟩ := q_remove_tail_spec sp bufsize hw
    obtain ⟨i1, i2, i3, i4⟩ := ih _ pre h2
    simp only [remove_tails, List.length_append, List.length_singleton, List.reverse_append,
      List.reverse_singleton, List.singleton_append]
    exact ⟨by rw [h1, i1], i2, by rw [i3, h3], by rw [i4, h4]⟩

theorem text_congr {h h1 : Heap} (hv : h1.value = h.value) (hs : h1.str = h.str) :
    h1.text = h.text := by
  funext x
  simp [Heap.text, hv, hs]

/-! ### Size -/

theorem wrapInt32_add (x y : Int) : wrapInt32 (wrapInt32 x + y) = wrapInt32 (x + y) := by
  unfold wrapInt32
  omega

theorem wrapInt32_of_lt {x : Int} (h0 : 0 ≤ x) (h1 : x < 2 ^ 31) : wrapInt32 x = x := by
  unfold wrapInt32
  omega

theorem q_size_loop_spec (h : Heap) (head : Nat) :
    ∀ (as : List Nat) (p : Nat) (i : Int) (fuel : Nat), seg h p as head → head ∉ as →
      as.length < fuel → wrapInt32 i = i →
      q_size_loop h head fuel (h.next p) i = some (wrapInt32 (i + as.length)) := by
  intro as
  induction as with
  | nil =>
    intro p i fuel hs _ hf hi
    obtain ⟨fuel, rfl⟩ : ∃ k, fuel = k + 1 := ⟨fuel - 1, by simp at hf; omega⟩
    simp [q_size_loop, hs.1, hi]
  | cons a as ih =>
    intro p i fuel hs hh hf hi
    obtain ⟨fuel, rfl⟩ : ∃ k, fuel = k + 1 := ⟨fuel - 1, by simp at hf; omega⟩
    simp only [List.mem_cons, not_or] at hh
    have ha : a ≠ head := Ne.symm hh.1
    rw [seg_cons] at hs
    simp only [q_size_loop, hs.1, ha, ne_eq, not_false_eq_true, if_true]
    rw [ih a _ fuel hs.2.2 hh.2 (by simp at hf; omega) (by rw [← wrapInt32_add]; simp [wrapInt32]),
      wrapInt32_add]
    congr 2
    simp only [List.length_cons]
    push_cast
    ring

/-- The value computed by `q_size` on a well-formed queue: the number of
elements, in the 32-bit arithmetic of `int`. -/
theorem q_size_wrap {h : Heap} {head : Nat} {ns : List Nat} {fuel : Nat}
    (hw : WF h head ns) (hf : ns.length < fuel) :
    q_size fuel h head = some (wrapInt32 ns.length) := by
  unfold q_size
  by_cases he : ns = []
  · subst he
    simp [hw.list_empty_iff.2 rfl, wrapInt32]
  · have hne : list_empty h head = false := by
      rw [Bool.eq_false_iff, Ne, hw.list_empty_iff]; exact he
    simp only [hw.1, hne, false_or, Bool.false_eq_true, if_false]
    have := q_size_loop_spec h head ns head 0 fuel hw.2.2.2.2 hw.2.2.1 hf (by simp [wrapInt32])
    simpa using this

theorem q_size_count {h : Heap} {head : Nat} {ns : List Nat} {fuel : Nat}
    (hw : WF h head ns) (hf : ns.length < fuel) (hlt : ns.length < 2 ^ 31) :
    q_size fuel h head = some (ns.length : Int) := by
  rw [q_size_wrap hw hf, wrapInt32_of_lt (by positivity) (by exact_mod_cast hlt)]

theorem seg_range (h : Heap) (q : Nat) :
    ∀ (n p : Nat), (∀ i, p ≤ i → i < p + n → h.next i = i + 1 ∧ h.prev (i + 1) = i) →
      h.next (p + n) = q → h.prev q = p + n → seg h p (List.range' (p + 1) n) q := by
  intro n
  induction n with
  | zero =>
    intro p _ h1 h2
    exact ⟨by simpa using h1, by simpa using h2⟩
  | succ n ih =>
    intro p hl h1 h2
    rw [List.range'_succ, seg_cons]
    refine ⟨(hl p (le_refl p) (by omega)).1, (hl p (le_refl p) (by omega)).2, ?_⟩
    refine ih (p + 1) (fun i hi1 hi2 => hl i (by omega) (by omega)) ?_ ?_
    · rw [← h1]; congr 1; omega
    · rw [h2]; omega

theorem bigHeap_wf : WF bigHeap 1 (List.range' 2 2147483648) := by
  refine ⟨by decide, ?_, ?_, List.nodup_range' 2 2147483648, ?_⟩
  · simp only [List.mem_range'_1]; omega
  · simp only [List.mem_range'_1]; omega
  · refine seg_range bigHeap 1 2147483648 1 ?_ ?_ ?_
    · intro i h1 h2
      have e1 : i ≠ 2147483649 := by omega
      have e2 : i + 1 ≠ 1 := by omega
      simp [bigHeap, e1, e2]
    · simp [bigHeap]
    · simp [bigHeap]

/-! ### Deleting the middle element -/

theorem q_delete_mid_loop_spec (h : Heap) :
    ∀ (n : Nat) (mid : List Nat) (P Q l r fuel : Nat), mid.length = n → mid.Nodup →
      seg h P mid Q → mid.head? = some l → mid.getLast? = some r → n ≤ fuel →
      q_delete_mid_loop h fuel l r = mid[(mid.length - 1) / 2]? := by
  intro n
  induction n using Nat.strong_induction_on with
  | _ n ih =>
    intro mid P Q l r fuel hlen hnd hs hl hr hf
    cases mid with
    | nil => simp at hl
    | cons a t =>
      simp only [List.head?_cons, Option.some.injEq] at hl
      subst hl
      obtain ⟨fuel, rfl⟩ : ∃ k, fuel = k + 1 := ⟨fuel - 1, by simp at hlen; omega⟩
      rcases List.eq_nil_or_concat t with rfl | ⟨m, b, rfl⟩
      · simp at hr
        subst hr
        simp [q_delete_mid_loop]
      · rw [List.concat_eq_append] at *
        have hr1 : r = b := by
          have : (a :: (m ++ [b])).getLast? = some b := by
            rw [← List.cons_append, List.getLast?_append]; simp
          rw [this] at hr
          exact (Option.some.inj hr).symm
        subst hr1
        rw [seg_cons, seg_concat] at hs
        obtain ⟨hs1, hs2, hs3, hs4, hs5⟩ := hs
        have hab : a ≠ r := by
          rintro rfl
          simp at hnd
        cases m with
        | nil =>
          have hna : h.next a = r := hs3.1
          simp [q_delete_mid_loop, hab, hna]
        | cons c m1 =>
          have hna : h.next a = c := hs3.1
          have hcr : c ≠ r := by
            rintro rfl
            simp at hnd
          have hpr : h.prev r = (c :: m1).getLast (List.cons_ne_nil _ _) := by
            rw [seg_prev hs3, List.getLast_cons (List.cons_ne_nil _ _)]
          have hnd1 : (c :: m1).Nodup := by
            have := (List.nodup_cons.1 hnd).2
            exact (List.nodup_append.1 this).1
          have hrec := ih (c :: m1).length (by simp at hlen ⊢; omega) (c :: m1) a r c
            ((c :: m1).getLast (List.cons_ne_nil _ _)) fuel rfl hnd1 hs3 rfl
            (List.getLast?_eq_getLast _ _) (by simp at hlen hf ⊢; omega)
          simp only [q_delete_mid_loop, hab, hna, hcr, ne_eq, not_false_eq_true, and_self,
            if_true, hpr, hrec]
          have e1 : ((a :: (c :: m1 ++ [r])).length - 1) / 2 = ((c :: m1).length - 1) / 2 + 1 := by
            simp only [List.length_cons, List.length_append, List.length_nil]
            omega
          rw [e1, List.getElem?_cons_succ, List.getElem?_append_left]
          simp only [List.length_cons]
          omega

theorem q_delete_mid_spec {h : Heap} {head : Nat} {ns : List Nat} {fuel : Nat}
    (hw : WF h head ns) (hne : ns ≠ []) (hf : ns.length ≤ fuel) :
    ∃ e, ns[(ns.length - 1) / 2]? = some e ∧
      q_delete_mid fuel h head = some (q_release_element (list_del h e) e, true) ∧
      WF (q_release_element (list_del h e) e) head (ns.eraseIdx ((ns.length - 1) / 2)) := by
  have hlt : (ns.length - 1) / 2 < ns.length := by
    have : 0 < ns.length := List.length_pos.2 hne
    omega
  refine ⟨ns[(ns.length - 1) / 2], List.getElem?_eq_getElem hlt, ?_, ?_⟩
  · have hemp : list_empty h head = false := by
      rw [Bool.eq_false_iff, Ne, hw.list_empty_iff]; exact hne
    have hl : ns.head? = some (h.next head) := by
      rw [hw.next_head]
      cases ns with
      | nil => exact absurd rfl hne
      | cons a as => rfl
    have hr : ns.getLast? = some (h.prev head) := by
      rw [hw.prev_head, List.getLast?_eq_getLast _ hne, List.getLast_cons hne]
    have := q_delete_mid_loop_spec h ns.length ns head head _ _ fuel rfl hw.2.2.2.1
      hw.2.2.2.2 hl hr hf
    simp only [q_delete_mid, hw.1, hemp, false_or, Bool.false_eq_true, if_false, this,
      List.getElem?_eq_getElem hlt]
  · have hsplit : ns = ns.take ((ns.length - 1) / 2) ++
        ns[(ns.length - 1) / 2] :: ns.drop ((ns.length - 1) / 2 + 1) := by
      rw [← List.drop_eq_getElem_cons hlt, List.take_append_drop]
    have hw1 : WF h head (ns.take ((ns.length - 1) / 2) ++
        ns[(ns.length - 1) / 2] :: ns.drop ((ns.length - 1) / 2 + 1)) := by
      rw [← hsplit]; exact hw
    rw [List.eraseIdx_eq_take_drop_succ]
    exact (list_del_wf hw1).congr (by simp) (by simp)

/-! ### Reversal -/

theorem cyc_split_cases {head it : Nat} {ns done rest : List Nat}
    (e : head :: ns = done ++ it :: rest) :
    (done = [] ∧ it = head ∧ ns = rest) ∨ ∃ pre, done = head :: pre ∧ ns = pre ++ it :: rest := by
  cases done with
  | nil =>
    simp at e
    exact Or.inl ⟨rfl, e.1.symm, e.2⟩
  | cons d pre =>
    simp at e
    exact Or.inr ⟨pre, by rw [e.1], e.2⟩

theorem WF.next_at {h : Heap} {head it : Nat} {ns done rest : List Nat} (hw : WF h head ns)
    (e : head :: ns = done ++ it :: rest) : h.next it = (rest ++ [head]).headI := by
  rcases cyc_split_cases e with ⟨_, rfl, rfl⟩ | ⟨pre, _, rfl⟩
  · exact hw.next_head
  · exact (seg_next_at pre head it rest hw.2.2.2.2).1

theorem WF.cyc_nodup {h : Heap} {head : Nat} {ns : List Nat} (hw : WF h head ns) :
    (head :: ns).Nodup :=
  List.nodup_cons.2 ⟨hw.2.2.1, hw.2.2.2.1⟩

theorem q_reverse_node_swapLinks (h : Heap) (done : List Nat) (it : Nat) (hit : it ∉ done) :
    q_reverse_node (swapLinks h done) it = swapLinks h (done ++ [it]) := by
  ext x
  · by_cases hx : x = it
    · subst hx
      simp [q_reverse_node, swapLinks, hit]
    · by_cases hd : x ∈ done <;> simp [q_reverse_node, swapLinks, hx, hd]
  · by_cases hx : x = it
    · subst hx
      simp [q_reverse_node, swapLinks, hit]
    · by_cases hd : x ∈ done <;> simp [q_reverse_node, swapLinks, hx, hd]
  all_goals rfl

theorem q_reverse_loop_spec {h : Heap} {head : Nat} {ns : List Nat} (hw : WF h head ns) :
    ∀ (rest done : List Nat) (it fuel : Nat), head :: ns = done ++ it :: rest →
      rest.length < fuel →
      q_reverse_loop head fuel (swapLinks h done) it = some (swapLinks h (head :: ns)) := by
  intro rest
  induction rest with
  | nil =>
    intro done it fuel e hf
    obtain ⟨fuel, rfl⟩ : ∃ k, fuel = k + 1 := ⟨fuel - 1, by simp at hf; omega⟩
    have hnd := hw.cyc_nodup
    rw [e] at hnd
    have hit : it ∉ done := fun c => (List.nodup_append.1 hnd).2.2 c (by simp)
    have hnx := hw.next_at e
    simp only [List.nil_append, List.headI_cons] at hnx
    have hpv : (swapLinks h (done ++ [it])).prev it = head := by
      simp [swapLinks, hnx]
    simp only [q_reverse_loop, q_reverse_node_swapLinks h done it hit, hpv, ne_eq,
      not_true_eq_false, if_false, e]
  | cons a rest ih =>
    intro done it fuel e hf
    obtain ⟨fuel, rfl⟩ : ∃ k, fuel = k + 1 := ⟨fuel - 1, by simp at hf; omega⟩
    have hnd := hw.cyc_nodup
    rw [e] at hnd
    have hit : it ∉ done := fun c => (List.nodup_append.1 hnd).2.2 c (by simp)
    have hnx := hw.next_at e
    simp only [List.cons_append, List.headI_cons] at hnx
    have hah : a ≠ head := by
      rintro rfl
      rcases cyc_split_cases e with ⟨_, _, rfl⟩ | ⟨pre, _, rfl⟩
      · exact hw.2.2.1 (by simp)
      · exact hw.2.2.1 (by simp)
    have hpv : (swapLinks h (done ++ [it])).prev it = a := by
      simp [swapLinks, hnx]
    simp only [q_reverse_loop, q_reverse_node_swapLinks h done it hit, hpv, hah, ne_eq,
      not_false_eq_true, if_true]
    exact ih (done ++ [it]) a fuel (by simp [e]) (by simp at hf; omega)

/-- Exchanging the links along a path gives the reverse path. -/
theorem seg_reverse {h h1 : Heap} {q : Nat} :
    ∀ (as : List Nat) (p : Nat), seg h p as q →
      (∀ x ∈ as ++ [q], h1.next x = h.prev x) → (∀ x ∈ p :: as, h1.prev x = h.next x) →
      seg h1 q as.reverse p := by
  intro as
  induction as with
  | nil =>
    intro p hs hn hp
    rw [seg_nil] at hs
    simp [seg, hn q (by simp), hp p (by simp), hs.1, hs.2]
  | cons a as ih =>
    intro p hs hn hp
    rw [seg_cons] at hs
    rw [List.reverse_cons, seg_concat]
    refine ⟨ih a hs.2.2 (fun x hx => hn x (by simp at hx ⊢; tauto))
      (fun x hx => hp x (List.mem_cons_of_mem _ hx)), ?_, ?_⟩
    · rw [hn a (by simp)]; exact hs.2.1
    · rw [hp p (by simp)]; exact hs.1

theorem swapLinks_wf {h : Heap} {head : Nat} {ns : List Nat} (hw : WF h head ns) :
    WF (swapLinks h (head :: ns)) head ns.reverse := by
  obtain ⟨h0, hz, hh, hnd, hs⟩ := hw
  refine ⟨h0, by simpa using hz, by simpa using hh, List.nodup_reverse.2 hnd, ?_⟩
  refine seg_reverse ns head hs ?_ ?_
  · intro x hx
    have : x ∈ head :: ns := by simp at hx ⊢; tauto
    simp only [swapLinks, this, if_true]
  · intro x hx
    simp only [swapLinks, hx, if_true]

/-- On an empty queue the exchange of the links of the sentinel changes nothing. -/
theorem swapLinks_empty {h : Heap} {head : Nat} (hw : WF h head []) :
    swapLinks h [head] = h := by
  obtain ⟨_, _, _, _, hs⟩ := hw
  rw [seg_nil] at hs
  ext x
  · by_cases hx : x = head
    · subst hx; simp [swapLinks, hs.1, hs.2]
    · simp [swapLinks, hx]
  · by_cases hx : x = head
    · subst hx; simp [swapLinks, hs.1, hs.2]
    · simp [swapLinks, hx]
  all_goals rfl

theorem q_reverse_spec {h : Heap} {head : Nat} {ns : List Nat} {fuel : Nat}
    (hw : WF h head ns) (hf : ns.length < fuel) :
    q_reverse fuel h head = some (swapLinks h (head :: ns)) := by
  unfold q_reverse
  by_cases hne : ns = []
  · subst hne
    simp [hw.list_empty_iff.2 rfl, swapLinks_empty hw]
  · have hemp : list_empty h head = false := by
      rw [Bool.eq_false_iff, Ne, hw.list_empty_iff]; exact hne
    simp only [hw.1, hemp, false_or, Bool.false_eq_true, if_false]
    have h0 : swapLinks h [] = h := by
      ext x <;> simp [swapLinks]
    have := q_reverse_loop_spec hw ns [] head fuel (by simp) hf
    rwa [h0] at this

theorem swapLinks_swapLinks (h : Heap) (l l1 : List Nat) (hl : ∀ x, x ∈ l1 ↔ x ∈ l) :
    swapLinks (swapLinks h l) l1 = h := by
  ext x
  · by_cases hx : x ∈ l <;> simp [swapLinks, hx, hl]
  · by_cases hx : x ∈ l <;> simp [swapLinks, hx, hl]
  all_goals rfl

/-! ### Swapping adjacent pairs -/

/-- Redirecting the end of a path to a new target. -/
theorem seg_retarget_end {h h1 : Heap} {q q1 : Nat} :
    ∀ (as : List Nat) (p : Nat), seg h p as q → (p :: as).Nodup →
      (∀ x ∈ p :: as, x ≠ (p :: as).getLast (List.cons_ne_nil _ _) → h1.next x = h.next x) →
      (∀ x ∈ as, h1.prev x = h.prev x) →
      h1.next ((p :: as).getLast (List.cons_ne_nil _ _)) = q1 →
      h1.prev q1 = (p :: as).getLast (List.cons_ne_nil _ _) → seg h1 p as q1 := by
  intro as
  induction as with
  | nil =>
    intro p _ _ _ _ h3 h4
    exact ⟨by simpa using h3, by simpa using h4⟩
  | cons a as ih =>
    intro p hs hnd h1n h1p h3 h4
    rw [seg_cons] at hs
    rw [List.getLast_cons (List.cons_ne_nil _ _)] at h1n h3 h4
    have hpl : p ≠ (a :: as).getLast (List.cons_ne_nil _ _) := by
      intro c
      exact (List.nodup_cons.1 hnd).1 (c ▸ List.getLast_mem _)
    rw [seg_cons]
    refine ⟨by rw [h1n p (by simp) hpl]; exact hs.1, by rw [h1p a (by simp)]; exact hs.2.1, ?_⟩
    exact ih a hs.2.2 (List.nodup_cons.1 hnd).2
      (fun x hx hne => h1n x (List.mem_cons_of_mem _ hx) hne)
      (fun x hx => h1p x (List.mem_cons_of_mem _ hx)) h3 h4

/-- Redirecting the start of a path to a new source. -/
theorem seg_retarget_start {h h1 : Heap} {p p1 q : Nat} {as : List Nat} (hs : seg h p as q)
    (hnd : (as ++ [q]).Nodup) (h1n : ∀ x ∈ as, h1.next x = h.next x)
    (h1p : ∀ x ∈ as ++ [q], x ≠ (as ++ [q]).headI → h1.prev x = h.prev x)
    (h3 : h1.next p1 = (as ++ [q]).headI) (h4 : h1.prev (as ++ [q]).headI = p1) :
    seg h1 p1 as q := by
  cases as with
  | nil => exact ⟨by simpa using h3, by simpa using h4⟩
  | cons a as =>
    rw [seg_cons] at hs ⊢
    simp only [List.cons_append, List.headI_cons] at h1p h3 h4
    refine ⟨h3, h4, seg_congr h1n ?_ hs.2.2⟩
    intro x hx
    refine h1p x (List.mem_cons_of_mem _ hx) ?_
    rintro rfl
    exact (List.nodup_cons.1 hnd).1 hx

theorem q_swap_pair_next (h : Heap) (a b x : Nat) (h1 : h.next b ≠ a) (h2 : h.prev a ≠ b) :
    (q_swap_pair h a b).next x =
      if x = b then a else if x = a then h.next b else if x = h.prev a then b else h.next x := by
  simp [q_swap_pair, Ne.symm h1, Ne.symm h2]

theorem q_swap_pair_prev (h : Heap) (a b x : Nat) (h1 : h.next b ≠ a) :
    (q_swap_pair h a b).prev x =
      if x = a then b else if x = b then h.prev a else if x = h.next b then a else h.prev x := by
  simp [q_swap_pair, Ne.symm h1]

theorem q_swap_pair_wf {h : Heap} {head a b : Nat} {done r : List Nat}
    (hw : WF h head (done ++ a :: b :: r)) :
    WF (q_swap_pair h a b) head (done ++ b :: a :: r) := by
  obtain ⟨h0, hz, hh, hnd, hs⟩ := hw
  have hperm : (done ++ b :: a :: r).Perm (done ++ a :: b :: r) :=
    List.Perm.append_left _ (List.Perm.swap a b r)
  refine ⟨h0, fun c => hz (hperm.mem_iff.1 c), fun c => hh (hperm.mem_iff.1 c),
    hperm.nodup_iff.2 hnd, ?_⟩
  rw [seg_append, seg_cons] at hs
  obtain ⟨hs1, hs2, hs3, hs4⟩ := hs
  have hP : h.prev a = (head :: done).getLast (List.cons_ne_nil _ _) := seg_prev hs1
  have hR : h.next b = (r ++ [head]).headI := seg_next hs4
  have hPm : h.prev a ∈ head :: done := hP ▸ List.getLast_mem _
  have hRm : h.next b ∈ r ++ [head] := by
    rw [hR]; cases r <;> simp
  simp only [List.mem_append, List.mem_cons, not_or] at hh
  have hnd1 := List.nodup_append.1 hnd
  have hnd2 := List.nodup_cons.1 hnd1.2.1
  have hnd3 := List.nodup_cons.1 hnd2.2
  have hab : a ≠ b := fun c => hnd2.1 (by simp [c])
  have hA : ∀ x ∈ head :: done, x ≠ a ∧ x ≠ b ∧ x ∉ r := by
    intro x hx
    rcases List.mem_cons.1 hx with rfl | hx
    · exact ⟨hh.2.1, hh.2.2.1, hh.2.2.2⟩
    · exact ⟨fun c => hnd1.2.2 hx (by simp [c]), fun c => hnd1.2.2 hx (by simp [c]),
        fun c => hnd1.2.2 hx (by simp [c])⟩
  have hB : ∀ x ∈ r ++ [head], x ≠ a ∧ x ≠ b ∧ x ∉ done := by
    intro x hx
    rcases List.mem_append.1 hx with hx | hx
    · exact ⟨fun c => hnd2.1 (by simp [← c, hx]), fun c => hnd3.1 (c ▸ hx),
        fun c => hnd1.2.2 c (by simp [hx])⟩
    · simp at hx
      subst hx
      exact ⟨hh.2.1, hh.2.2.1, hh.1⟩
  have c1 : h.next b ≠ a := (hB _ hRm).1
  have c2 : h.prev a ≠ b := (hA _ hPm).2.1
  have c3 : h.prev a ≠ a := (hA _ hPm).1
  have c4 : h.next b ≠ b := (hB _ hRm).2.1
  rw [seg_append, seg_cons]
  refine ⟨?_, ?_, ?_, ?_⟩
  · refine seg_retarget_end done head hs1 (List.nodup_cons.2 ⟨hh.1, hnd1.1⟩) ?_ ?_ ?_ ?_
    · intro x hx hne
      rw [← hP] at hne
      simp [q_swap_pair_next h a b x c1 c2, (hA x hx).1, (hA x hx).2.1, hne]
    · intro x hx
      have hx1 := hA x (List.mem_cons_of_mem _ hx)
      have hxR : x ≠ h.next b := by
        rintro rfl
        rcases List.mem_append.1 hRm with c | c
        · exact hx1.2.2 c
        · simp at c; exact hh.1 (c ▸ hx)
      simp [q_swap_pair_prev h a b x c1, hx1.1, hx1.2.1, hxR]
    · rw [← hP]
      simp [q_swap_pair_next h a b _ c1 c2, c2, c3]
    · rw [← hP]
      simp [q_swap_pair_prev h a b _ c1, hab.symm]
  · simp [q_swap_pair_next h a b _ c1 c2]
  · simp [q_swap_pair_prev h a b _ c1]
  · refine seg_retarget_start hs4 ?_ ?_ ?_ ?_ ?_
    · exact List.Nodup.append hnd3.2 (List.nodup_singleton _) (by simpa using hh.2.2.2)
    · intro x hx
      have hx1 := hB x (List.mem_append_left _ hx)
      have hxP : x ≠ h.prev a := by
        rintro rfl
        exact (hA _ hPm).2.2 hx
      simp [q_swap_pair_next h a b x c1 c2, hx1.1, hx1.2.1, hxP]
    · intro x hx hne
      rw [← hR] at hne
      simp [q_swap_pair_prev h a b x c1, (hB x hx).1, (hB x hx).2.1, hne]
    · rw [← hR]
      simp [q_swap_pair_next h a b _ c1 c2, hab]
    · rw [← hR]
      simp [q_swap_pair_prev h a b _ c1, c1, c4]

theorem sameData.refl (h : Heap) : sameData h h :=
  ⟨rfl, rfl, rfl, rfl, rfl⟩

theorem sameData.trans {h2 h1 h : Heap} (a : sameData h2 h1) (b : sameData h1 h) :
    sameData h2 h :=
  ⟨a.1.trans b.1, a.2.1.trans b.2.1, a.2.2.1.trans b.2.2.1, a.2.2.2.1.trans b.2.2.2.1,
    a.2.2.2.2.trans b.2.2.2.2⟩

theorem q_swap_pair_sameData (h : Heap) (a b : Nat) : sameData (q_swap_pair h a b) h :=
  ⟨rfl, rfl, rfl, rfl, rfl⟩

theorem q_swap_loop_spec (head : Nat) :
    ∀ (n : Nat) (rest done pre : List Nat) (P : Nat) (h : Heap) (fuel : Nat),
      rest.length = n → WF h head (done ++ rest) → head :: done = pre ++ [P] → n < fuel →
      ∃ h1, q_swap_loop head fuel h (h.next P) (h.next (h.next P)) = some h1 ∧
        WF h1 head (done ++ swapPairs rest) ∧ sameData h1 h := by
  intro n
  induction n using Nat.strong_induction_on with
  | _ n ih =>
    intro rest done pre P h fuel hlen hw hP hf
    obtain ⟨fuel, rfl⟩ : ∃ k, fuel = k + 1 := ⟨fuel - 1, by omega⟩
    have e0 : head :: (done ++ rest) = pre ++ P :: rest := by
      rw [← List.cons_append, hP]; simp
    have hnP := hw.next_at e0
    have hh := hw.2.2.1
    simp only [List.mem_append, not_or] at hh
    cases rest with
    | nil =>
      simp only [List.nil_append, List.headI_cons] at hnP
      exact ⟨h, by simp [q_swap_loop, hnP], by simpa [swapPairs] using hw, sameData.refl h⟩
    | cons a rest =>
      simp only [List.cons_append, List.headI_cons] at hnP
      have e1 : head :: (done ++ a :: rest) = (pre ++ [P]) ++ a :: rest := by
        rw [e0]; simp
      have hna := hw.next_at e1
      have hah : a ≠ head := fun c => hh.2 (by simp [c])
      cases rest with
      | nil =>
        simp only [List.nil_append, List.headI_cons] at hna
        exact ⟨h, by simp [q_swap_loop, hnP, hna], by simpa [swapPairs] using hw, sameData.refl h⟩
      | cons b r =>
        simp only [List.cons_append, List.headI_cons] at hna
        have hbh : b ≠ head := fun c => hh.2 (by simp [c])
        have hw6 := q_swap_pair_wf hw
        have hw6a : WF (q_swap_pair h a b) head ((done ++ [b, a]) ++ r) := by
          simpa using hw6
        obtain ⟨h1, hl, hw1, hd1⟩ := ih r.length (by simp at hlen; omega) r (done ++ [b, a])
          (pre ++ [P] ++ [b]) a (q_swap_pair h a b) fuel rfl hw6a
          (by rw [← List.cons_append, hP]; simp) (by simp at hlen; omega)
        refine ⟨h1, ?_, by simpa [swapPairs] using hw1, hd1.trans (q_swap_pair_sameData h a b)⟩
        simp only [q_swap_loop, hnP, hna, hah, hbh, ne_eq, not_false_eq_true, and_self, if_true]
        exact hl

theorem q_swap_spec {h : Heap} {head : Nat} {ns : List Nat} {fuel : Nat}
    (hw : WF h head ns) (hf : ns.length < fuel) :
    ∃ h1, q_swap fuel h head = some h1 ∧ WF h1 head (swapPairs ns) ∧ sameData h1 h := by
  unfold q_swap
  by_cases hne : ns = []
  · subst hne
    exact ⟨h, by simp [hw.list_empty_iff.2 rfl], by simpa [swapPairs] using hw, sameData.refl h⟩
  · have hemp : list_empty h head = false := by
      rw [Bool.eq_false_iff, Ne, hw.list_empty_iff]; exact hne
    simp only [hw.1, hemp, false_or, Bool.false_eq_true, if_false]
    exact q_swap_loop_spec head ns.length ns [] [] head h fuel rfl hw rfl hf

/-! ### Deleting the runs of duplicates -/

theorem WF.prev_next {h : Heap} {head : Nat} {ns : List Nat} (hw : WF h head ns) {x : Nat}
    (hx : x ∈ head :: ns) : h.prev (h.next x) = x :=
  seg_prev_next ns head hw.2.2.2.2 x hx

theorem WF.prev_at {h : Heap} {head c x : Nat} {ns pre rest : List Nat} (hw : WF h head ns)
    (e : head :: ns = pre ++ [c] ++ x :: rest) : h.prev x = c := by
  rcases cyc_split_cases e with ⟨c1, _, _⟩ | ⟨pre1, c1, rfl⟩
  · simp at c1
  · rw [(seg_next_at pre1 head x rest hw.2.2.2.2).2]
    simp [← c1]

theorem q_delete_dup_unlink_spec {h : Heap} {head c x : Nat} {kept pre rest : List Nat}
    (hw : WF h head (kept ++ x :: rest)) (hc : head :: kept = pre ++ [c]) :
    (q_delete_dup_unlink h c).2 = x ∧ WF (q_delete_dup_unlink h c).1 head (kept ++ rest) ∧
      sameData (q_delete_dup_unlink h c).1 h := by
  have e0 : head :: (kept ++ x :: rest) = pre ++ c :: x :: rest := by
    rw [← List.cons_append, hc]; simp
  have e1 : head :: (kept ++ x :: rest) = pre ++ [c] ++ x :: rest := by
    rw [e0]; simp
  have hnc : h.next c = x := by simpa using hw.next_at e0
  have hpx : h.prev x = c := hw.prev_at e1
  refine ⟨hnc, ?_, ⟨rfl, rfl, rfl, rfl, rfl⟩⟩
  refine unlink_wf hw ?_ ?_
  · intro z _
    simp [q_delete_dup_unlink, hnc, hpx]
  · intro z _
    simp [q_delete_dup_unlink, hnc, hpx]

theorem runTail_ne_nil (h : Heap) : ∀ (ys : List Nat) (y : Nat), runTail h y ys ≠ [] := by
  intro ys
  induction ys with
  | nil => intro y; simp [runTail]
  | cons z r ih =>
    intro y
    unfold runTail
    split
    · exact ih z
    · simp

theorem runTail_length (h : Heap) :
    ∀ (ys : List Nat) (y : Nat), (runTail h y ys).length ≤ ys.length + 1 := by
  intro ys
  induction ys with
  | nil => intro y; simp [runTail]
  | cons z r ih =>
    intro y
    unfold runTail
    split
    · have := ih z
      simp only [List.length_cons]
      omega
    · simp

theorem dropRuns_true (h : Heap) :
    ∀ (ys : List Nat) (y : Nat),
      dropRuns h true (y :: ys) = dropRuns h false (runTail h y ys).tail := by
  intro ys
  induction ys with
  | nil => intro y; simp [dropRuns, runTail]
  | cons z r ih =>
    intro y
    by_cases hyz : sameText h y z
    · simp [dropRuns, runTail, hyz, ih z]
    · simp [dropRuns, runTail, hyz]

theorem sameText_congr {h h1 : Heap} (hv : h1.value = h.value) (hs : h1.str = h.str)
    (a b : Nat) : sameText h1 a b ↔ sameText h a b := by
  simp [sameText, hv, hs]

theorem runTail_congr {h h1 : Heap} (hv : h1.value = h.value) (hs : h1.str = h.str) :
    ∀ (ys : List Nat) (y : Nat), runTail h1 y ys = runTail h y ys := by
  intro ys
  induction ys with
  | nil => intro y; rfl
  | cons z r ih =>
    intro y
    simp only [runTail, sameText_congr hv hs, ih]

theorem dropRuns_congr {h h1 : Heap} (hv : h1.value = h.value) (hs : h1.str = h.str) :
    ∀ (l : List Nat) (b : Bool), dropRuns h1 b l = dropRuns h b l := by
  intro l
  induction l with
  | nil => intro b; rfl
  | cons x l ih =>
    intro b
    cases l with
    | nil => rfl
    | cons y r => simp only [dropRuns, sameText_congr hv hs, ih]

theorem q_delete_dup_run_succ (head c fuel : Nat) (h : Heap) :
    q_delete_dup_run head c (fuel + 1) h =
      if (q_release_element (q_delete_dup_unlink h c).1 (q_delete_dup_unlink h c).2).next
            ((q_release_element (q_delete_dup_unlink h c).1 (q_delete_dup_unlink h c).2).next c)
            ≠ head ∧
          sameText (q_release_element (q_delete_dup_unlink h c).1 (q_delete_dup_unlink h c).2)
            ((q_release_element (q_delete_dup_unlink h c).1 (q_delete_dup_unlink h c).2).next c)
            ((q_release_element (q_delete_dup_unlink h c).1 (q_delete_dup_unlink h c).2).next
              ((q_release_element (q_delete_dup_unlink h c).1
                (q_delete_dup_unlink h c).2).next c)) then
        q_delete_dup_run head c fuel
          (q_release_element (q_delete_dup_unlink h c).1 (q_delete_dup_unlink h c).2)
      else some (q_release_element (q_delete_dup_unlink h c).1 (q_delete_dup_unlink h c).2) :=
  rfl

/-- One unlinking step followed by the release of the unlinked element. -/
theorem unlink_release_spec {h : Heap} {head c x : Nat} {kept pre rest : List Nat}
    (hw : WF h head (kept ++ x :: rest)) (hc : head :: kept = pre ++ [c]) :
    WF (q_release_element (q_delete_dup_unlink h c).1 (q_delete_dup_unlink h c).2) head
        (kept ++ rest) ∧
      (q_release_element (q_delete_dup_unlink h c).1 (q_delete_dup_unlink h c).2).value =
        h.value ∧
      (q_release_element (q_delete_dup_unlink h c).1 (q_delete_dup_unlink h c).2).str =
        h.str := by
  obtain ⟨_, hw2, hd2⟩ := q_delete_dup_unlink_spec hw hc
  exact ⟨hw2.congr (release_next _ _) (release_prev _ _), by rw [release_value, hd2.1],
    by rw [release_str, hd2.2.1]⟩

theorem q_delete_dup_run_spec (head c : Nat) {kept pre : List Nat}
    (hc : head :: kept = pre ++ [c]) :
    ∀ (ys : List Nat) (x y : Nat) (h : Heap) (fuel : Nat),
      WF h head (kept ++ x :: y :: ys) → ys.length < fuel →
      ∃ h1, q_delete_dup_run head c fuel h = some h1 ∧
        WF h1 head (kept ++ runTail h y ys) ∧ h1.value = h.value ∧ h1.str = h.str := by
  intro ys
  induction ys with
  | nil =>
    intro x y h fuel hw hf
    obtain ⟨fuel, rfl⟩ : ∃ k, fuel = k + 1 := ⟨fuel - 1, by omega⟩
    obtain ⟨hw3, hv3, hs3⟩ := unlink_release_spec hw hc
    have e0 : head :: (kept ++ [y]) = pre ++ c :: [y] := by
      rw [← List.cons_append, hc]; simp
    have e1 : head :: (kept ++ [y]) = (pre ++ [c]) ++ y :: [] := by
      rw [e0]; simp
    have hnc := hw3.next_at e0
    have hny := hw3.next_at e1
    simp only [List.cons_append, List.nil_append, List.headI_cons] at hnc hny
    refine ⟨_, ?_, by simpa [runTail] using hw3, hv3, hs3⟩
    rw [q_delete_dup_run_succ, hnc, hny]
    simp
  | cons z r ih =>
    intro x y h fuel hw hf
    obtain ⟨fuel, rfl⟩ : ∃ k, fuel = k + 1 := ⟨fuel - 1, by omega⟩
    obtain ⟨hw3, hv3, hs3⟩ := unlink_release_spec hw hc
    have e0 : head :: (kept ++ y :: z :: r) = pre ++ c :: y :: z :: r := by
      rw [← List.cons_append, hc]; simp
    have e1 : head :: (kept ++ y :: z :: r) = (pre ++ [c]) ++ y :: z :: r := by
      rw [e0]; simp
    have hnc := hw3.next_at e0
    have hny := hw3.next_at e1
    simp only [List.cons_append, List.headI_cons] at hnc hny
    have hzh : z ≠ head := by
      rintro rfl
      exact hw3.2.2.1 (by simp)
    rw [q_delete_dup_run_succ, hnc, hny]
    by_cases hyz : sameText h y z
    · have hyz3 := (sameText_congr hv3 hs3 y z).2 hyz
      simp only [hzh, ne_eq, not_false_eq_true, hyz3, and_self, if_true]
      obtain ⟨h1, hr, hw1, hv1, hs1⟩ := ih y z _ fuel hw3 (by simp at hf; omega)
      refine ⟨h1, hr, ?_, hv1.trans hv3, hs1.trans hs3⟩
      rw [runTail_congr hv3 hs3] at hw1
      simpa [runTail, hyz] using hw1
    · have hyz3 : ¬ sameText (q_release_element (q_delete_dup_unlink h c).1
          (q_delete_dup_unlink h c).2) y z := fun c => hyz ((sameText_congr hv3 hs3 y z).1 c)
      simp only [hyz3, and_false, if_false]
      exact ⟨_, rfl, by simpa [runTail, hyz] using hw3, hv3, hs3⟩

theorem q_delete_dup_loop_succ (head c fuel : Nat) (h : Heap) :
    q_delete_dup_loop head (fuel + 1) h c =
      if h.next c ≠ head then
        if h.next (h.next c) = head ∨ ¬ sameText h (h.next c) (h.next (h.next c)) then
          q_delete_dup_loop head fuel h (h.next c)
        else
          match q_delete_dup_run head c fuel h with
          | none => none
          | some h1 =>
            q_delete_dup_loop head fuel
              (q_release_element
                ((q_delete_dup_unlink h1 c).1.setPrev
                  ((q_delete_dup_unlink h1 c).1.next ((q_delete_dup_unlink h1 c).1.next c))
                  ((q_delete_dup_unlink h1 c).1.next c))
                (q_delete_dup_unlink h1 c).2) c
      else some h :=
  rfl

theorem seg_next_mem {h : Heap} {q : Nat} :
    ∀ (as : List Nat) (p : Nat), seg h p as q → ∀ x ∈ p :: as, h.next x ∈ as ++ [q] := by
  intro as
  induction as with
  | nil =>
    intro p hs x hx
    simp at hx
    subst hx
    simp [hs.1]
  | cons a as ih =>
    intro p hs x hx
    rw [seg_cons] at hs
    rcases List.mem_cons.1 hx with rfl | hx
    · simp [hs.1]
    · exact List.mem_cons_of_mem _ (ih a hs.2.2 x hx)

theorem WF.next_mem {h : Heap} {head : Nat} {ns : List Nat} (hw : WF h head ns) {x : Nat}
    (hx : x ∈ head :: ns) : h.next x ∈ head :: ns := by
  have := seg_next_mem ns head hw.2.2.2.2 x hx
  simp at this ⊢
  tauto

/-- The last unlinking step of a run, with the write `(*curr)->next->prev = *curr`
that follows it, and the release of the unlinked element. -/
theorem last_unlink_spec {h : Heap} {head c x : Nat} {kept pre rest : List Nat}
    (hw : WF h head (kept ++ x :: rest)) (hc : head :: kept = pre ++ [c]) :
    WF (q_release_element
          ((q_delete_dup_unlink h c).1.setPrev
            ((q_delete_dup_unlink h c).1.next ((q_delete_dup_unlink h c).1.next c))
            ((q_delete_dup_unlink h c).1.next c))
          (q_delete_dup_unlink h c).2) head (kept ++ rest) ∧
      (q_release_element
          ((q_delete_dup_unlink h c).1.setPrev
            ((q_delete_dup_unlink h c).1.next ((q_delete_dup_unlink h c).1.next c))
            ((q_delete_dup_unlink h c).1.next c))
          (q_delete_dup_unlink h c).2).value = h.value ∧
      (q_release_element
          ((q_delete_dup_unlink h c).1.setPrev
            ((q_delete_dup_unlink h c).1.next ((q_delete_dup_unlink h c).1.next c))
            ((q_delete_dup_unlink h c).1.next c))
          (q_delete_dup_unlink h c).2).str = h.str := by
  obtain ⟨_, hw2, hd2⟩ := q_delete_dup_unlink_spec hw hc
  have hcm : c ∈ head :: (kept ++ rest) := by
    rw [← List.cons_append, hc]; simp
  have hpn := hw2.prev_next (hw2.next_mem hcm)
  refine ⟨hw2.congr ?_ ?_, ?_, ?_⟩
  · rw [release_next]; rfl
  · rw [release_prev]
    funext z
    by_cases hz : z = (q_delete_dup_unlink h c).1.next ((q_delete_dup_unlink h c).1.next c)
    · rw [setPrev_prev, if_pos hz, hz, hpn]
    · rw [setPrev_prev, if_neg hz]
  · rw [release_value, setPrev_value, hd2.1]
  · rw [release_str, setPrev_str, hd2.2.1]

theorem q_delete_dup_loop_spec (head : Nat) :
    ∀ (n : Nat) (l kept pre : List Nat) (c : Nat) (h : Heap) (fuel : Nat), l.length = n →
      WF h head (kept ++ l) → head :: kept = pre ++ [c] → n < fuel →
      ∃ h1, q_delete_dup_loop head fuel h c = some h1 ∧
        WF h1 head (kept ++ dropRuns h false l) ∧ h1.value = h.value ∧ h1.str = h.str := by
  intro n
  induction n using Nat.strong_induction_on with
  | _ n ih =>
    intro l kept pre c h fuel hlen hw hc hf
    obtain ⟨fuel, rfl⟩ : ∃ k, fuel = k + 1 := ⟨fuel - 1, by omega⟩
    have e0 : head :: (kept ++ l) = pre ++ c :: l := by
      rw [← List.cons_append, hc]; simp
    have hnc := hw.next_at e0
    have hh := hw.2.2.1
    simp only [List.mem_append, not_or] at hh
    rw [q_delete_dup_loop_succ]
    cases l with
    | nil =>
      simp only [List.nil_append, List.headI_cons] at hnc
      exact ⟨h, by simp [hnc], by simpa [dropRuns] using hw, rfl, rfl⟩
    | cons x l =>
      simp only [List.cons_append, List.headI_cons] at hnc
      have e1 : head :: (kept ++ x :: l) = (pre ++ [c]) ++ x :: l := by
        rw [e0]; simp
      have hnx := hw.next_at e1
      have hxh : x ≠ head := fun c => hh.2 (by simp [c])
      have hc1 : head :: (kept ++ [x]) = (pre ++ [c]) ++ [x] := by
        rw [← List.cons_append, hc]
      have hw1 : WF h head ((kept ++ [x]) ++ l) := by simpa using hw
      simp only [hnc, hxh, ne_eq, not_false_eq_true, if_true]
      cases l with
      | nil =>
        simp only [List.nil_append, List.headI_cons] at hnx
        obtain ⟨h1, hl, hwl, hv, hs⟩ := ih 0 (by simp at hlen; omega) [] (kept ++ [x])
          (pre ++ [c]) x h fuel rfl hw1 hc1 (by simp at hlen; omega)
        exact ⟨h1, by simpa [hnx] using hl, by simpa [dropRuns] using hwl, hv, hs⟩
      | cons y ys =>
        simp only [List.cons_append, List.headI_cons] at hnx
        have hyh : y ≠ head := fun c => hh.2 (by simp [c])
        by_cases hxy : sameText h x y
        · simp only [hnx, hyh, hxy, not_true_eq_false, or_self, if_false]
          obtain ⟨h1, hr, hwr, hv1, hs1⟩ :=
            q_delete_dup_run_spec head c hc ys x y h fuel hw (by simp at hlen; omega)
          rw [hr]
          obtain ⟨w, r1, hrt⟩ : ∃ w r1, runTail h y ys = w :: r1 := by
            have := runTail_ne_nil h ys y
            cases hq : runTail h y ys with
            | nil => exact absurd hq this
            | cons w r1 => exact ⟨w, r1, rfl⟩
          have hlen1 : r1.length ≤ ys.length := by
            have := runTail_length h ys y
            rw [hrt] at this
            simpa using this
          rw [hrt] at hwr
          obtain ⟨hw5, hv5, hs5⟩ := last_unlink_spec hwr hc
          obtain ⟨h2, hl, hwl, hv2, hs2⟩ := ih r1.length (by simp at hlen; omega) r1 kept pre c _
            fuel rfl hw5 hc (by simp at hlen; omega)
          refine ⟨h2, hl, ?_, hv2.trans (hv5.trans hv1), hs2.trans (hs5.trans hs1)⟩
          rw [dropRuns_congr (hv5.trans hv1) (hs5.trans hs1)] at hwl
          have e2 : dropRuns h false (x :: y :: ys) = dropRuns h false r1 := by
            rw [show dropRuns h false (x :: y :: ys) = dropRuns h true (y :: ys) by
              simp [dropRuns, hxy], dropRuns_true, hrt]
            rfl
          rw [e2]
          exact hwl
        · simp only [hnx, hyh, hxy, not_false_eq_true, or_true, if_true]
          obtain ⟨h1, hl, hwl, hv, hs⟩ := ih (y :: ys).length (by simp at hlen ⊢; omega) (y :: ys)
            (kept ++ [x]) (pre ++ [c]) x h fuel rfl hw1 hc1 (by simp at hlen ⊢; omega)
          refine ⟨h1, hl, ?_, hv, hs⟩
          have e2 : dropRuns h false (x :: y :: ys) = x :: dropRuns h false (y :: ys) := by
            simp [dropRuns, hxy]
          rw [e2]
          simpa using hwl

theorem q_delete_dup_spec {h : Heap} {head : Nat} {ns : List Nat} {fuel : Nat}
    (hw : WF h head ns) (hf : ns.length < fuel) :
    ∃ h1, q_delete_dup fuel h head = some (h1, true) ∧ WF h1 head (dropRuns h false ns) ∧
      h1.value = h.value ∧ h1.str = h.str := by
  obtain ⟨h1, hl, hw1, hv, hs⟩ :=
    q_delete_dup_loop_spec head ns.length ns [] [] head h fuel rfl hw rfl hf
  exact ⟨h1, by simp [q_delete_dup, hw.1, hl], hw1, hv, hs⟩

/-! ### The order of `strcmp` -/

theorem cstr_nil : cstr [] = [] := rfl

theorem cstr_cons (a : Nat) (as : List Nat) :
    cstr (a :: as) = if a = 0 then [] else a :: cstr as := by
  by_cases ha : a = 0 <;> simp [cstr, List.takeWhile_cons, ha]

theorem strcmp_eq_zero_iff : ∀ a b : List Nat, strcmp a b = 0 ↔ cstr a = cstr b
  | [], [] => by simp [strcmp]
  | [], b :: bs => by
    by_cases hb : b = 0 <;> simp [strcmp, cstr_cons, cstr_nil, hb]
  | a :: as, [] => by
    by_cases ha : a = 0 <;> simp [strcmp, cstr_cons, cstr_nil, ha]
  | a :: as, b :: bs => by
    have ih := strcmp_eq_zero_iff as bs
    by_cases hab : a = b
    · subst hab
      by_cases ha : a = 0
      · simp [strcmp, cstr_cons, ha]
      · simp [strcmp, cstr_cons, ha, ih]
    · have hne : (a : Int) - (b : Int) ≠ 0 := by omega
      by_cases ha : a = 0
      · subst ha
        have hb : b ≠ 0 := fun c => hab c.symm
        simp [strcmp, cstr_cons, hab, hb, hne]
      · by_cases hb : b = 0
        · subst hb
          simp [strcmp, cstr_cons, hab, ha, hne]
        · simp [strcmp, cstr_cons, hab, ha, hb, hne]

theorem strcmp_le_trans : ∀ a b c : List Nat, strcmp a b ≤ 0 → strcmp b c ≤ 0 → strcmp a c ≤ 0
  | [], _, [] => by simp [strcmp]
  | [], _, c :: cs => by simp [strcmp]
  | a :: as, [], [] => by simp [strcmp]
  | a :: as, [], c :: cs => by
    intro h1 _
    simp only [strcmp] at h1 ⊢
    have ha : a = 0 := by omega
    subst ha
    split_ifs <;> omega
  | a :: as, b :: bs, [] => by
    intro h1 h2
    simp only [strcmp] at h1 h2 ⊢
    have hb : b = 0 := by omega
    subst hb
    split_ifs at h1 <;> omega
  | a :: as, b :: bs, c :: cs => by
    intro h1 h2
    have ih := strcmp_le_trans as bs cs
    simp only [strcmp] at h1 h2 ⊢
    split_ifs at h1 h2 ⊢ <;> omega

theorem strcmp_antisymm : ∀ a b : List Nat, strcmp a b ≤ 0 → strcmp b a ≤ 0 → strcmp a b = 0
  | [], [] => by simp [strcmp]
  | [], b :: bs => by
    intro _ h2
    simp only [strcmp] at h2 ⊢
    omega
  | a :: as, [] => by
    intro h1 _
    simp only [strcmp] at h1 ⊢
    omega
  | a :: as, b :: bs => by
    intro h1 h2
    have ih := strcmp_antisymm as bs
    simp only [strcmp] at h1 h2 ⊢
    split_ifs at h1 h2 ⊢ <;> omega

theorem sameText_iff (h : Heap) (a b : Nat) : sameText h a b ↔ h.text a = h.text b :=
  strcmp_eq_zero_iff _ _

/-- Between two elements with the same text, in a sorted sequence, every text
is the same. -/
theorem leText_sandwich {h : Heap} {a b c : Nat} (hab : leText h a b) (hbc : leText h b c)
    (hac : h.text a = h.text c) : h.text a = h.text b := by
  have hca : strcmp (h.str (h.value c)) (h.str (h.value a)) = 0 :=
    (strcmp_eq_zero_iff _ _).2 hac.symm
  have hba : strcmp (h.str (h.value b)) (h.str (h.value a)) ≤ 0 :=
    strcmp_le_trans _ _ _ hbc (le_of_eq hca)
  exact (strcmp_eq_zero_iff _ _).1 (strcmp_antisymm _ _ hab hba)

theorem leText_trans {h : Heap} {a b c : Nat} (hab : leText h a b) (hbc : leText h b c) :
    leText h a c :=
  strcmp_le_trans _ _ _ hab hbc

theorem sortedTexts_pairwise (h : Heap) :
    ∀ l : List Nat, sortedTexts h l → l.Pairwise (leText h) := by
  intro l
  induction l with
  | nil => intro _; exact List.Pairwise.nil
  | cons a l ih =>
    intro hs
    cases l with
    | nil => simp
    | cons b r =>
      have hp := ih hs.2
      refine List.Pairwise.cons ?_ hp
      intro x hx
      rcases List.mem_cons.1 hx with rfl | hx
      · exact hs.1
      · exact leText_trans hs.1 ((List.pairwise_cons.1 hp).1 x hx)

theorem dropRuns_cons_cons (h : Heap) (b : Bool) (x y : Nat) (r : List Nat) :
    dropRuns h b (x :: y :: r) =
      if sameText h x y then dropRuns h true (y :: r)
      else if b then dropRuns h false (y :: r)
      else x :: dropRuns h false (y :: r) :=
  rfl

/-- On a sorted sequence, the runs of adjacent equal texts are the texts that
occur more than once.  The optional element `po` stands before the sequence. -/
theorem dropRuns_sorted (h : Heap) :
    ∀ (l : List Nat) (po : Option Nat), (∀ p ∈ po, ∀ e ∈ l, leText h p e) →
      l.Pairwise (leText h) →
      dropRuns h (decide (∃ p ∈ po, ∃ x ∈ l.head?, h.text p = h.text x)) l =
        l.filter (fun e => decide ((l.map h.text).count (h.text e) = 1 ∧
          ∀ p ∈ po, h.text e ≠ h.text p)) := by
  intro l
  induction l with
  | nil => intro po _ _; rfl
  | cons x l ih =>
    intro po hpo hpw
    cases l with
    | nil =>
      cases po with
      | none => simp [dropRuns]
      | some p =>
        by_cases hpx : h.text p = h.text x
        · simp [dropRuns, hpx]
        · have hxp : ¬ h.text x = h.text p := fun c => hpx c.symm
          simp [dropRuns, hpx, hxp]
    | cons y r =>
      have hpw1 := List.pairwise_cons.1 hpw
      have IH := ih (some x) (fun p hp e he => by
        simp only [Option.mem_def, Option.some.injEq] at hp
        subst hp
        exact hpw1.1 e he) hpw1.2
      have hflag : decide (∃ p ∈ some x, ∃ z ∈ (y :: r).head?, h.text p = h.text z) =
          decide (sameText h x y) := by
        simp [sameText_iff]
      rw [hflag] at IH
      have hrest : (y :: r).filter (fun e => decide (((x :: y :: r).map h.text).count (h.text e) = 1 ∧
            ∀ p ∈ po, h.text e ≠ h.text p)) =
          (y :: r).filter (fun e => decide ((((y :: r).map h.text).count (h.text e) = 1 ∧
            ∀ p ∈ some x, h.text e ≠ h.text p))) := by
        apply List.filter_congr
        intro e he
        have hpos : 0 < ((y :: r).map h.text).count (h.text e) :=
          List.count_pos_iff.2 (List.mem_map_of_mem _ he)
        have hc : ((x :: y :: r).map h.text).count (h.text e) =
            ((y :: r).map h.text).count (h.text e) + if h.text x = h.text e then 1 else 0 := by
          rw [List.map_cons, List.count_cons]
          simp
        rw [decide_eq_decide, hc]
        constructor
        · rintro ⟨h1, _⟩
          by_cases hxe : h.text x = h.text e
          · rw [if_pos hxe] at h1; omega
          · rw [if_neg hxe] at h1
            refine ⟨by omega, ?_⟩
            intro p hp
            simp only [Option.mem_def, Option.some.injEq] at hp
            subst hp
            exact fun c => hxe c.symm
        · rintro ⟨h1, h2⟩
          have hxe : ¬ h.text x = h.text e := fun c => h2 x rfl c.symm
          rw [if_neg hxe]
          refine ⟨by omega, ?_⟩
          intro p hp c
          have := leText_sandwich (hpo p hp x (by simp)) (hpw1.1 e he) c.symm
          exact hxe (this.symm.trans c.symm)
      rw [dropRuns_cons_cons, List.filter_cons, hrest, ← IH]
      by_cases hxy : sameText h x y
      · have hcount : ((x :: y :: r).map h.text).count (h.text x) ≠ 1 := by
          have := (sameText_iff h x y).1 hxy
          simp [List.count_cons, this]
        have hd : decide (((x :: y :: r).map h.text).count (h.text x) = 1 ∧
            ∀ p ∈ po, h.text x ≠ h.text p) = false := by
          rw [decide_eq_false_iff_not]
          exact fun c => hcount c.1
        rw [hd, if_pos hxy]
        simp [hxy]
      · have hnotin : ∀ e ∈ y :: r, h.text e ≠ h.text x := by
          intro e he c
          rcases List.mem_cons.1 he with rfl | he1
          · exact hxy ((sameText_iff h x e).2 c.symm)
          · have hye : leText h y e := (List.pairwise_cons.1 hpw1.2).1 e he1
            have := leText_sandwich (hpw1.1 y (by simp)) hye c.symm
            exact hxy ((sameText_iff h x y).2 this)
        have hcount : ((x :: y :: r).map h.text).count (h.text x) = 1 := by
          rw [List.map_cons, List.count_cons_self, List.count_eq_zero_of_not_mem]
          intro c
          obtain ⟨e, he, hee⟩ := List.mem_map.1 c
          exact hnotin e he hee
        have hdf : decide (sameText h x y) = false := decide_eq_false hxy
        rw [if_neg hxy, hdf]
        by_cases hb : ∃ p ∈ po, ∃ z ∈ (x :: y :: r).head?, h.text p = h.text z
        · have hd : decide (((x :: y :: r).map h.text).count (h.text x) = 1 ∧
              ∀ p ∈ po, h.text x ≠ h.text p) = false := by
            rw [decide_eq_false_iff_not]
            rintro ⟨_, c⟩
            obtain ⟨p, hp, z, hz, hpz⟩ := hb
            simp only [List.head?_cons, Option.mem_def, Option.some.injEq] at hz
            subst hz
            exact c p hp hpz.symm
          rw [hd, decide_eq_true hb]
          simp
        · have hd : decide (((x :: y :: r).map h.text).count (h.text x) = 1 ∧
              ∀ p ∈ po, h.text x ≠ h.text p) = true := by
            rw [decide_eq_true_iff]
            refine ⟨hcount, fun p hp c => hb ⟨p, hp, x, by simp, c.symm⟩⟩
          rw [hd, decide_eq_false hb]
          simp

theorem dropRuns_sorted_eq (h : Heap) (ns : List Nat) (hs : sortedTexts h ns) :
    dropRuns h false ns = uniqueTexts h ns := by
  have := dropRuns_sorted h ns none (by simp) (sortedTexts_pairwise h ns hs)
  simpa [uniqueTexts] using this

/-- The texts that occur exactly once are pairwise distinct. -/
theorem uniqueTexts_nodup (h : Heap) (ns : List Nat) :
    ((uniqueTexts h ns).map h.text).Nodup := by
  rw [List.nodup_iff_sublist]
  intro t ht
  have hmem : t ∈ (uniqueTexts h ns).map h.text := ht.subset (by simp)
  obtain ⟨e, he, rfl⟩ := List.mem_map.1 hmem
  have h1 : (ns.map h.text).count (h.text e) = 1 := by
    simpa using (List.mem_filter.1 he).2
  have hsub : ((uniqueTexts h ns).map h.text).Sublist (ns.map h.text) :=
    List.Sublist.map _ (List.filter_sublist _)
  have h2 := (ht.trans hsub).count_le (h.text e)
  rw [h1] at h2
  simp at h2

/-! ### Failed insertions and removals from an empty queue -/

theorem q_insert_head_fail_links (h : Heap) (head : Nat) (s : List Nat) (re rs : Nat)
    (hf : re = 0 ∨ rs = 0) :
    (q_insert_head h head s re rs).2 = false ∧
      (q_insert_head h head s re rs).1.next = h.next ∧
      (q_insert_head h head s re rs).1.prev = h.prev := by
  unfold q_insert_head
  by_cases h0 : head = 0
  · simp [h0]
  · by_cases hre : re = 0
    · simp [h0, hre, malloc]
    · have hrs : rs = 0 := by tauto
      simp [h0, hre, hrs, malloc, strdup]

theorem q_insert_tail_fail_links (h : Heap) (head : Nat) (s : List Nat) (re rs : Nat)
    (hf : re = 0 ∨ rs = 0) :
    (q_insert_tail h head s re rs).2 = false ∧
      (q_insert_tail h head s re rs).1.next = h.next ∧
      (q_insert_tail h head s re rs).1.prev = h.prev := by
  unfold q_insert_tail
  by_cases h0 : head = 0
  · simp [h0]
  · by_cases hre : re = 0
    · simp [h0, hre, malloc]
    · have hrs : rs = 0 := by tauto
      simp [h0, hre, hrs, malloc, strdup]

theorem q_remove_head_empty {h : Heap} {head : Nat} (hw : WF h head []) (sp bufsize : Nat) :
    q_remove_head h head sp bufsize = (h, 0) := by
  simp [q_remove_head, hw.list_empty_iff.2 rfl]

theorem q_remove_tail_empty {h : Heap} {head : Nat} (hw : WF h head []) (sp bufsize : Nat) :
    q_remove_tail h head sp bufsize = (h, 0) := by
  simp [q_remove_tail, hw.list_empty_iff.2 rfl]

theorem q_insert_head_wf {h : Heap} {head : Nat} {ns : List Nat} (s : List Nat) {re : Nat}
    (rs : Nat) (hw : WF h head ns) (hre : re ≠ 0 → re ∉ head :: ns) :
    ∃ ns1, WF (q_insert_head h head s re rs).1 head ns1 := by
  by_cases hf : re = 0 ∨ rs = 0
  · obtain ⟨_, hn, hp⟩ := q_insert_head_fail_links h head s re rs hf
    exact ⟨ns, hw.congr hn hp⟩
  · simp only [not_or] at hf
    have hm := hre hf.1
    simp only [List.mem_cons, not_or] at hm
    exact ⟨re :: ns, (q_insert_head_spec s hw hf.1 hf.2 hm.1 hm.2).2.1⟩

theorem q_insert_tail_wf {h : Heap} {head : Nat} {ns : List Nat} (s : List Nat) {re : Nat}
    (rs : Nat) (hw : WF h head ns) (hre : re ≠ 0 → re ∉ head :: ns) :
    ∃ ns1, WF (q_insert_tail h head s re rs).1 head ns1 := by
  by_cases hf : re = 0 ∨ rs = 0
  · obtain ⟨_, hn, hp⟩ := q_insert_tail_fail_links h head s re rs hf
    exact ⟨ns, hw.congr hn hp⟩
  · simp only [not_or] at hf
    have hm := hre hf.1
    simp only [List.mem_cons, not_or] at hm
    exact ⟨ns ++ [re], (q_insert_tail_spec s hw hf.1 hf.2 hm.1 hm.2).2.1⟩

theorem q_remove_head_wf {h : Heap} {head : Nat} {ns : List Nat} (sp bufsize : Nat)
    (hw : WF h head ns) : WF (q_remove_head h head sp bufsize).1 head ns.tail := by
  cases ns with
  | nil => rw [q_remove_head_empty hw]; exact hw
  | cons e ns => exact (q_remove_head_spec sp bufsize hw).2.1

theorem q_remove_tail_wf {h : Heap} {head : Nat} {ns : List Nat} (sp bufsize : Nat)
    (hw : WF h head ns) : WF (q_remove_tail h head sp bufsize).1 head ns.dropLast := by
  rcases List.eq_nil_or_concat ns with rfl | ⟨ns1, e, rfl⟩
  · rw [q_remove_tail_empty hw]; exact hw
  · rw [List.concat_eq_append] at hw ⊢
    rw [List.dropLast_concat]
    exact (q_remove_tail_spec sp bufsize hw).2.1

theorem q_delete_mid_wf {h : Heap} {head : Nat} {ns : List Nat} {fuel : Nat}
    (hw : WF h head ns) (hf : ns.length < fuel) :
    ∃ r ns1, q_delete_mid fuel h head = some r ∧ WF r.1 head ns1 := by
  by_cases hne : ns = []
  · subst hne
    exact ⟨(h, false), [], by simp [q_delete_mid, hw.list_empty_iff.2 rfl], hw⟩
  · obtain ⟨e, _, hr, hw1⟩ := q_delete_mid_spec hw hne (Nat.le_of_lt hf)
    exact ⟨_, _, hr, hw1⟩

/-! ### Sequences of insertions and removals -/

theorem q_insert_head_live (h : Heap) (head : Nat) (s : List Nat) (re rs x : Nat)
    (hx : h.live x = true) (hne : x ≠ re) :
    (q_insert_head h head s re rs).1.live x = true := by
  unfold q_insert_head
  by_cases h0 : head = 0
  · simp [h0, hx]
  · by_cases hre : re = 0
    · simp [h0, hre, malloc, hx]
    · by_cases hrs : rs = 0
      · simp [h0, hre, hrs, malloc, strdup, free, Function.update_apply, hne, hx]
      · by_cases hxs : x = rs <;>
          simp [h0, hre, hrs, malloc, strdup, list_add, Function.update_apply, hne, hx, hxs]

theorem q_insert_tail_live (h : Heap) (head : Nat) (s : List Nat) (re rs x : Nat)
    (hx : h.live x = true) (hne : x ≠ re) :
    (q_insert_tail h head s re rs).1.live x = true := by
  unfold q_insert_tail
  by_cases h0 : head = 0
  · simp [h0, hx]
  · by_cases hre : re = 0
    · simp [h0, hre, malloc, hx]
    · by_cases hrs : rs = 0
      · simp [h0, hre, hrs, malloc, strdup, free, Function.update_apply, hne, hx]
      · by_cases hxs : x = rs <;>
          simp [h0, hre, hrs, malloc, strdup, list_add_tail, Function.update_apply, hne, hx, hxs]

theorem q_insert_head_live_new (h : Heap) {head : Nat} (s : List Nat) {re rs : Nat}
    (h0 : head ≠ 0) (hre : re ≠ 0) (hrs : rs ≠ 0) :
    (q_insert_head h head s re rs).1.live re = true := by
  by_cases hxs : re = rs <;>
    simp [q_insert_head, h0, hre, hrs, malloc, strdup, list_add, Function.update_apply, hxs]

theorem q_insert_tail_live_new (h : Heap) {head : Nat} (s : List Nat) {re rs : Nat}
    (h0 : head ≠ 0) (hre : re ≠ 0) (hrs : rs ≠ 0) :
    (q_insert_tail h head s re rs).1.live re = true := by
  by_cases hxs : re = rs <;>
    simp [q_insert_tail, h0, hre, hrs, malloc, strdup, list_add_tail, Function.update_apply, hxs]

theorem q_remove_head_live (h : Heap) (head sp bufsize : Nat) :
    (q_remove_head h head sp bufsize).1.live = h.live := by
  unfold q_remove_head
  split
  · rfl
  · split <;> rfl

theorem q_remove_tail_live (h : Heap) (head sp bufsize : Nat) :
    (q_remove_tail h head sp bufsize).1.live = h.live := by
  unfold q_remove_tail
  split
  · rfl
  · split <;> rfl

/-- One call keeps the queue well formed with all its nodes allocated, and
changes the number of elements by the success it reports. -/
theorem Op.run_spec {h : Heap} {head : Nat} {ns : List Nat} (op : Op) (hw : WF h head ns)
    (hl : ∀ x ∈ head :: ns, h.live x = true) (ha : op.allocOk h) :
    ∃ ns1, WF (op.run head h).1 head ns1 ∧ (∀ x ∈ head :: ns1, (op.run head h).1.live x = true) ∧
      ns1.length + (if !op.isInsert && (op.run head h).2 then 1 else 0) =
        ns.length + (if op.isInsert && (op.run head h).2 then 1 else 0) := by
  have hfresh : ∀ re, (re = 0 ∨ h.live re = false) → ∀ x ∈ head :: ns, x ≠ re := by
    intro re hre x hx c
    subst c
    rcases hre with c | c
    · subst c
      rcases List.mem_cons.1 hx with c | c
      · exact hw.1 c.symm
      · exact hw.2.1 c
    · rw [hl x hx] at c
      exact Bool.noConfusion c
  cases op with
  | insertHead s re rs =>
    have hne := hfresh re ha.1
    by_cases hf : re = 0 ∨ rs = 0
    · obtain ⟨e, hn, hp⟩ := q_insert_head_fail_links h head s re rs hf
      refine ⟨ns, hw.congr hn hp, fun x hx => q_insert_head_live h head s re rs x (hl x hx)
        (hne x hx), ?_⟩
      simp [Op.run, Op.isInsert, e]
    · simp only [not_or] at hf
      have hm : re ∉ head :: ns := fun c => hne re c rfl
      simp only [List.mem_cons, not_or] at hm
      obtain ⟨e, hw1, _, _⟩ := q_insert_head_spec s hw hf.1 hf.2 hm.1 hm.2
      refine ⟨re :: ns, hw1, ?_, ?_⟩
      · intro x hx
        by_cases hxr : x = re
        · subst hxr
          exact q_insert_head_live_new h s hw.1 hf.1 hf.2
        · refine q_insert_head_live h head s re rs x (hl x ?_) hxr
          simp at hx ⊢
          tauto
      · simp [Op.run, Op.isInsert, e]
  | insertTail s re rs =>
    have hne := hfresh re ha.1
    by_cases hf : re = 0 ∨ rs = 0
    · obtain ⟨e, hn, hp⟩ := q_insert_tail_fail_links h head s re rs hf
      refine ⟨ns, hw.congr hn hp, fun x hx => q_insert_tail_live h head s re rs x (hl x hx)
        (hne x hx), ?_⟩
      simp [Op.run, Op.isInsert, e]
    · simp only [not_or] at hf
      have hm : re ∉ head :: ns := fun c => hne re c rfl
      simp only [List.mem_cons, not_or] at hm
      obtain ⟨e, hw1, _, _⟩ := q_insert_tail_spec s hw hf.1 hf.2 hm.1 hm.2
      refine ⟨ns ++ [re], hw1, ?_, ?_⟩
      · intro x hx
        by_cases hxr : x = re
        · subst hxr
          exact q_insert_tail_live_new h s hw.1 hf.1 hf.2
        · refine q_insert_tail_live h head s re rs x (hl x ?_) hxr
          simp at hx ⊢
          tauto
      · simp [Op.run, Op.isInsert, e]
  | removeHead sp bufsize =>
    refine ⟨ns.tail, q_remove_head_wf sp bufsize hw, ?_, ?_⟩
    · intro x hx
      simp only [Op.run, q_remove_head_live]
      refine hl x ?_
      rcases List.mem_cons.1 hx with c | c
      · simp [c]
      · exact List.mem_cons_of_mem _ (List.mem_of_mem_tail c)
    · cases ns with
      | nil => simp [Op.run, Op.isInsert, q_remove_head_empty hw]
      | cons e ns =>
        have he : e ≠ 0 := fun c => hw.2.1 (by simp [c])
        simp [Op.run, Op.isInsert, (q_remove_head_spec sp bufsize hw).1, he]
  | removeTail sp bufsize =>
    refine ⟨ns.dropLast, q_remove_tail_wf sp bufsize hw, ?_, ?_⟩
    · intro x hx
      simp only [Op.run, q_remove_tail_live]
      refine hl x ?_
      rcases List.mem_cons.1 hx with c | c
      · simp [c]
      · exact List.mem_cons_of_mem _ (List.dropLast_subset _ c)
    · rcases List.eq_nil_or_concat ns with rfl | ⟨ns1, e, rfl⟩
      · simp [Op.run, Op.isInsert, q_remove_tail_empty hw]
      · rw [List.concat_eq_append] at hw ⊢
        have he : e ≠ 0 := fun c => hw.2.1 (by simp [c])
        simp [Op.run, Op.isInsert, (q_remove_tail_spec sp bufsize hw).1, he]

theorem runOps_spec (head : Nat) :
    ∀ (ops : List Op) (h : Heap) (ns : List Nat), WF h head ns →
      (∀ x ∈ head :: ns, h.live x = true) → allocOk head ops h →
      ∃ ns1, WF (runOps head ops h).1 head ns1 ∧
        ns1.length + (runOps head ops h).2.2 = ns.length + (runOps head ops h).2.1 := by
  intro ops
  induction ops with
  | nil =>
    intro h ns hw _ _
    exact ⟨ns, hw, rfl⟩
  | cons op ops ih =>
    intro h ns hw hl ha
    obtain ⟨ns1, hw1, hl1, hc1⟩ := op.run_spec hw hl ha.1
    obtain ⟨ns2, hw2, hc2⟩ := ih _ ns1 hw1 hl1 ha.2
    refine ⟨ns2, hw2, ?_⟩
    simp only [runOps]
    omega

/-! ### The list computed by the pairwise exchange -/

theorem swapPairs_length : ∀ l : List Nat, (swapPairs l).length = l.length := by
  intro l
  induction l using swapPairs.induct with
  | case1 a b r ih => simp [swapPairs, ih]
  | case2 l hl =>
    cases l with
    | nil => rfl
    | cons x t =>
      cases t with
      | nil => rfl
      | cons y r => exact absurd rfl (hl x y r)

theorem swapPairs_pair : ∀ (l : List Nat) (i : Nat), 2 * i + 1 < l.length →
    (swapPairs l)[2 * i]? = l[2 * i + 1]? ∧ (swapPairs l)[2 * i + 1]? = l[2 * i]? := by
  intro l
  induction l using swapPairs.induct with
  | case1 a b r ih =>
    intro i hi
    cases i with
    | zero => simp [swapPairs]
    | succ j =>
      have hj : 2 * j + 1 < r.length := by simp at hi; omega
      have e1 : 2 * (j + 1) = (2 * j + 1) + 1 := by ring
      have e2 : 2 * (j + 1) + 1 = ((2 * j + 1) + 1) + 1 := by ring
      have := ih j hj
      simp only [swapPairs]
      rw [e2, e1]
      simp only [List.getElem?_cons_succ]
      exact this
  | case2 l hl =>
    intro i hi
    cases l with
    | nil => simp at hi
    | cons x t =>
      cases t with
      | nil => simp at hi
      | cons y r => exact absurd rfl (hl x y r)

theorem swapPairs_last : ∀ l : List Nat, l.length % 2 = 1 →
    (swapPairs l)[l.length - 1]? = l[l.length - 1]? := by
  intro l
  induction l using swapPairs.induct with
  | case1 a b r ih =>
    intro hodd
    have hr : r.length % 2 = 1 := by simp at hodd; omega
    have hpos : 0 < r.length := by omega
    have e1 : (a :: b :: r).length - 1 = ((r.length - 1) + 1) + 1 := by
      simp only [List.length_cons]; omega
    simp only [swapPairs]
    rw [e1]
    simp only [List.getElem?_cons_succ]
    exact ih hr
  | case2 l hl =>
    intro _
    cases l with
    | nil => rfl
    | cons x t =>
      cases t with
      | nil => rfl
      | cons y r => exact absurd rfl (hl x y r)

/-! ### Releasing an element -/

theorem free_freed (h : Heap) (p : Nat) :
    (free h p).freed = h.freed ++ (if p = 0 then [] else [p]) := by
  unfold free
  split <;> simp

theorem free_live (h : Heap) (p x : Nat) :
    (free h p).live x = if x = p ∧ p ≠ 0 then false else h.live x := by
  unfold free
  by_cases hp : p = 0
  · simp [hp]
  · simp [hp, Function.update_apply]

theorem release_freed (h : Heap) (e : Nat) :
    (q_release_element h e).freed =
      h.freed ++ ((if h.value e = 0 then [] else [h.value e]) ++ (if e = 0 then [] else [e])) := by
  simp [q_release_element, free_freed]

theorem release_live (h : Heap) (e x : Nat) :
    (q_release_element h e).live x =
      if (x = e ∧ e ≠ 0) ∨ (x = h.value e ∧ h.value e ≠ 0) then false else h.live x := by
  simp only [q_release_element, free_live, free_value]
  by_cases h1 : x = e ∧ e ≠ 0 <;> by_cases h2 : x = h.value e ∧ h.value e ≠ 0 <;> simp [h1, h2]


/-! ### The copy into the output buffer -/

theorem cstr_ne_zero (s : List Nat) : ∀ x ∈ cstr s, x ≠ 0 := by
  intro x hx
  have := List.mem_takeWhile_imp hx
  simpa using this

theorem readString_eq (b : Nat → Nat) :
    ∀ (l : List Nat) (i fuel : Nat), (∀ j, j < l.length → b (i + j) = l.getD j 0) →
      (∀ x ∈ l, x ≠ 0) → b (i + l.length) = 0 → l.length < fuel → readString b fuel i = l := by
  intro l
  induction l with
  | nil =>
    intro i fuel _ _ h0 hf
    obtain ⟨fuel, rfl⟩ : ∃ k, fuel = k + 1 := ⟨fuel - 1, by simp at hf; omega⟩
    simp at h0
    simp [readString, h0]
  | cons a l ih =>
    intro i fuel hb hz h0 hf
    obtain ⟨fuel, rfl⟩ : ∃ k, fuel = k + 1 := ⟨fuel - 1, by simp at hf; omega⟩
    have ha : b i = a := by simpa using hb 0 (by simp)
    have ha0 : a ≠ 0 := hz a (by simp)
    have hrec := ih (i + 1) fuel
      (fun j hj => by
        have := hb (j + 1) (by simp; omega)
        simpa [Nat.add_assoc, Nat.add_comm 1 j] using this)
      (fun x hx => hz x (List.mem_cons_of_mem _ hx))
      (by simpa [Nat.add_assoc, Nat.add_comm 1 l.length] using h0)
      (by simp at hf; omega)
    simp [readString, ha, ha0, hrec]

theorem sizePred_of_pos {k : Nat} (h1 : 1 ≤ k) (h2 : k < 2 ^ 64) : sizePred k = k - 1 := by
  unfold sizePred
  omega

theorem copy_buf (h : Heap) (sp n p i : Nat) (src : List Nat) :
    ((strncpy h sp src n).setByte sp n 0).buf p i =
      if p = sp then (if i = n then 0 else if i < n then (cstr src).getD i 0 else h.buf sp i)
      else h.buf p i := by
  by_cases hp : p = sp
  · subst hp
    by_cases hi : i = n
    · simp [strncpy, Heap.setByte, hi]
    · simp [strncpy, Heap.setByte, hi, Function.update_apply]
  · simp [strncpy, Heap.setByte, hp, Function.update_apply]

/-- What the two statements `strncpy(sp, value, bufsize - 1); sp[bufsize - 1] = 0`
leave in the buffer, for a capacity of at least one byte. -/
theorem copy_out_spec (h : Heap) (sp k : Nat) (src : List Nat) (h1 : 1 ≤ k) (h2 : k < 2 ^ 64) :
    readString (((strncpy h sp src (sizePred k)).setByte sp (sizePred k) 0).buf sp) k 0 =
        (cstr src).take (min (cstr src).length (k - 1)) ∧
      ((strncpy h sp src (sizePred k)).setByte sp (sizePred k) 0).buf sp (k - 1) = 0 ∧
      (∀ i, k ≤ i →
        ((strncpy h sp src (sizePred k)).setByte sp (sizePred k) 0).buf sp i = h.buf sp i) ∧
      (∀ p, p ≠ sp →
        ((strncpy h sp src (sizePred k)).setByte sp (sizePred k) 0).buf p = h.buf p) := by
  rw [sizePred_of_pos h1 h2]
  refine ⟨?_, by simp [copy_buf], ?_, ?_⟩
  · have hml : min (cstr src).length (k - 1) ≤ (cstr src).length := min_le_left _ _
    have hmk : min (cstr src).length (k - 1) ≤ k - 1 := min_le_right _ _
    have hlen : ((cstr src).take (min (cstr src).length (k - 1))).length =
        min (cstr src).length (k - 1) := by
      rw [List.length_take]; exact min_eq_left hml
    apply readString_eq
    · intro j hj
      rw [hlen] at hj
      have e1 : j ≠ k - 1 := by omega
      have e2 : j < k - 1 := by omega
      simp only [Nat.zero_add, copy_buf, if_true, e1, if_false, e2]
      simp only [List.getD_eq_getElem?_getD, List.getElem?_take, hj, if_true]
    · intro x hx
      exact cstr_ne_zero src x (List.mem_of_mem_take hx)
    · rw [hlen]
      simp only [Nat.zero_add, copy_buf, if_true]
      by_cases hc : min (cstr src).length (k - 1) = k - 1
      · rw [if_pos hc]
      · have hlt : min (cstr src).length (k - 1) < k - 1 := by omega
        have hge : (cstr src).length ≤ min (cstr src).length (k - 1) := by
          rcases min_choice (cstr src).length (k - 1) with c | c
          · rw [c]
          · exact absurd c hc
        rw [if_neg hc, if_pos hlt]
        exact List.getD_eq_default _ _ hge
    · rw [hlen]
      omega
  · intro i hi
    have e1 : i ≠ k - 1 := by omega
    have e2 : ¬ i < k - 1 := by omega
    simp [copy_buf, e1, e2]
  · intro p hp
    funext i
    simp [copy_buf, hp]

theorem q_remove_head_buf {h : Heap} {head e : Nat} {ns : List Nat} {sp : Nat} (k : Nat)
    (hw : WF h head (e :: ns)) (hsp : sp ≠ 0) :
    (q_remove_head h head sp k).1.buf =
      ((strncpy h sp (h.str (h.value e)) (sizePred k)).setByte sp (sizePred k) 0).buf := by
  have hne : list_empty h head = false := by
    rw [Bool.eq_false_iff, Ne, hw.list_empty_iff]; simp
  have hnx : h.next head = e := hw.next_head
  simp [q_remove_head, hw.1, hne, hnx, hsp, list_del]

theorem q_remove_tail_buf {h : Heap} {head e : Nat} {ns : List Nat} {sp : Nat} (k : Nat)
    (hw : WF h head (ns ++ [e])) (hsp : sp ≠ 0) :
    (q_remove_tail h head sp k).1.buf =
      ((strncpy h sp (h.str (h.value e)) (sizePred k)).setByte sp (sizePred k) 0).buf := by
  have hne : list_empty h head = false := by
    rw [Bool.eq_false_iff, Ne, hw.list_empty_iff]; simp
  have hpv : h.prev head = e := by
    rw [hw.prev_head]; simp
  simp [q_remove_tail, hw.1, hne, hpv, hsp, list_del]


/-! ### Insertion under allocation failure -/

/-- What a failed insertion at the head leaves. -/
theorem q_insert_head_fail_spec (h : Heap) (head : Nat) (s : List Nat) (re rs : Nat)
    (hf : re = 0 ∨ rs = 0) (hre : re ≠ 0 → h.live re = false) :
    (q_insert_head h head s re rs).1.live = h.live ∧
      (q_insert_head h head s re rs).1.str = h.str ∧
      (q_insert_head h head s re rs).1.buf = h.buf ∧
      (∀ x, x ≠ re → (q_insert_head h head s re rs).1.value x = h.value x) ∧
      (re = 0 → q_insert_head h head s re rs = (h, false)) ∧
      (head ≠ 0 → re ≠ 0 → (q_insert_head h head s re rs).1.freed = h.freed ++ [re]) := by
  unfold q_insert_head
  by_cases h0 : head = 0
  · simp [h0]
  · by_cases hr : re = 0
    · simp [h0, hr, malloc]
    · have hrs : rs = 0 := by tauto
      have hlv := hre hr
      refine ⟨?_, ?_, ?_, ?_, ?_, ?_⟩
      · funext x
        by_cases hx : x = re
        · subst hx
          simp [h0, hr, hrs, malloc, strdup, free, hlv]
        · simp [h0, hr, hrs, malloc, strdup, free, Function.update_apply, hx]
      · simp [h0, hr, hrs, malloc, strdup, free]
      · simp [h0, hr, hrs, malloc, strdup, free]
      · intro x hx
        simp [h0, hr, hrs, malloc, strdup, free, hx]
      · intro c; exact absurd c hr
      · intro _ _
        simp [h0, hr, hrs, malloc, strdup, free]

/-- What a failed insertion at the tail leaves. -/
theorem q_insert_tail_fail_spec (h : Heap) (head : Nat) (s : List Nat) (re rs : Nat)
    (hf : re = 0 ∨ rs = 0) (hre : re ≠ 0 → h.live re = false) :
    (q_insert_tail h head s re rs).1.live = h.live ∧
      (q_insert_tail h head s re rs).1.str = h.str ∧
      (q_insert_tail h head s re rs).1.buf = h.buf ∧
      (∀ x, x ≠ re → (q_insert_tail h head s re rs).1.value x = h.value x) ∧
      (re = 0 → q_insert_tail h head s re rs = (h, false)) ∧
      (head ≠ 0 → re ≠ 0 → (q_insert_tail h head s re rs).1.freed = h.freed ++ [re]) := by
  unfold q_insert_tail
  by_cases h0 : head = 0
  · simp [h0]
  · by_cases hr : re = 0
    · simp [h0, hr, malloc]
    · have hrs : rs = 0 := by tauto
      have hlv := hre hr
      refine ⟨?_, ?_, ?_, ?_, ?_, ?_⟩
      · funext x
        by_cases hx : x = re
        · subst hx
          simp [h0, hr, hrs, malloc, strdup, free, hlv]
        · simp [h0, hr, hrs, malloc, strdup, free, Function.update_apply, hx]
      · simp [h0, hr, hrs, malloc, strdup, free]
      · simp [h0, hr, hrs, malloc, strdup, free]
      · intro x hx
        simp [h0, hr, hrs, malloc, strdup, free, hx]
      · intro c; exact absurd c hr
      · intro _ _
        simp [h0, hr, hrs, malloc, strdup, free]

/-- The texts of the elements of a queue after a write of the `value` field of
a block that is not one of them and of a text buffer that is none of theirs. -/
theorem text_frame {h h1 : Heap} {re rs : Nat} {t : List Nat} {ns : List Nat}
    (hv : h1.value = Function.update h.value re rs) (hs : h1.str = Function.update h.str rs t)
    (hre : re ∉ ns) (hrs : ∀ x ∈ ns, h.value x ≠ rs) :
    ∀ x ∈ ns, h1.text x = h.text x := by
  intro x hx
  have h1x : x ≠ re := by rintro rfl; exact hre hx
  simp [Heap.text, hv, hs, Function.update_apply, h1x, hrs x hx]


/-! ### The runs of duplicates by index -/

theorem dropRuns_step (h : Heap) (b : Bool) (x y : Nat) (r : List Nat) :
    dropRuns h b (x :: y :: r) =
      (if (!b && decide (¬ sameText h x y)) = true then [x] else []) ++
        dropRuns h (decide (sameText h x y)) (y :: r) := by
  rw [dropRuns_cons_cons]
  by_cases hxy : sameText h x y
  · simp [hxy]
  · cases b <;> simp [hxy]

theorem isolated_cons (h : Heap) (b : Bool) (x y : Nat) (r : List Nat) :
    isolated h b (x :: y :: r) =
      (if (!b && decide (¬ sameText h x y)) = true then [x] else []) ++
        isolated h (decide (sameText h x y)) (y :: r) := by
  unfold isolated
  rw [List.length_cons, List.range_succ_eq_map, List.filterMap_cons, List.filterMap_map]
  have e0 : keptAt h b (x :: y :: r) 0 = (!b && decide (¬ sameText h x y)) := by
    simp [keptAt, differs, sameText_iff]
  have e1 : ((fun i => if keptAt h b (x :: y :: r) i = true then (x :: y :: r)[i]? else none) ∘
      Nat.succ) =
      fun i => if keptAt h (decide (sameText h x y)) (y :: r) i = true then (y :: r)[i]?
        else none := by
    funext i
    cases i with
    | zero => simp [keptAt, differs, sameText_iff]
    | succ j => simp [keptAt]
  rw [e1]
  have hx0 : (x :: y :: r)[0]? = some x := rfl
  simp only [e0, hx0]
  by_cases hk : (!b && decide (¬ sameText h x y)) = true
  · rw [if_pos hk, if_pos hk]; rfl
  · rw [if_neg hk, if_neg hk]; rfl

/-- The sequence left by `q_delete_dup`, by index: an element stays exactly when
its text differs from the texts of both neighbours. -/
theorem dropRuns_eq_isolated (h : Heap) :
    ∀ (l : List Nat) (b : Bool), dropRuns h b l = isolated h b l := by
  intro l
  induction l with
  | nil => intro b; rfl
  | cons x l ih =>
    intro b
    cases l with
    | nil => cases b <;> simp [dropRuns, isolated, keptAt, differs, List.range_succ]
    | cons y r => rw [dropRuns_step, isolated_cons, ih]


theorem nodup_index_unique {l : List Nat} (hnd : l.Nodup) {i j e : Nat}
    (hi : l[i]? = some e) (hj : l[j]? = some e) : i = j := by
  obtain ⟨hi1, hi2⟩ := List.getElem?_eq_some_iff.1 hi
  obtain ⟨hj1, hj2⟩ := List.getElem?_eq_some_iff.1 hj
  exact (hnd.getElem_inj_iff).1 (hi2.trans hj2.symm)

theorem dropRuns_sublist (h : Heap) : ∀ (l : List Nat) (b : Bool), (dropRuns h b l).Sublist l := by
  intro l
  induction l with
  | nil => intro b; exact List.Sublist.refl _
  | cons x l ih =>
    intro b
    cases l with
    | nil => cases b <;> simp [dropRuns]
    | cons y r =>
      rw [dropRuns_step]
      split
      · exact (ih _).cons₂ x
      · exact (ih _).cons x

theorem mem_isolated (h : Heap) (b : Bool) (ns : List Nat) (e : Nat) :
    e ∈ isolated h b ns ↔ ∃ i, ns[i]? = some e ∧ keptAt h b ns i = true := by
  unfold isolated
  rw [List.mem_filterMap]
  constructor
  · rintro ⟨i, _, hi⟩
    by_cases hk : keptAt h b ns i = true
    · rw [if_pos hk] at hi
      exact ⟨i, hi, hk⟩
    · rw [if_neg hk] at hi
      exact absurd hi (by simp)
  · rintro ⟨i, hi, hk⟩
    refine ⟨i, ?_, by rw [if_pos hk]; exact hi⟩
    rw [List.mem_range]
    exact (List.getElem?_eq_some_iff.1 hi).1

/-- The rule of `keptAt`, spelled out for an element that is in the sequence. -/
theorem keptAt_iff (h : Heap) (ns : List Nat) {i e : Nat} (hi : ns[i]? = some e) :
    keptAt h false ns i = true ↔
      (∀ p, 0 < i → ns[i - 1]? = some p → h.text p ≠ h.text e) ∧
        (∀ n, ns[i + 1]? = some n → h.text e ≠ h.text n) := by
  unfold keptAt
  rw [hi]
  by_cases h0 : i = 0
  · subst h0
    cases hn : ns[0 + 1]? with
    | none => simp [differs]
    | some n => simp [differs]
  · have hpos : 0 < i := Nat.pos_of_ne_zero h0
    cases hp : ns[i - 1]? with
    | none =>
      cases hn : ns[i + 1]? with
      | none => simp [differs, h0]
      | some n => simp [differs, h0]
    | some p =>
      cases hn : ns[i + 1]? with
      | none => simp [differs, h0, hpos]
      | some n => simp [differs, h0, hpos]


/-! ### Traces of accesses -/

theorem frees_append (t1 t2 : List Ev) : frees (t1 ++ t2) = frees t1 ++ frees t2 := by
  induction t1 with
  | nil => rfl
  | cons ev t ih => cases ev <;> simp [frees, ih]

theorem mem_frees (t : List Ev) (p : Nat) : p ∈ frees t ↔ Ev.free p ∈ t := by
  induction t with
  | nil => simp [frees]
  | cons ev t ih => cases ev <;> simp [frees, ih]

theorem safeTrace_free (p : Nat) (t : List Ev) :
    safeTrace (Ev.free p :: t) ↔ (∀ ev ∈ t, p ∉ ev.mentions) ∧ safeTrace t :=
  Iff.rfl

theorem safeTrace_read (a : Nat) (t : List Ev) : safeTrace (Ev.read a :: t) ↔ safeTrace t :=
  Iff.rfl

theorem safeTrace_write (a : Nat) (t : List Ev) : safeTrace (Ev.write a :: t) ↔ safeTrace t :=
  Iff.rfl

theorem safeTrace_through (a : Nat) (t : List Ev) :
    safeTrace (Ev.through a :: t) ↔ safeTrace t :=
  Iff.rfl

theorem safeTrace_cmp (a b : Nat) (t : List Ev) : safeTrace (Ev.cmp a b :: t) ↔ safeTrace t :=
  Iff.rfl

theorem safeTrace_nil : safeTrace [] :=
  trivial

/-- A trace in two parts is safe when both parts are and nothing freed in the
first part is touched in the second. -/
theorem safeTrace_append (t1 t2 : List Ev) :
    safeTrace (t1 ++ t2) ↔
      safeTrace t1 ∧ safeTrace t2 ∧ ∀ p ∈ frees t1, ∀ ev ∈ t2, p ∉ ev.mentions := by
  induction t1 with
  | nil => simp [safeTrace_nil, frees]
  | cons ev t ih =>
    cases ev with
    | free p =>
      rw [List.cons_append, safeTrace_free, safeTrace_free, ih]
      simp only [frees, List.mem_cons, List.mem_append, forall_eq_or_imp]
      constructor
      · rintro ⟨h1, h2, h3, h4⟩
        exact ⟨⟨fun ev hev => h1 ev (Or.inl hev), h2⟩, h3, fun ev hev => h1 ev (Or.inr hev), h4⟩
      · rintro ⟨⟨h1, h2⟩, h3, h4, h5⟩
        exact ⟨fun ev hev => Or.elim hev (h1 ev) (h4 ev), h2, h3, h5⟩
    | read a => rw [List.cons_append, safeTrace_read, safeTrace_read, ih]; rfl
    | write a => rw [List.cons_append, safeTrace_write, safeTrace_write, ih]; rfl
    | through a => rw [List.cons_append, safeTrace_through, safeTrace_through, ih]; rfl
    | cmp a b => rw [List.cons_append, safeTrace_cmp, safeTrace_cmp, ih]; rfl

theorem releaseEvents_eq {h : Heap} {e : Nat} (hv : h.value e ≠ 0) (he : e ≠ 0) :
    releaseEvents h e = [Ev.read e, Ev.free (h.value e), Ev.free e] := by
  simp [releaseEvents, hv, he]

theorem release_freed_eq {h : Heap} {e : Nat} (hv : h.value e ≠ 0) (he : e ≠ 0) :
    (q_release_element h e).freed = h.freed ++ [h.value e, e] := by
  simp [release_freed, hv, he]

theorem q_free_loop_tr_heap (head : Nat) :
    ∀ (fuel : Nat) (h : Heap) (node : Nat),
      (q_free_loop_tr head fuel h node).map Prod.fst = q_free_loop head fuel h node := by
  intro fuel
  induction fuel with
  | zero => intro h node; rfl
  | succ fuel ih =>
    intro h node
    by_cases hn : node = head
    · simp [q_free_loop_tr, q_free_loop, hn]
    · simp only [q_free_loop_tr, q_free_loop, hn, ne_eq, not_false_eq_true, if_true,
        Option.map_map]
      rw [← ih]
      rfl

theorem q_free_tr_heap (fuel : Nat) (h : Heap) (l : Nat) :
    (q_free_tr fuel h l).map Prod.fst = q_free fuel h l := by
  unfold q_free_tr q_free
  by_cases hl : l = 0
  · simp [hl]
  · simp only [hl, if_false, Option.map_map]
    rw [← q_free_loop_tr_heap]
    simp only [Option.map_map]
    rfl


/-! ### The accesses of `q_free` -/

/-- What follows the sentinel in a split of the cycle is a part of the queue. -/
theorem cyc_suffix {head a : Nat} {ns pre t : List Nat} (e : head :: ns = pre ++ a :: t)
    (hpre : pre ≠ []) (hnd : ns.Nodup) :
    a ∈ ns ∧ a ∉ t ∧ (∀ x ∈ t, x ∈ ns) := by
  rcases cyc_split_cases e with ⟨c, _, _⟩ | ⟨pre1, _, rfl⟩
  · exact absurd c hpre
  · have h1 := List.nodup_append.1 hnd
    exact ⟨by simp, (List.nodup_cons.1 h1.2.1).1, fun x hx => by simp [hx]⟩

theorem q_free_loop_tr_spec {h0 : Heap} {head : Nat} {ns : List Nat} (hw : WF h0 head ns)
    (ho : owned h0 head ns) :
    ∀ (rest pre : List Nat) (hc : Heap) (fuel : Nat), head :: ns = pre ++ rest → pre ≠ [] →
      hc.next = h0.next → hc.prev = h0.prev → hc.value = h0.value → rest.length < fuel →
      ∃ h1 tr, q_free_loop_tr head fuel hc (rest ++ [head]).headI = some (h1, tr) ∧
        h1.next = h0.next ∧ h1.prev = h0.prev ∧ h1.value = h0.value ∧ h1.str = hc.str ∧
        h1.buf = hc.buf ∧
        h1.freed = hc.freed ++ rest.flatMap (fun e => [h0.value e, e]) ∧
        (∀ x, h1.live x =
          if x ∈ rest.flatMap (fun e => [h0.value e, e]) then false else hc.live x) ∧
        frees tr = rest.flatMap (fun e => [h0.value e, e]) ∧
        (∀ ev ∈ tr, ∀ a ∈ ev.mentions,
          a = head ∨ a ∈ rest.flatMap (fun e => [h0.value e, e])) ∧
        safeTrace tr := by
  intro rest
  induction rest with
  | nil =>
    intro pre hc fuel _ _ hn hp hv hf
    obtain ⟨fuel, rfl⟩ : ∃ k, fuel = k + 1 := ⟨fuel - 1, by simp at hf; omega⟩
    exact ⟨hc, [], by simp [q_free_loop_tr], hn, hp, hv, rfl, rfl, by simp, by simp,
      by simp [frees], by simp, safeTrace_nil⟩
  | cons a t ih =>
    intro pre hc fuel e hpre hn hp hv hf
    obtain ⟨fuel, rfl⟩ : ∃ k, fuel = k + 1 := ⟨fuel - 1, by simp at hf; omega⟩
    obtain ⟨hans, hat, htns⟩ := cyc_suffix e hpre hw.2.2.2.1
    have hah : a ≠ head := fun c => hw.2.2.1 (c ▸ hans)
    have ha0 : a ≠ 0 := fun c => hw.2.1 (c ▸ hans)
    have hva0 : h0.value a ≠ 0 := ho.1 a hans
    have hvan : h0.value a ∉ head :: ns := ho.2.1 a hans
    have hnx : h0.next a = (t ++ [head]).headI := hw.next_at e
    have hpn : h0.prev (h0.next a) = a := hw.prev_next (List.mem_cons_of_mem _ hans)
    obtain ⟨h1, tr, hr, r1, r2, r3, r4, r5, r6, r7, r8, r9, r10⟩ :=
      ih (pre ++ [a]) (q_release_element hc a) fuel (by simp [e]) (by simp)
        (by rw [release_next, hn]) (by rw [release_prev, hp]) (by rw [release_value, hv])
        (by simp at hf; omega)
    have hvc : hc.value a = h0.value a := by rw [hv]
    have hvc0 : hc.value a ≠ 0 := by rw [hvc]; exact hva0
    refine ⟨h1, [Ev.read a, Ev.read (h0.next a)] ++ releaseEvents hc a ++ tr, ?_, r1, r2, r3,
      by rw [r4, release_str], by rw [r5, release_buf], ?_, ?_, ?_, ?_, ?_⟩
    · rw [← hnx] at hr
      simp only [List.cons_append, List.headI_cons, q_free_loop_tr, hah, ne_eq,
        not_false_eq_true, if_true, hn, hp, hpn, hr, Option.map_some']
    · rw [r6, release_freed_eq hvc0 ha0, hvc]
      simp
    · intro x
      rw [r7, release_live, hvc]
      simp only [List.flatMap_cons, List.mem_append, List.mem_cons, List.mem_singleton,
        List.not_mem_nil, or_false]
      by_cases hx1 : x ∈ t.flatMap (fun e => [h0.value e, e])
      · simp [hx1]
      · by_cases hx2 : x = a
        · simp [hx1, hx2, ha0]
        · by_cases hx3 : x = h0.value a
          · simp [hx1, hx3, hva0]
          · simp [hx1, hx2, hx3]
    · rw [frees_append, frees_append, r8, releaseEvents_eq hvc0 ha0, hvc]
      simp [frees]
    · intro ev hev b hb
      rw [releaseEvents_eq hvc0 ha0, hvc] at hev
      simp only [List.cons_append, List.nil_append, List.mem_cons, List.mem_append] at hev
      simp only [List.flatMap_cons, List.mem_append, List.mem_cons, List.mem_singleton,
        List.not_mem_nil, or_false]
      rcases hev with rfl | rfl | rfl | rfl | rfl | hev
      · simp [Ev.mentions] at hb; simp [hb]
      · simp only [Ev.mentions, List.mem_singleton] at hb
        rw [hb, hnx]
        cases t with
        | nil => simp
        | cons b1 t1 => simp
      · simp [Ev.mentions] at hb; simp [hb]
      · simp [Ev.mentions] at hb; simp [hb]
      · simp [Ev.mentions] at hb; simp [hb]
      · rcases r9 ev hev b hb with c | c
        · exact Or.inl c
        · exact Or.inr (Or.inr c)
    · rw [releaseEvents_eq hvc0 ha0, hvc]
      have hmt : ∀ ev ∈ tr, ∀ b ∈ ev.mentions, b ≠ a ∧ b ≠ h0.value a := by
        intro ev hev b hb
        rcases r9 ev hev b hb with c | c
        · subst c
          exact ⟨fun c => hah c.symm, fun c => hvan (by simp [← c])⟩
        · obtain ⟨x, hx, hbx⟩ := List.mem_flatMap.1 c
          simp only [List.mem_cons, List.mem_singleton, List.not_mem_nil, or_false] at hbx
          have hxn := htns x hx
          rcases hbx with rfl | rfl
          · refine ⟨fun c => ho.2.1 x hxn (by simp [c, hans]), fun c => ?_⟩
            have := List.inj_on_of_nodup_map ho.2.2 hxn hans c
            exact hat (this ▸ hx)
          · exact ⟨fun c => hat (c ▸ hx), fun c => hvan (by simp [← c, hxn])⟩
      simp only [List.cons_append, List.nil_append, safeTrace_read, safeTrace_free]
      refine ⟨?_, ?_, r10⟩
      · intro ev hev
        rcases List.mem_cons.1 hev with rfl | hev
        · simp only [Ev.mentions, List.mem_singleton]
          exact fun c => hvan (by simp [c, hans])
        · exact fun c => (hmt ev hev _ c).2 rfl
      · intro ev hev
        exact fun c => (hmt ev hev _ c).1 rfl


/-- In a safe trace no block is freed twice. -/
theorem safeTrace_frees_nodup : ∀ t : List Ev, safeTrace t → (frees t).Nodup := by
  intro t
  induction t with
  | nil => intro _; exact List.nodup_nil
  | cons ev t ih =>
    intro hs
    cases ev with
    | free p =>
      rw [safeTrace_free] at hs
      refine List.nodup_cons.2 ⟨?_, ih hs.2⟩
      intro c
      exact hs.1 _ ((mem_frees t p).1 c) (by simp [Ev.mentions])
    | read a => exact ih hs
    | write a => exact ih hs
    | through a => exact ih hs
    | cmp a b => exact ih hs

theorem q_free_tr_spec {h : Heap} {head : Nat} {ns : List Nat} {fuel : Nat}
    (hw : WF h head ns) (ho : owned h head ns) (hf : ns.length < fuel) :
    ∃ h1 tr, q_free_tr fuel h head = some (h1, tr) ∧
      h1.freed = h.freed ++ (ns.flatMap (fun e => [h.value e, e]) ++ [head]) ∧
      (∀ x, h1.live x =
        if x ∈ ns.flatMap (fun e => [h.value e, e]) ++ [head] then false else h.live x) ∧
      frees tr = ns.flatMap (fun e => [h.value e, e]) ++ [head] ∧
      safeTrace tr ∧ h1.next = h.next ∧ h1.prev = h.prev ∧ h1.value = h.value ∧
      h1.str = h.str ∧ h1.buf = h.buf := by
  obtain ⟨h1, tr, hr, r1, r2, r3, r4, r5, r6, r7, r8, r9, r10⟩ :=
    q_free_loop_tr_spec hw ho ns [head] h fuel rfl (by simp) rfl rfl rfl hf
  have hnx : h.next head = (ns ++ [head]).headI := hw.next_head
  have h0 := hw.1
  refine ⟨free h1 head, [Ev.read head] ++ tr ++ [Ev.free head], ?_, ?_, ?_, ?_, ?_,
    by rw [free_next, r1], by rw [free_prev, r2], by rw [free_value, r3], by rw [free_str, r4],
    by rw [free_buf, r5]⟩
  · simp [q_free_tr, h0, hnx, hr]
  · rw [free_freed, r6]
    simp [h0]
  · intro x
    rw [free_live, r7]
    by_cases hx1 : x ∈ ns.flatMap (fun e => [h.value e, e])
    · simp [hx1]
    · by_cases hx2 : x = head
      · simp [hx2, h0]
      · simp [hx1, hx2]
  · rw [frees_append, frees_append, r8]
    simp [frees]
  · have hhead : ∀ p ∈ ns.flatMap (fun e => [h.value e, e]), p ≠ head := by
      intro p hp c
      obtain ⟨x, hx, hpx⟩ := List.mem_flatMap.1 hp
      simp only [List.mem_cons, List.mem_singleton, List.not_mem_nil, or_false] at hpx
      rcases hpx with rfl | rfl
      · exact ho.2.1 x hx (by simp [c])
      · exact hw.2.2.1 (c ▸ hx)
    rw [List.append_assoc, List.singleton_append, safeTrace_read, safeTrace_append]
    refine ⟨r10, by simp [safeTrace_free, safeTrace_nil], ?_⟩
    intro p hp ev hev
    rw [r8] at hp
    simp only [List.mem_singleton] at hev
    subst hev
    simp only [Ev.mentions, List.mem_singleton]
    exact hhead p hp


/-! ### The accesses of `q_delete_dup` -/

theorem safeTrace_of_frees_nil : ∀ t : List Ev, frees t = [] → safeTrace t := by
  intro t
  induction t with
  | nil => intro _; exact safeTrace_nil
  | cons ev t ih =>
    intro hf
    cases ev with
    | free p => simp [frees] at hf
    | read a => exact ih hf
    | write a => exact ih hf
    | through a => exact ih hf
    | cmp a b => exact ih hf

theorem safeTrace_append_quiet {t1 : List Ev} (t2 : List Ev) (h1 : frees t1 = []) :
    safeTrace (t1 ++ t2) ↔ safeTrace t2 := by
  rw [safeTrace_append, h1]
  simp [safeTrace_of_frees_nil t1 h1]

theorem releaseEvents_subset (h : Heap) (e : Nat) :
    ∀ ev ∈ releaseEvents h e, ev = Ev.read e ∨ ev = Ev.free (h.value e) ∨ ev = Ev.free e := by
  intro ev hev
  simp only [releaseEvents, List.mem_cons, List.mem_append] at hev
  rcases hev with rfl | hev | hev
  · exact Or.inl rfl
  · split at hev
    · simp at hev
    · exact Or.inr (Or.inl (by simpa using hev))
  · split at hev
    · simp at hev
    · exact Or.inr (Or.inr (by simpa using hev))

/-- The release of an element in front of a trace that touches neither the
element nor its text buffer. -/
theorem safeTrace_release {h : Heap} {e : Nat} {t : List Ev}
    (hm : ∀ ev ∈ t, ∀ a ∈ ev.mentions, a ≠ e ∧ a ≠ h.value e) (hne : h.value e ≠ e)
    (ht : safeTrace t) : safeTrace (releaseEvents h e ++ t) := by
  have h1 : ∀ ev ∈ t, e ∉ ev.mentions := fun ev hev c => (hm ev hev _ c).1 rfl
  have h2 : ∀ ev ∈ t, h.value e ∉ ev.mentions := fun ev hev c => (hm ev hev _ c).2 rfl
  unfold releaseEvents
  by_cases hv : h.value e = 0
  · by_cases he : e = 0
    · rw [if_pos hv, if_pos he]
      exact ht
    · rw [if_pos hv, if_neg he]
      exact ⟨h1, ht⟩
  · by_cases he : e = 0
    · rw [if_neg hv, if_pos he]
      exact ⟨h2, ht⟩
    · rw [if_neg hv, if_neg he]
      refine ⟨?_, h1, ht⟩
      intro ev hev
      rcases List.mem_cons.1 hev with rfl | hev
      · simpa [Ev.mentions] using hne
      · exact h2 ev hev

theorem releaseEvents_mentions (h : Heap) (e : Nat) :
    ∀ ev ∈ releaseEvents h e, ∀ a ∈ ev.mentions, a = e ∨ a = h.value e := by
  intro ev hev a ha
  rcases releaseEvents_subset h e ev hev with rfl | rfl | rfl <;>
    simp [Ev.mentions] at ha <;> simp [ha]

theorem frees_releaseEvents (h : Heap) (e : Nat) :
    ∀ p ∈ frees (releaseEvents h e), p = e ∨ p = h.value e := by
  intro p hp
  rw [mem_frees] at hp
  exact releaseEvents_mentions h e _ hp p (by simp [Ev.mentions])

theorem unlinkEvents_mentions (h : Heap) (c : Nat) :
    ∀ ev ∈ unlinkEvents h c, ∀ a ∈ ev.mentions,
      a = c ∨ a = h.next c ∨ a = h.next (h.next c) := by
  intro ev hev a ha
  simp only [unlinkEvents, List.mem_cons, List.mem_singleton, List.not_mem_nil, or_false] at hev
  rcases hev with rfl | rfl | rfl | rfl | rfl | rfl | rfl | rfl | rfl <;>
    simp [Ev.mentions] at ha <;> simp [ha]

theorem relinkEvents_mentions (h : Heap) (c : Nat) :
    ∀ ev ∈ relinkEvents h c, ∀ a ∈ ev.mentions,
      a = c ∨ a = h.next c ∨ a = h.next (h.next c) := by
  intro ev hev a ha
  simp only [relinkEvents, List.mem_cons, List.mem_singleton, List.not_mem_nil, or_false] at hev
  rcases hev with rfl | rfl | rfl | rfl <;> simp [Ev.mentions] at ha <;> simp [ha]

theorem printEvents_mentions (h : Heap) (c : Nat) :
    ∀ ev ∈ printEvents h c, ∀ a ∈ ev.mentions,
      a = c ∨ a = h.next c ∨ a = h.value (h.next c) := by
  intro ev hev a ha
  simp only [printEvents, List.mem_cons, List.mem_singleton, List.not_mem_nil, or_false] at hev
  rcases hev with rfl | rfl | rfl <;> simp [Ev.mentions] at ha <;> simp [ha]

theorem testEvents_mentions (h : Heap) (head c : Nat) :
    ∀ ev ∈ testEvents h head c, ∀ a ∈ ev.mentions,
      a = c ∨ a = h.next c ∨
        (h.next (h.next c) ≠ head ∧
          (a = h.next (h.next c) ∨ a = h.value (h.next c) ∨
            a = h.value (h.next (h.next c)))) := by
  intro ev hev a ha
  unfold testEvents at hev
  by_cases hn : h.next (h.next c) = head
  · simp only [hn, if_true, List.append_nil, List.mem_cons, List.mem_singleton,
      List.not_mem_nil, or_false] at hev
    rcases hev with rfl | rfl <;> simp [Ev.mentions] at ha <;> simp [ha]
  · simp only [hn, if_false, cmpEvents, List.cons_append, List.nil_append, List.mem_cons,
      List.mem_singleton, List.not_mem_nil, or_false] at hev
    rcases hev with rfl | rfl | rfl | rfl | rfl | rfl | rfl | rfl | rfl | rfl <;>
      simp [Ev.mentions] at ha <;> simp [ha, hn]
    rcases ha with rfl | rfl <;> simp

theorem frees_unlinkEvents (h : Heap) (c : Nat) : frees (unlinkEvents h c) = [] := rfl

theorem frees_relinkEvents (h : Heap) (c : Nat) : frees (relinkEvents h c) = [] := rfl

theorem frees_printEvents (h : Heap) (c : Nat) : frees (printEvents h c) = [] := rfl

theorem frees_testEvents (h : Heap) (head c : Nat) : frees (testEvents h head c) = [] := by
  unfold testEvents
  split <;> rfl

theorem cmp_mem_testEvents {h : Heap} {head c a b : Nat}
    (hm : Ev.cmp a b ∈ testEvents h head c) :
    h.next (h.next c) ≠ head ∧ a = h.next c ∧ b = h.next (h.next c) := by
  unfold testEvents at hm
  by_cases hn : h.next (h.next c) = head
  · simp [hn] at hm
  · simpa [hn, cmpEvents] using hm

theorem cmp_not_mem_unlinkEvents (h : Heap) (c a b : Nat) : Ev.cmp a b ∉ unlinkEvents h c := by
  simp [unlinkEvents]

theorem cmp_not_mem_relinkEvents (h : Heap) (c a b : Nat) : Ev.cmp a b ∉ relinkEvents h c := by
  simp [relinkEvents]

theorem cmp_not_mem_printEvents (h : Heap) (c a b : Nat) : Ev.cmp a b ∉ printEvents h c := by
  simp [printEvents]

theorem cmp_not_mem_releaseEvents (h : Heap) (e a b : Nat) :
    Ev.cmp a b ∉ releaseEvents h e := by
  unfold releaseEvents
  by_cases hv : h.value e = 0 <;> by_cases he : e = 0 <;> simp [hv, he]

theorem through_mem_unlinkEvents {h : Heap} {c c1 : Nat}
    (hm : Ev.through c1 ∈ unlinkEvents h c) : c1 = c := by
  simpa [unlinkEvents] using hm

theorem through_not_mem_relinkEvents (h : Heap) (c c1 : Nat) :
    Ev.through c1 ∉ relinkEvents h c := by
  simp [relinkEvents]

theorem through_not_mem_printEvents (h : Heap) (c c1 : Nat) :
    Ev.through c1 ∉ printEvents h c := by
  simp [printEvents]

theorem through_not_mem_testEvents (h : Heap) (head c c1 : Nat) :
    Ev.through c1 ∉ testEvents h head c := by
  unfold testEvents
  by_cases hn : h.next (h.next c) = head <;> simp [hn, cmpEvents]

theorem through_not_mem_releaseEvents (h : Heap) (e c1 : Nat) :
    Ev.through c1 ∉ releaseEvents h e := by
  unfold releaseEvents
  by_cases hv : h.value e = 0 <;> by_cases he : e = 0 <;> simp [hv, he]

/-- Ownership is kept when elements leave the queue and the `value` fields stay. -/
theorem owned.mono {h h1 : Heap} {head : Nat} {ns ns1 : List Nat} (ho : owned h head ns)
    (hs : ns1.Sublist ns) (hv : h1.value = h.value) : owned h1 head ns1 := by
  refine ⟨fun e he => ?_, fun e he => ?_, ?_⟩
  · rw [hv]; exact ho.1 e (hs.subset he)
  · rw [hv]
    intro c
    exact ho.2.1 e (hs.subset he) (by
      rcases List.mem_cons.1 c with c | c
      · exact List.mem_cons.2 (Or.inl c)
      · exact List.mem_cons_of_mem _ (hs.subset c))
  · rw [hv]
    exact (hs.map h.value).nodup ho.2.2

/-- An element of the queue and its text buffer are different from the sentinel,
from every other element and from the text buffers of the other elements. -/
theorem removed_fresh {h : Heap} {head x : Nat} {kept rest : List Nat}
    (hw : WF h head (kept ++ x :: rest)) (ho : owned h head (kept ++ x :: rest)) :
    h.value x ≠ x ∧
      ∀ a, (a ∈ head :: kept ∨ a ∈ rest ∨ a ∈ rest.map h.value) → a ≠ x ∧ a ≠ h.value x := by
  have hx : x ∈ kept ++ x :: rest := by simp
  have hnd := hw.2.2.2.1
  have hxk : x ∉ kept ∧ x ∉ rest := by
    have h1 := List.nodup_append.1 hnd
    refine ⟨fun c => h1.2.2 c (List.mem_cons_self _ _), (List.nodup_cons.1 h1.2.1).1⟩
  have hvx := ho.2.1 x hx
  refine ⟨fun c => hvx (by rw [c]; exact List.mem_cons_of_mem _ hx), ?_⟩
  rintro a (ha | ha | ha)
  · rcases List.mem_cons.1 ha with rfl | ha
    · exact ⟨fun c => hw.2.2.1 (c ▸ hx), fun c => hvx (by simp [← c])⟩
    · exact ⟨fun c => hxk.1 (c ▸ ha), fun c => hvx (by simp [← c, ha])⟩
  · exact ⟨fun c => hxk.2 (c ▸ ha), fun c => hvx (by simp [← c, ha])⟩
  · obtain ⟨e, he, rfl⟩ := List.mem_map.1 ha
    have hen : e ∈ kept ++ x :: rest := by simp [he]
    refine ⟨fun c => ho.2.1 e hen (by rw [c]; exact List.mem_cons_of_mem _ hx), fun c => ?_⟩
    have := List.inj_on_of_nodup_map ho.2.2 hen hx c
    exact hxk.2 (this ▸ he)

theorem runTail_sublist (h : Heap) :
    ∀ (ys : List Nat) (y : Nat), (runTail h y ys).Sublist (y :: ys) := by
  intro ys
  induction ys with
  | nil => intro y; simp [runTail]
  | cons z r ih =>
    intro y
    unfold runTail
    split
    · exact (ih z).cons y
    · exact List.Sublist.refl _

theorem q_delete_dup_run_tr_succ (head c fuel : Nat) (h : Heap) :
    q_delete_dup_run_tr head c (fuel + 1) h =
      if (q_release_element (q_delete_dup_unlink h c).1 (q_delete_dup_unlink h c).2).next
            ((q_release_element (q_delete_dup_unlink h c).1 (q_delete_dup_unlink h c).2).next c)
            ≠ head ∧
          sameText (q_release_element (q_delete_dup_unlink h c).1 (q_delete_dup_unlink h c).2)
            ((q_release_element (q_delete_dup_unlink h c).1 (q_delete_dup_unlink h c).2).next c)
            ((q_release_element (q_delete_dup_unlink h c).1 (q_delete_dup_unlink h c).2).next
              ((q_release_element (q_delete_dup_unlink h c).1
                (q_delete_dup_unlink h c).2).next c)) then
        (q_delete_dup_run_tr head c fuel
          (q_release_element (q_delete_dup_unlink h c).1 (q_delete_dup_unlink h c).2)).map
          (fun r => (r.1,
            unlinkEvents h c ++
              releaseEvents (q_delete_dup_unlink h c).1 (q_delete_dup_unlink h c).2 ++
              testEvents
                (q_release_element (q_delete_dup_unlink h c).1 (q_delete_dup_unlink h c).2)
                head c ++ r.2.1,
            cmpSnaps
              (q_release_element (q_delete_dup_unlink h c).1 (q_delete_dup_unlink h c).2)
              head c ++ r.2.2))
      else some (q_release_element (q_delete_dup_unlink h c).1 (q_delete_dup_unlink h c).2,
        unlinkEvents h c ++
          releaseEvents (q_delete_dup_unlink h c).1 (q_delete_dup_unlink h c).2 ++
          testEvents (q_release_element (q_delete_dup_unlink h c).1 (q_delete_dup_unlink h c).2)
            head c,
        cmpSnaps (q_release_element (q_delete_dup_unlink h c).1 (q_delete_dup_unlink h c).2)
          head c) :=
  rfl

theorem q_delete_dup_loop_tr_succ (head c fuel : Nat) (h : Heap) :
    q_delete_dup_loop_tr head (fuel + 1) h c =
      if h.next c ≠ head then
        if h.next (h.next c) = head ∨ ¬ sameText h (h.next c) (h.next (h.next c)) then
          (q_delete_dup_loop_tr head fuel h (h.next c)).map
            (fun r => (r.1, r.2.1,
              [Ev.read c] ++ testEvents h head c ++ [Ev.read c] ++ r.2.2.1,
              cmpSnaps h head c ++ r.2.2.2))
        else
          match q_delete_dup_run_tr head c fuel h with
          | none => none
          | some (h1, t1, k1) =>
            (q_delete_dup_loop_tr head fuel
              (q_release_element
                ((q_delete_dup_unlink h1 c).1.setPrev
                  ((q_delete_dup_unlink h1 c).1.next ((q_delete_dup_unlink h1 c).1.next c))
                  ((q_delete_dup_unlink h1 c).1.next c))
                (q_delete_dup_unlink h1 c).2) c).map
              (fun r => (r.1, r.2.1,
                [Ev.read c] ++ testEvents h head c ++ printEvents h c ++ t1 ++
                  unlinkEvents h1 c ++ relinkEvents (q_delete_dup_unlink h1 c).1 c ++
                  releaseEvents
                    ((q_delete_dup_unlink h1 c).1.setPrev
                      ((q_delete_dup_unlink h1 c).1.next ((q_delete_dup_unlink h1 c).1.next c))
                      ((q_delete_dup_unlink h1 c).1.next c))
                    (q_delete_dup_unlink h1 c).2 ++ r.2.2.1,
                cmpSnaps h head c ++ k1 ++ r.2.2.2))
      else some (h, c, [Ev.read c], []) :=
  rfl

/-- The heap of the instrumented run is the heap of the run. -/
theorem q_delete_dup_run_tr_heap (head c : Nat) :
    ∀ (fuel : Nat) (h : Heap),
      (q_delete_dup_run_tr head c fuel h).map Prod.fst = q_delete_dup_run head c fuel h := by
  intro fuel
  induction fuel with
  | zero => intro h; rfl
  | succ fuel ih =>
    intro h
    rw [q_delete_dup_run_tr_succ, q_delete_dup_run_succ]
    split
    · rw [← ih, Option.map_map]; rfl
    · rfl

/-- The heap of the instrumented loop is the heap of the loop. -/
theorem q_delete_dup_loop_tr_heap (head : Nat) :
    ∀ (fuel : Nat) (h : Heap) (c : Nat),
      (q_delete_dup_loop_tr head fuel h c).map Prod.fst = q_delete_dup_loop head fuel h c := by
  intro fuel
  induction fuel with
  | zero => intro h c; rfl
  | succ fuel ih =>
    intro h c
    rw [q_delete_dup_loop_tr_succ, q_delete_dup_loop_succ]
    split
    · split
      · rw [← ih, Option.map_map]; rfl
      · rw [← q_delete_dup_run_tr_heap]
        cases hr : q_delete_dup_run_tr head c fuel h with
        | none => rfl
        | some r =>
          obtain ⟨h1, t1, k1⟩ := r
          simp only [Option.map_some']
          rw [← ih, Option.map_map]
          rfl
    · rfl


theorem touched_mono {f : Nat → Nat} {A l1 l2 : List Nat} (hs : l1 ⊆ l2) {a : Nat}
    (ha : a ∈ A ∨ a ∈ l1 ∨ a ∈ l1.map f) : a ∈ A ∨ a ∈ l2 ∨ a ∈ l2.map f := by
  rcases ha with ha | ha | ha
  · exact Or.inl ha
  · exact Or.inr (Or.inl (hs ha))
  · obtain ⟨e, he, rfl⟩ := List.mem_map.1 ha
    exact Or.inr (Or.inr (List.mem_map_of_mem _ (hs he)))

/-- One pass of the body of the `do .. while` with the test that follows it:
the element `x` after the cursor leaves the queue and is released, and nothing
that is touched afterwards is `x` or its text buffer. -/
theorem q_delete_dup_run_step {h : Heap} {head c x y : Nat} {kept pre ys : List Nat}
    (hw : WF h head (kept ++ x :: y :: ys)) (ho : owned h head (kept ++ x :: y :: ys))
    (hc : head :: kept = pre ++ [c]) (h3 : Heap) (evs : List Ev)
    (hh : h3 = q_release_element (q_delete_dup_unlink h c).1 (q_delete_dup_unlink h c).2)
    (he : evs = unlinkEvents h c ++
      releaseEvents (q_delete_dup_unlink h c).1 (q_delete_dup_unlink h c).2 ++
      testEvents h3 head c) :
    h3.next c = y ∧ h3.next y = (ys ++ [head]).headI ∧
      (∀ ev ∈ evs, ∀ a ∈ ev.mentions,
        a ∈ head :: kept ∨ a ∈ x :: y :: ys ∨ a ∈ (x :: y :: ys).map h.value) ∧
      (∀ p ∈ frees evs, (p ∈ x :: y :: ys ∨ p ∈ (x :: y :: ys).map h.value) ∧
        ∀ a, (a ∈ head :: kept ∨ a ∈ y :: ys ∨ a ∈ (y :: ys).map h.value) → a ≠ p) ∧
      (∀ t, safeTrace t →
        (∀ ev ∈ t, ∀ a ∈ ev.mentions,
          a ∈ head :: kept ∨ a ∈ y :: ys ∨ a ∈ (y :: ys).map h.value) →
        safeTrace (evs ++ t)) ∧
      (∀ a b, Ev.cmp a b ∈ evs → a ∈ x :: y :: ys ∧ b ∈ x :: y :: ys) ∧
      (∀ c1, Ev.through c1 ∈ evs → c1 = c) := by
  obtain ⟨hux, _, hd2⟩ := q_delete_dup_unlink_spec hw hc
  obtain ⟨hw3, hv3, hs3⟩ := unlink_release_spec hw hc
  have hv2 : (q_delete_dup_unlink h c).1.value = h.value := hd2.1
  subst hh
  subst he
  have e0 : head :: (kept ++ x :: y :: ys) = pre ++ c :: x :: y :: ys := by
    rw [← List.cons_append, hc]; simp
  have e1 : head :: (kept ++ x :: y :: ys) = (pre ++ [c]) ++ x :: y :: ys := by
    rw [e0]; simp
  have f0 : head :: (kept ++ y :: ys) = pre ++ c :: y :: ys := by
    rw [← List.cons_append, hc]; simp
  have f1 : head :: (kept ++ y :: ys) = (pre ++ [c]) ++ y :: ys := by
    rw [f0]; simp
  have hnc0 : h.next c = x := by simpa using hw.next_at e0
  have hnx0 : h.next x = y := by simpa using hw.next_at e1
  have hnc := hw3.next_at f0
  have hny := hw3.next_at f1
  simp only [List.cons_append, List.headI_cons] at hnc hny
  have hcm : c ∈ head :: kept := by rw [hc]; simp
  have hfr := removed_fresh hw ho
  have hyl : (ys ++ [head]).headI ≠ head → (ys ++ [head]).headI ∈ ys := by
    cases ys <;> simp
  have hT : ∀ ev ∈ testEvents
      (q_release_element (q_delete_dup_unlink h c).1 (q_delete_dup_unlink h c).2) head c,
      ∀ a ∈ ev.mentions, a ∈ head :: kept ∨ a ∈ y :: ys ∨ a ∈ (y :: ys).map h.value := by
    intro ev hev a ha
    have := testEvents_mentions _ head c ev hev a ha
    rw [hnc, hny, hv3] at this
    rcases this with c1 | c1 | ⟨hn, c1 | c1 | c1⟩
    · exact Or.inl (c1 ▸ hcm)
    · exact Or.inr (Or.inl (by simp [c1]))
    · exact Or.inr (Or.inl (by rw [c1]; exact List.mem_cons_of_mem _ (hyl hn)))
    · exact Or.inr (Or.inr (by simp [c1]))
    · exact Or.inr (Or.inr (by
        rw [c1]; exact List.mem_map_of_mem _ (List.mem_cons_of_mem _ (hyl hn))))
  refine ⟨hnc, hny, ?_, ?_, ?_, ?_, ?_⟩
  · intro ev hev a ha
    simp only [List.mem_append] at hev
    rcases hev with (hev | hev) | hev
    · have := unlinkEvents_mentions h c ev hev a ha
      rw [hnc0, hnx0] at this
      rcases this with c1 | c1 | c1
      · exact Or.inl (c1 ▸ hcm)
      · exact Or.inr (Or.inl (by simp [c1]))
      · exact Or.inr (Or.inl (by simp [c1]))
    · have := releaseEvents_mentions _ _ ev hev a ha
      rw [hux, hv2] at this
      rcases this with c1 | c1
      · exact Or.inr (Or.inl (by simp [c1]))
      · exact Or.inr (Or.inr (by simp [c1]))
    · exact touched_mono (List.subset_cons_self _ _) (hT ev hev a ha)
  · intro p hp
    rw [frees_append, frees_append, frees_unlinkEvents, frees_testEvents, List.nil_append,
      List.append_nil] at hp
    have := frees_releaseEvents _ _ p hp
    rw [hux, hv2] at this
    rcases this with c1 | c1
    · exact ⟨Or.inl (by simp [c1]), fun a ha => c1 ▸ (hfr.2 a ha).1⟩
    · exact ⟨Or.inr (by simp [c1]), fun a ha => c1 ▸ (hfr.2 a ha).2⟩
  · intro t ht hm
    rw [List.append_assoc, List.append_assoc, safeTrace_append_quiet _ (frees_unlinkEvents h c)]
    refine safeTrace_release ?_ ?_ ((safeTrace_append_quiet t (frees_testEvents _ _ _)).2 ht)
    · intro ev hev a ha
      rw [hux, hv2]
      rcases List.mem_append.1 hev with hev | hev
      · exact hfr.2 a (hT ev hev a ha)
      · exact hfr.2 a (hm ev hev a ha)
    · rw [hux, hv2]
      exact hfr.1
  · intro a b hab
    simp only [List.mem_append] at hab
    rcases hab with (hab | hab) | hab
    · exact absurd hab (cmp_not_mem_unlinkEvents _ _ _ _)
    · exact absurd hab (cmp_not_mem_releaseEvents _ _ _ _)
    · obtain ⟨hn, ha, hb⟩ := cmp_mem_testEvents hab
      rw [hnc, hny] at hn hb
      rw [hnc] at ha
      subst ha
      subst hb
      have := hyl hn
      simp [this]
  · intro c1 hc1
    simp only [List.mem_append] at hc1
    rcases hc1 with (hc1 | hc1) | hc1
    · exact through_mem_unlinkEvents hc1
    · exact absurd hc1 (through_not_mem_releaseEvents _ _ _)
    · exact absurd hc1 (through_not_mem_testEvents _ _ _ _)



theorem freed_mono {f : Nat → Nat} {l1 l2 : List Nat} (hs : l1 ⊆ l2) {p : Nat}
    (hp : p ∈ l1 ∨ p ∈ l1.map f) : p ∈ l2 ∨ p ∈ l2.map f := by
  rcases hp with hp | hp
  · exact Or.inl (hs hp)
  · obtain ⟨e, he, rfl⟩ := List.mem_map.1 hp
    exact Or.inr (List.mem_map_of_mem _ (hs he))

theorem headI_append_mem (l : List Nat) (q : Nat) :
    (l ++ [q]).headI = q ∨ (l ++ [q]).headI ∈ l := by
  cases l <;> simp

/-- The test of the outer loop and the `printf`: they touch the cursor node, the
element after it and, when there is one, the element after that. -/
theorem q_delete_dup_test_facts {h : Heap} {head c x : Nat} {kept pre rest : List Nat}
    (hw : WF h head (kept ++ x :: rest)) (hc : head :: kept = pre ++ [c]) :
    h.next c = x ∧ h.next x = (rest ++ [head]).headI ∧ c ∈ head :: kept ∧
      (∀ ev ∈ testEvents h head c, ∀ a ∈ ev.mentions,
        a ∈ head :: kept ∨ a ∈ x :: rest ∨ a ∈ (x :: rest).map h.value) ∧
      (∀ ev ∈ printEvents h c, ∀ a ∈ ev.mentions,
        a ∈ head :: kept ∨ a ∈ x :: rest ∨ a ∈ (x :: rest).map h.value) ∧
      (∀ a b, Ev.cmp a b ∈ testEvents h head c → a ∈ x :: rest ∧ b ∈ x :: rest) := by
  have e0 : head :: (kept ++ x :: rest) = pre ++ c :: x :: rest := by
    rw [← List.cons_append, hc]; simp
  have e1 : head :: (kept ++ x :: rest) = (pre ++ [c]) ++ x :: rest := by
    rw [e0]; simp
  have hnc : h.next c = x := by simpa using hw.next_at e0
  have hnx : h.next x = (rest ++ [head]).headI := hw.next_at e1
  have hcm : c ∈ head :: kept := by rw [hc]; simp
  have hyl : (rest ++ [head]).headI ≠ head → (rest ++ [head]).headI ∈ rest := fun hn =>
    (headI_append_mem rest head).resolve_left hn
  refine ⟨hnc, hnx, hcm, ?_, ?_, ?_⟩
  · intro ev hev a ha
    have := testEvents_mentions h head c ev hev a ha
    rw [hnc, hnx] at this
    rcases this with c1 | c1 | ⟨hn, c1 | c1 | c1⟩
    · exact Or.inl (c1 ▸ hcm)
    · exact Or.inr (Or.inl (by simp [c1]))
    · exact Or.inr (Or.inl (by rw [c1]; exact List.mem_cons_of_mem _ (hyl hn)))
    · exact Or.inr (Or.inr (by simp [c1]))
    · exact Or.inr (Or.inr (by
        rw [c1]; exact List.mem_map_of_mem _ (List.mem_cons_of_mem _ (hyl hn))))
  · intro ev hev a ha
    have := printEvents_mentions h c ev hev a ha
    rw [hnc] at this
    rcases this with c1 | c1 | c1
    · exact Or.inl (c1 ▸ hcm)
    · exact Or.inr (Or.inl (by simp [c1]))
    · exact Or.inr (Or.inr (by simp [c1]))
  · intro a b hab
    obtain ⟨hn, ha, hb⟩ := cmp_mem_testEvents hab
    rw [hnc, hnx] at hn hb
    rw [hnc] at ha
    exact ⟨by simp [ha], by rw [hb]; exact List.mem_cons_of_mem _ (hyl hn)⟩

/-- The last unlinking step of a run with the write `(*curr)->next->prev = *curr`
and the release of the unlinked element: nothing that is touched afterwards is
the released element or its text buffer. -/
theorem q_delete_dup_last_step {h : Heap} {head c w : Nat} {kept pre r1 : List Nat}
    (hw : WF h head (kept ++ w :: r1)) (ho : owned h head (kept ++ w :: r1))
    (hc : head :: kept = pre ++ [c]) (evs : List Ev)
    (he : evs = unlinkEvents h c ++ relinkEvents (q_delete_dup_unlink h c).1 c ++
      releaseEvents
        ((q_delete_dup_unlink h c).1.setPrev
          ((q_delete_dup_unlink h c).1.next ((q_delete_dup_unlink h c).1.next c))
          ((q_delete_dup_unlink h c).1.next c))
        (q_delete_dup_unlink h c).2) :
    (∀ ev ∈ evs, ∀ a ∈ ev.mentions,
        a ∈ head :: kept ∨ a ∈ w :: r1 ∨ a ∈ (w :: r1).map h.value) ∧
      (∀ p ∈ frees evs, (p ∈ w :: r1 ∨ p ∈ (w :: r1).map h.value) ∧
        ∀ a, (a ∈ head :: kept ∨ a ∈ r1 ∨ a ∈ r1.map h.value) → a ≠ p) ∧
      (∀ t, safeTrace t →
        (∀ ev ∈ t, ∀ a ∈ ev.mentions, a ∈ head :: kept ∨ a ∈ r1 ∨ a ∈ r1.map h.value) →
        safeTrace (evs ++ t)) ∧
      (∀ a b, Ev.cmp a b ∉ evs) ∧
      (∀ c1, Ev.through c1 ∈ evs → c1 = c) := by
  obtain ⟨hux, hw2, hd2⟩ := q_delete_dup_unlink_spec hw hc
  have hv2 : (q_delete_dup_unlink h c).1.value = h.value := hd2.1
  subst he
  have e0 : head :: (kept ++ w :: r1) = pre ++ c :: w :: r1 := by
    rw [← List.cons_append, hc]; simp
  have e1 : head :: (kept ++ w :: r1) = (pre ++ [c]) ++ w :: r1 := by
    rw [e0]; simp
  have f0 : head :: (kept ++ r1) = pre ++ c :: r1 := by
    rw [← List.cons_append, hc]; simp
  have hnc0 : h.next c = w := by simpa using hw.next_at e0
  have hnw0 : h.next w = (r1 ++ [head]).headI := hw.next_at e1
  have hnc2 : (q_delete_dup_unlink h c).1.next c = (r1 ++ [head]).headI := hw2.next_at f0
  have hcm : c ∈ head :: kept := by rw [hc]; simp
  have hcm2 : c ∈ head :: (kept ++ r1) := by
    rw [← List.cons_append, hc]; simp
  have hnn := hw2.next_mem (hw2.next_mem hcm2)
  have hfr := removed_fresh hw ho
  have hN : ∀ a, a = (r1 ++ [head]).headI → a ∈ head :: kept ∨ a ∈ r1 ∨ a ∈ r1.map h.value := by
    intro a ha
    rcases headI_append_mem r1 head with c1 | c1
    · exact Or.inl (by simp [ha, c1])
    · exact Or.inr (Or.inl (ha ▸ c1))
  have hNN : ∀ a, a = (q_delete_dup_unlink h c).1.next ((q_delete_dup_unlink h c).1.next c) →
      a ∈ head :: kept ∨ a ∈ r1 ∨ a ∈ r1.map h.value := by
    intro a ha
    rw [← ha] at hnn
    rcases List.mem_cons.1 hnn with c1 | c1
    · exact Or.inl (by simp [c1])
    · rcases List.mem_append.1 c1 with c1 | c1
      · exact Or.inl (List.mem_cons_of_mem _ c1)
      · exact Or.inr (Or.inl c1)
  have hU : ∀ ev ∈ unlinkEvents h c ++ relinkEvents (q_delete_dup_unlink h c).1 c,
      ∀ a ∈ ev.mentions, a ∈ head :: kept ∨ a ∈ w :: r1 ∨ a ∈ (w :: r1).map h.value := by
    intro ev hev a ha
    rcases List.mem_append.1 hev with hev | hev
    · have := unlinkEvents_mentions h c ev hev a ha
      rw [hnc0, hnw0] at this
      rcases this with c1 | c1 | c1
      · exact Or.inl (c1 ▸ hcm)
      · exact Or.inr (Or.inl (by simp [c1]))
      · exact touched_mono (List.subset_cons_self _ _) (hN a c1)
    · have := relinkEvents_mentions _ c ev hev a ha
      rcases this with c1 | c1 | c1
      · exact Or.inl (c1 ▸ hcm)
      · exact touched_mono (List.subset_cons_self _ _) (hN a (c1.trans hnc2))
      · exact touched_mono (List.subset_cons_self _ _) (hNN a c1)
  have hfq : frees (unlinkEvents h c ++ relinkEvents (q_delete_dup_unlink h c).1 c) = [] := by
    rw [frees_append, frees_unlinkEvents, frees_relinkEvents]
    rfl
  refine ⟨?_, ?_, ?_, ?_, ?_⟩
  · intro ev hev a ha
    rcases List.mem_append.1 hev with hev | hev
    · exact hU ev hev a ha
    · have := releaseEvents_mentions _ _ ev hev a ha
      rw [hux, setPrev_value, hv2] at this
      rcases this with c1 | c1
      · exact Or.inr (Or.inl (by simp [c1]))
      · exact Or.inr (Or.inr (by simp [c1]))
  · intro p hp
    rw [frees_append, hfq, List.nil_append] at hp
    have := frees_releaseEvents _ _ p hp
    rw [hux, setPrev_value, hv2] at this
    rcases this with c1 | c1
    · exact ⟨Or.inl (by simp [c1]), fun a ha => c1 ▸ (hfr.2 a ha).1⟩
    · exact ⟨Or.inr (by simp [c1]), fun a ha => c1 ▸ (hfr.2 a ha).2⟩
  · intro t ht hm
    rw [List.append_assoc, safeTrace_append_quiet _ hfq]
    refine safeTrace_release ?_ ?_ ht
    · intro ev hev a ha
      rw [hux, setPrev_value, hv2]
      exact hfr.2 a (hm ev hev a ha)
    · rw [hux, setPrev_value, hv2]
      exact hfr.1
  · intro a b hab
    simp only [List.mem_append] at hab
    rcases hab with (hab | hab) | hab
    · exact cmp_not_mem_unlinkEvents _ _ _ _ hab
    · exact cmp_not_mem_relinkEvents _ _ _ _ hab
    · exact cmp_not_mem_releaseEvents _ _ _ _ hab
  · intro c1 hc1
    simp only [List.mem_append] at hc1
    rcases hc1 with (hc1 | hc1) | hc1
    · exact through_mem_unlinkEvents hc1
    · exact absurd hc1 (through_not_mem_relinkEvents _ _ _)
    · exact absurd hc1 (through_not_mem_releaseEvents _ _ _)


/-- The elements compared by a test are elements of the queue the test is made
in. -/
theorem cmpSnaps_chain {h : Heap} {head c x : Nat} {kept pre rest : List Nat}
    (hw : WF h head (kept ++ x :: rest)) (hc : head :: kept = pre ++ [c]) :
    ∀ s ∈ cmpSnaps h head c, ∃ m, WF s.1 head m ∧ s.2.1 ∈ m ∧ s.2.2 ∈ m := by
  obtain ⟨hnc, hnx, _, _, _, _⟩ := q_delete_dup_test_facts hw hc
  intro s hs
  unfold cmpSnaps at hs
  by_cases hn : h.next (h.next c) = head
  · simp [hn] at hs
  · simp only [hn, if_false, List.mem_singleton] at hs
    subst hs
    refine ⟨kept ++ x :: rest, hw, by simp [hnc], ?_⟩
    rw [hnc, hnx] at hn ⊢
    have := (headI_append_mem rest head).resolve_left hn
    simp [this]

/-- The inner `do .. while` returns; it leaves the queue without the run, touches
only the cursor node, the run and the element after it, and what it frees is not
touched again, neither by the loop itself nor through what stays in the queue. -/
theorem q_delete_dup_run_tr_spec (head c : Nat) {kept pre : List Nat}
    (hc : head :: kept = pre ++ [c]) :
    ∀ (ys : List Nat) (x y : Nat) (h : Heap) (fuel : Nat),
      WF h head (kept ++ x :: y :: ys) → owned h head (kept ++ x :: y :: ys) →
      ys.length < fuel →
      ∃ h1 t1 k1, q_delete_dup_run_tr head c fuel h = some (h1, t1, k1) ∧
        WF h1 head (kept ++ runTail h y ys) ∧ h1.value = h.value ∧ h1.str = h.str ∧
        (∀ ev ∈ t1, ∀ a ∈ ev.mentions,
          a ∈ head :: kept ∨ a ∈ x :: y :: ys ∨ a ∈ (x :: y :: ys).map h.value) ∧
        safeTrace t1 ∧
        (∀ p ∈ frees t1, (p ∈ x :: y :: ys ∨ p ∈ (x :: y :: ys).map h.value) ∧
          ∀ a, (a ∈ head :: kept ∨ a ∈ runTail h y ys ∨ a ∈ (runTail h y ys).map h.value) →
            a ≠ p) ∧
        (∀ a b, Ev.cmp a b ∈ t1 → a ∈ x :: y :: ys ∧ b ∈ x :: y :: ys) ∧
        (∀ c1, Ev.through c1 ∈ t1 → c1 = c) ∧
        (∀ s ∈ k1, ∃ m, WF s.1 head m ∧ s.2.1 ∈ m ∧ s.2.2 ∈ m) := by
  intro ys
  induction ys with
  | nil =>
    intro x y h fuel hw ho hf
    obtain ⟨fuel, rfl⟩ : ∃ k, fuel = k + 1 := ⟨fuel - 1, by omega⟩
    obtain ⟨hw3, hv3, hs3⟩ := unlink_release_spec hw hc
    obtain ⟨hnc, hny, sM, sF, sS, sC, sT⟩ := q_delete_dup_run_step hw ho hc _ _ rfl rfl
    simp only [List.nil_append, List.headI_cons] at hny
    refine ⟨_, _, _, ?_, by simpa [runTail] using hw3, hv3, hs3, sM, ?_, ?_, sC, sT,
      cmpSnaps_chain hw3 hc⟩
    · rw [q_delete_dup_run_tr_succ, hnc, hny]
      simp
    · simpa using sS [] safeTrace_nil (by simp)
    · intro p hp
      exact ⟨(sF p hp).1, fun a ha =>
        (sF p hp).2 a (touched_mono (runTail_sublist h [] y).subset ha)⟩
  | cons z r ih =>
    intro x y h fuel hw ho hf
    obtain ⟨fuel, rfl⟩ : ∃ k, fuel = k + 1 := ⟨fuel - 1, by omega⟩
    obtain ⟨hw3, hv3, hs3⟩ := unlink_release_spec hw hc
    obtain ⟨hnc, hny, sM, sF, sS, sC, sT⟩ := q_delete_dup_run_step hw ho hc _ _ rfl rfl
    simp only [List.cons_append, List.headI_cons] at hny
    have hzh : z ≠ head := by
      rintro rfl
      exact hw3.2.2.1 (by simp)
    have ho3 : owned (q_release_element (q_delete_dup_unlink h c).1 (q_delete_dup_unlink h c).2)
        head (kept ++ y :: z :: r) :=
      ho.mono (List.Sublist.append (List.Sublist.refl kept) (List.sublist_cons_self x _)) hv3
    rw [q_delete_dup_run_tr_succ, hnc, hny]
    by_cases hyz : sameText h y z
    · have hyz3 := (sameText_congr hv3 hs3 y z).2 hyz
      simp only [hzh, ne_eq, not_false_eq_true, hyz3, and_self, if_true]
      obtain ⟨h1, t1, k1, hr, hw1, hv1, hs1, mM, mS, mF, mC, mT, mK⟩ :=
        ih y z _ fuel hw3 ho3 (by simp at hf; omega)
      rw [runTail_congr hv3 hs3] at hw1 mF
      rw [hv3] at mM mF
      have ert : runTail h y (z :: r) = runTail h z r := by simp [runTail, hyz]
      rw [hr]
      refine ⟨h1, _, _, rfl, by rw [ert]; exact hw1, hv1.trans hv3, hs1.trans hs3, ?_,
        sS t1 mS mM, ?_, ?_, ?_, ?_⟩
      · intro ev hev a ha
        rcases List.mem_append.1 hev with hev | hev
        · exact sM ev hev a ha
        · exact touched_mono (List.subset_cons_self _ _) (mM ev hev a ha)
      · intro p hp
        rw [frees_append] at hp
        rcases List.mem_append.1 hp with hp | hp
        · exact ⟨(sF p hp).1, fun a ha =>
            (sF p hp).2 a (touched_mono (runTail_sublist h (z :: r) y).subset ha)⟩
        · refine ⟨?_, fun a ha => (mF p hp).2 a (by rw [← ert]; exact ha)⟩
          rcases (mF p hp).1 with c1 | c1
          · exact Or.inl (List.mem_cons_of_mem _ c1)
          · exact Or.inr (List.mem_cons_of_mem _ c1)
      · intro a b hab
        rcases List.mem_append.1 hab with hab | hab
        · exact sC a b hab
        · exact ⟨List.mem_cons_of_mem _ (mC a b hab).1, List.mem_cons_of_mem _ (mC a b hab).2⟩
      · intro c1 hc1
        rcases List.mem_append.1 hc1 with hc1 | hc1
        · exact sT c1 hc1
        · exact mT c1 hc1
      · intro s hs
        rcases List.mem_append.1 hs with hs | hs
        · exact cmpSnaps_chain hw3 hc s hs
        · exact mK s hs
    · have hyz3 : ¬ sameText (q_release_element (q_delete_dup_unlink h c).1
          (q_delete_dup_unlink h c).2) y z := fun c => hyz ((sameText_congr hv3 hs3 y z).1 c)
      simp only [hyz3, and_false, if_false]
      refine ⟨_, _, _, rfl, by simpa [runTail, hyz] using hw3, hv3, hs3, sM, ?_, ?_, sC, sT,
        cmpSnaps_chain hw3 hc⟩
      · simpa using sS [] safeTrace_nil (by simp)
      · intro p hp
        exact ⟨(sF p hp).1, fun a ha =>
          (sF p hp).2 a (touched_mono (runTail_sublist h (z :: r) y).subset ha)⟩


/-- The scan of `q_delete_dup` from the cursor `&c->next` returns with `*curr`
at the sentinel; it touches only the sentinel, the elements and their text
buffers, no block is touched after it was freed, every comparison is between
two elements that are still in front of the cursor, and the link the cursor
writes through is a link of `c` or of an element that stays in the queue. -/
theorem q_delete_dup_loop_tr_spec (head : Nat) :
    ∀ (n : Nat) (l kept pre : List Nat) (c : Nat) (h : Heap) (fuel : Nat), l.length = n →
      WF h head (kept ++ l) → owned h head (kept ++ l) → head :: kept = pre ++ [c] →
      n < fuel →
      ∃ h1 c1 tr ks, q_delete_dup_loop_tr head fuel h c = some (h1, c1, tr, ks) ∧
        WF h1 head (kept ++ dropRuns h false l) ∧ h1.value = h.value ∧ h1.str = h.str ∧
        h1.next c1 = head ∧
        (∀ ev ∈ tr, ∀ a ∈ ev.mentions, a ∈ head :: kept ∨ a ∈ l ∨ a ∈ l.map h.value) ∧
        safeTrace tr ∧
        (∀ p ∈ frees tr, p ∈ l ∨ p ∈ l.map h.value) ∧
        (∀ a b, Ev.cmp a b ∈ tr → a ∈ l ∧ b ∈ l) ∧
        (∀ c2, Ev.through c2 ∈ tr → c2 = c ∨ c2 ∈ dropRuns h false l) ∧
        (∀ s ∈ ks, ∃ m, WF s.1 head m ∧ s.2.1 ∈ m ∧ s.2.2 ∈ m) := by
  intro n
  induction n using Nat.strong_induction_on with
  | _ n ih =>
    intro l kept pre c h fuel hlen hw ho hc hf
    obtain ⟨fuel, rfl⟩ : ∃ k, fuel = k + 1 := ⟨fuel - 1, by omega⟩
    have hh := hw.2.2.1
    simp only [List.mem_append, not_or] at hh
    have hcm : c ∈ head :: kept := by rw [hc]; simp
    rw [q_delete_dup_loop_tr_succ]
    cases l with
    | nil =>
      have e0 : head :: (kept ++ []) = pre ++ c :: [] := by
        rw [← List.cons_append, hc]; simp
      have hnc := hw.next_at e0
      simp only [List.nil_append, List.headI_cons] at hnc
      refine ⟨h, c, [Ev.read c], [], by simp [hnc], by simpa [dropRuns] using hw, rfl, rfl, hnc,
        ?_, trivial, by simp [frees], by simp, by simp, by simp⟩
      intro ev hev a ha
      simp only [List.mem_singleton] at hev
      subst hev
      simp only [Ev.mentions, List.mem_singleton] at ha
      exact Or.inl (ha ▸ hcm)
    | cons x l =>
      obtain ⟨hnc, hnx, _, tM, pM, tC⟩ := q_delete_dup_test_facts hw hc
      have hxh : x ≠ head := fun c => hh.2 (by simp [c])
      have hc1 : head :: (kept ++ [x]) = (pre ++ [c]) ++ [x] := by
        rw [← List.cons_append, hc]
      have hw1 : WF h head ((kept ++ [x]) ++ l) := by simpa using hw
      have ho1 : owned h head ((kept ++ [x]) ++ l) := by simpa using ho
      simp only [hnc, hxh, ne_eq, not_false_eq_true, if_true]
      -- the case where `x` is kept and the cursor moves on
      have hK := cmpSnaps_chain hw hc
      have keep : ∀ (h1 : Heap) (c1 : Nat) (tr : List Ev) (ks : List (Heap × Nat × Nat)),
          q_delete_dup_loop_tr head fuel h x = some (h1, c1, tr, ks) →
          dropRuns h false (x :: l) = x :: dropRuns h false l →
          WF h1 head ((kept ++ [x]) ++ dropRuns h false l) → h1.value = h.value →
          h1.str = h.str → h1.next c1 = head →
          (∀ ev ∈ tr, ∀ a ∈ ev.mentions,
            a ∈ head :: (kept ++ [x]) ∨ a ∈ l ∨ a ∈ l.map h.value) →
          safeTrace tr → (∀ p ∈ frees tr, p ∈ l ∨ p ∈ l.map h.value) →
          (∀ a b, Ev.cmp a b ∈ tr → a ∈ l ∧ b ∈ l) →
          (∀ c2, Ev.through c2 ∈ tr → c2 = x ∨ c2 ∈ dropRuns h false l) →
          (∀ s ∈ ks, ∃ m, WF s.1 head m ∧ s.2.1 ∈ m ∧ s.2.2 ∈ m) →
          ∃ h1 c1 tr ks,
            Option.map
              (fun r : Heap × Nat × List Ev × List (Heap × Nat × Nat) =>
                (r.1, r.2.1, [Ev.read c] ++ testEvents h head c ++ [Ev.read c] ++ r.2.2.1,
                  cmpSnaps h head c ++ r.2.2.2))
              (q_delete_dup_loop_tr head fuel h x) = some (h1, c1, tr, ks) ∧
            WF h1 head (kept ++ dropRuns h false (x :: l)) ∧ h1.value = h.value ∧
            h1.str = h.str ∧ h1.next c1 = head ∧
            (∀ ev ∈ tr, ∀ a ∈ ev.mentions,
              a ∈ head :: kept ∨ a ∈ x :: l ∨ a ∈ (x :: l).map h.value) ∧
            safeTrace tr ∧ (∀ p ∈ frees tr, p ∈ x :: l ∨ p ∈ (x :: l).map h.value) ∧
            (∀ a b, Ev.cmp a b ∈ tr → a ∈ x :: l ∧ b ∈ x :: l) ∧
            (∀ c2, Ev.through c2 ∈ tr → c2 = c ∨ c2 ∈ dropRuns h false (x :: l)) ∧
            (∀ s ∈ ks, ∃ m, WF s.1 head m ∧ s.2.1 ∈ m ∧ s.2.2 ∈ m) := by
        intro h1 c1 tr ks hl e2 hwl hv hs hn1 iM iS iF iC iT iK
        have hq : frees ([Ev.read c] ++ testEvents h head c ++ [Ev.read c]) = [] := by
          rw [frees_append, frees_append, frees_testEvents]
          rfl
        refine ⟨h1, c1, _, _, by rw [hl]; rfl, by rw [e2]; simpa using hwl, hv, hs, hn1, ?_,
          (safeTrace_append_quiet tr hq).2 iS, ?_, ?_, ?_, ?_⟩
        · intro ev hev a ha
          simp only [List.mem_append, List.mem_singleton] at hev
          rcases hev with ((hev | hev) | hev) | hev
          · subst hev
            simp only [Ev.mentions, List.mem_singleton] at ha
            exact Or.inl (ha ▸ hcm)
          · exact tM ev hev a ha
          · subst hev
            simp only [Ev.mentions, List.mem_singleton] at ha
            exact Or.inl (ha ▸ hcm)
          · rcases iM ev hev a ha with c3 | c3 | c3
            · simp only [List.mem_cons, List.mem_append, List.mem_singleton,
                List.not_mem_nil, or_false] at c3
              rcases c3 with c3 | c3 | c3
              · exact Or.inl (by simp [c3])
              · exact Or.inl (List.mem_cons_of_mem _ c3)
              · exact Or.inr (Or.inl (by simp [c3]))
            · exact Or.inr (Or.inl (List.mem_cons_of_mem _ c3))
            · exact Or.inr (Or.inr (List.mem_cons_of_mem _ c3))
        · intro p hp
          rw [frees_append, hq, List.nil_append] at hp
          exact freed_mono (List.subset_cons_self _ _) (iF p hp)
        · intro a b hab
          simp only [List.mem_append, List.mem_singleton] at hab
          rcases hab with ((hab | hab) | hab) | hab
          · exact absurd hab (by simp)
          · exact tC a b hab
          · exact absurd hab (by simp)
          · exact ⟨List.mem_cons_of_mem _ (iC a b hab).1, List.mem_cons_of_mem _ (iC a b hab).2⟩
        · intro c2 hc2
          simp only [List.mem_append, List.mem_singleton] at hc2
          rcases hc2 with ((hc2 | hc2) | hc2) | hc2
          · exact absurd hc2 (by simp)
          · exact absurd hc2 (through_not_mem_testEvents _ _ _ _)
          · exact absurd hc2 (by simp)
          · right
            rw [e2]
            rcases iT c2 hc2 with c3 | c3
            · simp [c3]
            · exact List.mem_cons_of_mem _ c3
        · intro s hs
          rcases List.mem_append.1 hs with hs | hs
          · exact hK s hs
          · exact iK s hs
      cases l with
      | nil =>
        simp only [List.nil_append, List.headI_cons] at hnx
        obtain ⟨h1, c1, tr, ks, hl, hwl, hv, hs, hn1, iM, iS, iF, iC, iT, iK⟩ :=
          ih 0 (by simp at hlen; omega) [] (kept ++ [x]) (pre ++ [c]) x h fuel rfl hw1 ho1 hc1
            (by simp at hlen; omega)
        simp only [hnx, true_or, if_true]
        exact keep h1 c1 tr ks hl (by simp [dropRuns]) hwl hv hs hn1 iM iS iF iC iT iK
      | cons y ys =>
        simp only [List.cons_append, List.headI_cons] at hnx
        have hyh : y ≠ head := fun c => hh.2 (by simp [c])
        by_cases hxy : sameText h x y
        · simp only [hnx, hyh, hxy, not_true_eq_false, or_self, if_false]
          obtain ⟨h1, t1, k1, hr, hwr, hv1, hs1, rM, rS, rF, rC, rT, rK⟩ :=
            q_delete_dup_run_tr_spec head c hc ys x y h fuel hw ho (by simp at hlen; omega)
          rw [hr]
          obtain ⟨w, r1, hrt⟩ : ∃ w r1, runTail h y ys = w :: r1 := by
            have := runTail_ne_nil h ys y
            cases hq : runTail h y ys with
            | nil => exact absurd hq this
            | cons w r1 => exact ⟨w, r1, rfl⟩
          have hlen1 : r1.length ≤ ys.length := by
            have := runTail_length h ys y
            rw [hrt] at this
            simpa using this
          have hsl : (w :: r1).Sublist (x :: y :: ys) := by
            rw [← hrt]
            exact (runTail_sublist h ys y).cons x
          have hsub : w :: r1 ⊆ x :: y :: ys := hsl.subset
          have hsub1 : r1 ⊆ x :: y :: ys := fun a ha => hsub (List.mem_cons_of_mem _ ha)
          rw [hrt] at hwr rF
          have how : owned h1 head (kept ++ w :: r1) :=
            ho.mono (List.Sublist.append (List.Sublist.refl kept) hsl) hv1
          obtain ⟨hw5, hv5, hs5⟩ := last_unlink_spec hwr hc
          have ho5 := how.mono
            (List.Sublist.append (List.Sublist.refl kept) (List.sublist_cons_self w r1)) hv5
          obtain ⟨lM, lF, lS, lC, lT⟩ := q_delete_dup_last_step hwr how hc _ rfl
          rw [hv1] at lM lF lS
          obtain ⟨h2, c2, tr, ks, hl, hwl, hv2, hs2, hn2, iM, iS, iF, iC, iT, iK⟩ :=
            ih r1.length (by simp at hlen; omega) r1 kept pre c _ fuel rfl hw5 ho5 hc
              (by simp at hlen; omega)
          rw [dropRuns_congr (hv5.trans hv1) (hs5.trans hs1)] at hwl iT
          rw [hv5.trans hv1] at iM iF
          have e2 : dropRuns h false (x :: y :: ys) = dropRuns h false r1 := by
            rw [show dropRuns h false (x :: y :: ys) = dropRuns h true (y :: ys) by
              simp [dropRuns, hxy], dropRuns_true, hrt]
            rfl
          have hq : frees ([Ev.read c] ++ testEvents h head c ++ printEvents h c) = [] := by
            rw [frees_append, frees_append, frees_testEvents, frees_printEvents]
            rfl
          refine ⟨h2, c2,
            ([Ev.read c] ++ testEvents h head c ++ printEvents h c) ++
              (t1 ++ ((unlinkEvents h1 c ++ relinkEvents (q_delete_dup_unlink h1 c).1 c ++
                releaseEvents
                  ((q_delete_dup_unlink h1 c).1.setPrev
                    ((q_delete_dup_unlink h1 c).1.next ((q_delete_dup_unlink h1 c).1.next c))
                    ((q_delete_dup_unlink h1 c).1.next c))
                  (q_delete_dup_unlink h1 c).2) ++ tr)),
            cmpSnaps h head c ++ k1 ++ ks, ?_, by rw [e2]; exact hwl,
            hv2.trans (hv5.trans hv1), hs2.trans (hs5.trans hs1), hn2, ?_, ?_, ?_, ?_, ?_, ?_⟩
          · simp only [hl, Option.map_some', List.append_assoc]
          · intro ev hev a ha
            simp only [List.mem_append, List.mem_singleton] at hev
            rcases hev with ((hev | hev) | hev) | hev | hev | hev
            · subst hev
              simp only [Ev.mentions, List.mem_singleton] at ha
              exact Or.inl (ha ▸ hcm)
            · exact tM ev hev a ha
            · exact pM ev hev a ha
            · exact rM ev hev a ha
            · exact touched_mono hsub (lM ev (by simpa only [List.mem_append] using hev) a ha)
            · exact touched_mono hsub1 (iM ev hev a ha)
          · rw [safeTrace_append_quiet _ hq, safeTrace_append]
            refine ⟨rS, lS tr iS iM, ?_⟩
            intro p hp ev hev hpe
            rcases List.mem_append.1 hev with hev | hev
            · exact (rF p hp).2 p (lM ev hev p hpe) rfl
            · exact (rF p hp).2 p (touched_mono (List.subset_cons_self _ _) (iM ev hev p hpe))
                rfl
          · intro p hp
            rw [frees_append, hq, List.nil_append, frees_append, frees_append] at hp
            rcases List.mem_append.1 hp with hp | hp
            · exact (rF p hp).1
            · rcases List.mem_append.1 hp with hp | hp
              · exact freed_mono hsub (lF p hp).1
              · exact freed_mono hsub1 (iF p hp)
          · intro a b hab
            simp only [List.mem_append, List.mem_singleton] at hab
            rcases hab with ((hab | hab) | hab) | hab | hab | hab
            · exact absurd hab (by simp)
            · exact tC a b hab
            · exact absurd hab (cmp_not_mem_printEvents _ _ _ _)
            · exact rC a b hab
            · exact absurd (by simpa only [List.mem_append] using hab) (lC a b)
            · exact ⟨hsub1 (iC a b hab).1, hsub1 (iC a b hab).2⟩
          · intro c3 hc3
            rw [e2]
            simp only [List.mem_append, List.mem_singleton] at hc3
            rcases hc3 with ((hc3 | hc3) | hc3) | hc3 | hc3 | hc3
            · exact absurd hc3 (by simp)
            · exact absurd hc3 (through_not_mem_testEvents _ _ _ _)
            · exact absurd hc3 (through_not_mem_printEvents _ _ _)
            · exact Or.inl (rT c3 hc3)
            · exact Or.inl (lT c3 (by simpa only [List.mem_append] using hc3))
            · exact iT c3 hc3
          · intro s hs
            simp only [List.mem_append] at hs
            rcases hs with (hs | hs) | hs
            · exact hK s hs
            · exact rK s hs
            · exact iK s hs
        · simp only [hnx, hyh, hxy, not_false_eq_true, or_true, if_true]
          obtain ⟨h1, c1, tr, ks, hl, hwl, hv, hs, hn1, iM, iS, iF, iC, iT, iK⟩ :=
            ih (y :: ys).length (by simp at hlen ⊢; omega) (y :: ys) (kept ++ [x]) (pre ++ [c])
              x h fuel rfl hw1 ho1 hc1 (by simp at hlen ⊢; omega)
          exact keep h1 c1 tr ks hl (by simp [dropRuns, hxy]) hwl hv hs hn1 iM iS iF iC iT iK


/-! ### The comparisons of `q_delete_dup` -/

theorem cmps_append (t1 t2 : List Ev) : cmps (t1 ++ t2) = cmps t1 ++ cmps t2 := by
  induction t1 with
  | nil => rfl
  | cons ev t ih => cases ev <;> simp [cmps, ih]

theorem cmps_unlinkEvents (h : Heap) (c : Nat) : cmps (unlinkEvents h c) = [] := rfl

theorem cmps_relinkEvents (h : Heap) (c : Nat) : cmps (relinkEvents h c) = [] := rfl

theorem cmps_printEvents (h : Heap) (c : Nat) : cmps (printEvents h c) = [] := rfl

theorem cmps_releaseEvents (h : Heap) (e : Nat) : cmps (releaseEvents h e) = [] := by
  unfold releaseEvents
  by_cases hv : h.value e = 0
  · by_cases he : e = 0
    · rw [if_pos hv, if_pos he]; rfl
    · rw [if_pos hv, if_neg he]; rfl
  · by_cases he : e = 0
    · rw [if_neg hv, if_pos he]; rfl
    · rw [if_neg hv, if_neg he]; rfl

theorem cmps_testEvents (h : Heap) (head c : Nat) :
    cmps (testEvents h head c) = (cmpSnaps h head c).map (fun s => (s.2.1, s.2.2)) := by
  unfold testEvents cmpSnaps
  split <;> rfl

/-- The comparisons recorded by the inner loop are the comparisons of its trace. -/
theorem q_delete_dup_run_tr_cmps (head c : Nat) :
    ∀ (fuel : Nat) (h : Heap) (r : Heap × List Ev × List (Heap × Nat × Nat)),
      q_delete_dup_run_tr head c fuel h = some r →
      cmps r.2.1 = r.2.2.map (fun s => (s.2.1, s.2.2)) := by
  intro fuel
  induction fuel with
  | zero => intro h r hr; simp [q_delete_dup_run_tr] at hr
  | succ fuel ih =>
    intro h r hr
    rw [q_delete_dup_run_tr_succ] at hr
    split at hr
    · cases hq : q_delete_dup_run_tr head c fuel
          (q_release_element (q_delete_dup_unlink h c).1 (q_delete_dup_unlink h c).2) with
      | none => simp [hq] at hr
      | some r1 =>
        rw [hq] at hr
        simp only [Option.map_some', Option.some.injEq] at hr
        subst hr
        simp only [cmps_append, cmps_unlinkEvents, cmps_releaseEvents, cmps_testEvents,
          ih _ _ hq, List.nil_append, List.map_append]
    · simp only [Option.some.injEq] at hr
      subst hr
      simp only [cmps_append, cmps_unlinkEvents, cmps_releaseEvents, cmps_testEvents,
        List.nil_append]

/-- The comparisons recorded by the scan are the comparisons of its trace. -/
theorem q_delete_dup_loop_tr_cmps (head : Nat) :
    ∀ (fuel : Nat) (h : Heap) (c : Nat) (r : Heap × Nat × List Ev × List (Heap × Nat × Nat)),
      q_delete_dup_loop_tr head fuel h c = some r →
      cmps r.2.2.1 = r.2.2.2.map (fun s => (s.2.1, s.2.2)) := by
  intro fuel
  induction fuel with
  | zero => intro h c r hr; simp [q_delete_dup_loop_tr] at hr
  | succ fuel ih =>
    intro h c r hr
    rw [q_delete_dup_loop_tr_succ] at hr
    split at hr
    · split at hr
      · cases hq : q_delete_dup_loop_tr head fuel h (h.next c) with
        | none => simp [hq] at hr
        | some r1 =>
          rw [hq] at hr
          simp only [Option.map_some', Option.some.injEq] at hr
          subst hr
          simp only [cmps_append, cmps_testEvents, ih _ _ _ hq, List.map_append]
          simp [cmps]
      · cases hq : q_delete_dup_run_tr head c fuel h with
        | none => simp [hq] at hr
        | some r0 =>
          obtain ⟨h1, t1, k1⟩ := r0
          rw [hq] at hr
          simp only at hr
          cases hq2 : q_delete_dup_loop_tr head fuel
              (q_release_element
                ((q_delete_dup_unlink h1 c).1.setPrev
                  ((q_delete_dup_unlink h1 c).1.next ((q_delete_dup_unlink h1 c).1.next c))
                  ((q_delete_dup_unlink h1 c).1.next c))
                (q_delete_dup_unlink h1 c).2) c with
          | none => simp [hq2] at hr
          | some r1 =>
            rw [hq2] at hr
            simp only [Option.map_some', Option.some.injEq] at hr
            subst hr
            have e1 := q_delete_dup_run_tr_cmps head c fuel h _ hq
            simp only at e1
            simp only [cmps_append, cmps_testEvents, cmps_printEvents, cmps_unlinkEvents,
              cmps_relinkEvents, cmps_releaseEvents, ih _ _ _ hq2, e1, List.map_append,
              List.append_nil]
            simp [cmps]
    · simp only [Option.some.injEq] at hr
      subst hr
      rfl


/-! ## The round trips -/

/-- C1. FIFO round trip: from a freshly created queue, after `q_insert_tail` of
the texts `t1 .. tn` (the allocator answering with fresh non-null blocks, so that
every insertion succeeds), `n` calls of `q_remove_head` return the inserted
elements in the order of insertion, their texts are `t1 .. tn` in that order, and
the queue is empty afterwards. -/
theorem fifo_round_trip (h0 : Heap) (q : Nat) (calls : List (List Nat × Nat × Nat))
    (sp bufsize : Nat) (hnd : (q :: callAddrs calls).Nodup)
    (hz : 0 ∉ q :: callAddrs calls) :
    (fifo_run h0 q calls sp bufsize).1 = true ∧
      (fifo_run h0 q calls sp bufsize).2.2 = calls.map (fun c => c.2.1) ∧
      (fifo_run h0 q calls sp bufsize).2.2.map (fifo_run h0 q calls sp bufsize).2.1.text =
        calls.map (fun c => cstr c.1) ∧
      WF (fifo_run h0 q calls sp bufsize).2.1 q [] ∧
      list_empty (fifo_run h0 q calls sp bufsize).2.1 q = true := by
  simp only [List.nodup_cons, List.mem_cons, not_or] at hnd hz
  obtain ⟨n1, n2, _, _⟩ := q_new_spec h0 (Ne.symm hz.1)
  obtain ⟨i1, i2, i3⟩ := insert_tails_spec q calls (q_new h0 q).1 [] n2 hnd.2 hz.2 hnd.1
    (by simp) (by simp)
  have i2a : WF (insert_tails q calls (q_new h0 q).1).1 q (calls.map (fun c => c.2.1) ++ []) := by
    simpa using i2
  obtain ⟨r1, r2, r3, r4⟩ := remove_heads_spec q sp bufsize (calls.map (fun c => c.2.1)) _ [] i2a
  simp only [List.length_map] at r1 r2 r3 r4
  simp only [fifo_run, n1]
  refine ⟨i1, r1, ?_, r2, r2.list_empty_iff.2 rfl⟩
  rw [r1, text_congr r3 r4]
  simpa using i3

theorem fifo_round_trip_witness :
    ((1 :: callAddrs [([104, 105], 2, 3), ([111], 4, 5)]).Nodup ∧
      0 ∉ 1 :: callAddrs [([104, 105], 2, 3), ([111], 4, 5)]) ∧
    (fifo_run zeroHeap 1 [([104, 105], 2, 3), ([111], 4, 5)] 0 0).2.2.map
      (fifo_run zeroHeap 1 [([104, 105], 2, 3), ([111], 4, 5)] 0 0).2.1.text =
        [[104, 105], [111]] :=
  ⟨by decide, (fifo_round_trip zeroHeap 1 [([104, 105], 2, 3), ([111], 4, 5)] 0 0
    (by decide) (by decide)).2.2.1⟩

/-- C2. Reverse-order round trip: from a freshly created queue, after
`q_insert_tail` of the texts `t1 .. tn` (the allocator answering with fresh
non-null blocks, so that every insertion succeeds), `n` calls of `q_remove_tail`
return the inserted elements in the reverse order of insertion, their texts are
`tn .. t1` in that order, and the queue is empty afterwards. -/
theorem lifo_round_trip (h0 : Heap) (q : Nat) (calls : List (List Nat × Nat × Nat))
    (sp bufsize : Nat) (hnd : (q :: callAddrs calls).Nodup)
    (hz : 0 ∉ q :: callAddrs calls) :
    (lifo_run h0 q calls sp bufsize).1 = true ∧
      (lifo_run h0 q calls sp bufsize).2.2 = (calls.map (fun c => c.2.1)).reverse ∧
      (lifo_run h0 q calls sp bufsize).2.2.map (lifo_run h0 q calls sp bufsize).2.1.text =
        (calls.map (fun c => cstr c.1)).reverse ∧
      WF (lifo_run h0 q calls sp bufsize).2.1 q [] ∧
      list_empty (lifo_run h0 q calls sp bufsize).2.1 q = true := by
  simp only [List.nodup_cons, List.mem_cons, not_or] at hnd hz
  obtain ⟨n1, n2, _, _⟩ := q_new_spec h0 (Ne.symm hz.1)
  obtain ⟨i1, i2, i3⟩ := insert_tails_spec q calls (q_new h0 q).1 [] n2 hnd.2 hz.2 hnd.1
    (by simp) (by simp)
  obtain ⟨r1, r2, r3, r4⟩ := remove_tails_spec q sp bufsize (calls.map (fun c => c.2.1)) _ [] i2
  simp only [List.length_map] at r1 r2 r3 r4
  simp only [lifo_run, n1]
  refine ⟨i1, r1, ?_, r2, r2.list_empty_iff.2 rfl⟩
  rw [r1, text_congr r3 r4, List.map_reverse]
  simpa using i3

theorem lifo_round_trip_witness :
    ((1 :: callAddrs [([104, 105], 2, 3), ([111], 4, 5)]).Nodup ∧
      0 ∉ 1 :: callAddrs [([104, 105], 2, 3), ([111], 4, 5)]) ∧
    (lifo_run zeroHeap 1 [([104, 105], 2, 3), ([111], 4, 5)] 0 0).2.2.map
      (lifo_run zeroHeap 1 [([104, 105], 2, 3), ([111], 4, 5)] 0 0).2.1.text =
        [[111], [104, 105]] :=
  ⟨by decide, (lifo_round_trip zeroHeap 1 [([104, 105], 2, 3), ([111], 4, 5)] 0 0
    (by decide) (by decide)).2.2.1⟩

/-! ## Size -/

/-- C4, as stated, fails on a queue of `2^31` elements: the queue is well
formed, `q_size` returns, and what it returns is `-2^31` and not the number of
elements, because the counter is an `int`. -/
theorem q_size_overflow :
    WF bigHeap 1 (List.range' 2 2147483648) ∧
      (List.range' 2 2147483648).length = 2147483648 ∧
      q_size 2147483649 bigHeap 1 = some (-2147483648) ∧
      q_size 2147483649 bigHeap 1 ≠ some (((List.range' 2 2147483648).length : Nat) : Int) := by
  have hq : q_size 2147483649 bigHeap 1 = some (-2147483648) := by
    rw [q_size_wrap bigHeap_wf (by simp)]
    simp [wrapInt32]
  refine ⟨bigHeap_wf, by simp, hq, ?_⟩
  rw [hq]
  simp

/-- C4, amended.  `q_size` counts the elements as long as they are fewer than
`2^31`: on a well-formed queue with fewer than `2^31` elements it returns exactly
their number, and `0` on an absent queue (and on an empty one).  Consequently,
from a new queue, after any interleaving of calls of `q_insert_head`,
`q_insert_tail`, `q_remove_head` and `q_remove_tail` of which `k` insertions and
`j` removals are successful (the allocator answering `NULL` or a block that is
not allocated), `j ≤ k` and `q_size` returns `k - j` when `k - j < 2^31`. -/
theorem q_size_counts (h : Heap) (head : Nat) (ns : List Nat) (fuel : Nat) (h0 : Heap)
    (r : Nat) (ops : List Op) (hw : WF h head ns) (hlt : ns.length < 2 ^ 31)
    (hf : ns.length < fuel) (hr : r ≠ 0) (ha : allocOk r ops (q_new h0 r).1)
    (hk : (runOps r ops (q_new h0 r).1).2.1 - (runOps r ops (q_new h0 r).1).2.2 < 2 ^ 31)
    (hfk : (runOps r ops (q_new h0 r).1).2.1 - (runOps r ops (q_new h0 r).1).2.2 < fuel) :
    q_size fuel h head = some (ns.length : Int) ∧
      q_size fuel h 0 = some 0 ∧
      (q_new h0 r).2 = r ∧
      (runOps r ops (q_new h0 r).1).2.2 ≤ (runOps r ops (q_new h0 r).1).2.1 ∧
      q_size fuel (runOps r ops (q_new h0 r).1).1 r =
        some (((runOps r ops (q_new h0 r).1).2.1 - (runOps r ops (q_new h0 r).1).2.2 : Nat) : Int) := by
  obtain ⟨e, hw0, _, _⟩ := q_new_spec h0 hr
  have hl0 : ∀ x ∈ r :: ([] : List Nat), (q_new h0 r).1.live x = true := by
    intro x hx
    simp at hx
    subst hx
    simp [q_new, malloc, hr, INIT_LIST_HEAD]
  obtain ⟨ns1, hw1, hc1⟩ := runOps_spec r ops _ [] hw0 hl0 ha
  simp only [List.length_nil, Nat.zero_add] at hc1
  have hlen : ns1.length =
      (runOps r ops (q_new h0 r).1).2.1 - (runOps r ops (q_new h0 r).1).2.2 := by omega
  refine ⟨q_size_count hw hf hlt, by simp [q_size], e, by omega, ?_⟩
  rw [← hlen] at hk hfk ⊢
  exact q_size_count hw1 hfk hk

theorem q_size_counts_witness :
    (WF (mkHeap [(2, [97]), (3, [98])]) 1 [2, 3] ∧
      allocOk 1 [Op.insertTail [97] 2 3, Op.insertHead [98] 4 5, Op.removeTail 0 0,
        Op.insertTail [99] 0 6, Op.removeHead 0 0, Op.removeHead 0 0] (q_new zeroHeap 1).1) ∧
    q_size 3 (mkHeap [(2, [97]), (3, [98])]) 1 = some 2 ∧
    (runOps 1 [Op.insertTail [97] 2 3, Op.insertHead [98] 4 5, Op.removeTail 0 0,
        Op.insertTail [99] 0 6, Op.removeHead 0 0, Op.removeHead 0 0] (q_new zeroHeap 1).1).2 =
      (2, 2) ∧
    q_size 3 (runOps 1 [Op.insertTail [97] 2 3, Op.insertHead [98] 4 5, Op.removeTail 0 0,
        Op.insertTail [99] 0 6, Op.removeHead 0 0, Op.removeHead 0 0] (q_new zeroHeap 1).1).1 1 =
      some 0 :=
  ⟨by decide,
    (q_size_counts (mkHeap [(2, [97]), (3, [98])]) 1 [2, 3] 3 zeroHeap 1
      [Op.insertTail [97] 2 3, Op.insertHead [98] 4 5, Op.removeTail 0 0,
        Op.insertTail [99] 0 6, Op.removeHead 0 0, Op.removeHead 0 0]
      (by decide) (by decide) (by decide) (by decide) (by decide) (by decide) (by decide)).1,
    by decide,
    (q_size_counts (mkHeap [(2, [97]), (3, [98])]) 1 [2, 3] 3 zeroHeap 1
      [Op.insertTail [97] 2 3, Op.insertHead [98] 4 5, Op.removeTail 0 0,
        Op.insertTail [99] 0 6, Op.removeHead 0 0, Op.removeHead 0 0]
      (by decide) (by decide) (by decide) (by decide) (by decide) (by decide) (by decide)).2.2.2.2⟩

/-! ## The structural transforms -/

/-- C3. Structural invariants are preserved by every public mutating operation.
Take a well-formed queue: following `next` from the sentinel returns to the
sentinel after finitely many steps (through the elements `ns`), no node is
`NULL`, and every node `A` of the chain has `A.next.prev == A` and
`A.prev.next == A`.  Then the queue is again well formed, in the same sense,
after `q_insert_head` and `q_insert_tail` (the allocator answering `NULL` or a
block that is not a node of the queue), `q_remove_head`, `q_remove_tail`,
`q_delete_mid`, `q_delete_dup` (whatever the order of the texts), `q_swap`,
`q_reverse` and `q_sort`, each of which returns; and a successful `q_new` yields a
well-formed empty queue whose sentinel is linked to itself in both directions. -/
theorem structural_invariants (h : Heap) (head : Nat) (ns s : List Nat)
    (re rs sp bufsize fuel : Nat) (h0 : Heap) (r : Nat) (hh : head ≠ 0)
    (hfw : forward fuel h head = some ns) (hz : 0 ∉ ns)
    (hA : ∀ A ∈ head :: ns, h.prev (h.next A) = A ∧ h.next (h.prev A) = A)
    (hre : re ≠ 0 → re ∉ head :: ns) (hr : r ≠ 0) :
    circular (q_insert_head h head s re rs).1 head ∧
      circular (q_insert_tail h head s re rs).1 head ∧
      circular (q_remove_head h head sp bufsize).1 head ∧
      circular (q_remove_tail h head sp bufsize).1 head ∧
      (∃ r1, q_delete_mid fuel h head = some r1 ∧ circular r1.1 head) ∧
      (∃ r1, q_delete_dup fuel h head = some r1 ∧ circular r1.1 head) ∧
      (∃ h1, q_swap fuel h head = some h1 ∧ circular h1 head) ∧
      (∃ h1, q_reverse fuel h head = some h1 ∧ circular h1 head) ∧
      circular (q_sort h head) head ∧
      (circular (q_new h0 r).1 (q_new h0 r).2 ∧
        forward 1 (q_new h0 r).1 (q_new h0 r).2 = some [] ∧
        (q_new h0 r).1.next (q_new h0 r).2 = (q_new h0 r).2 ∧
        (q_new h0 r).1.prev (q_new h0 r).2 = (q_new h0 r).2) := by
  obtain ⟨hw, hf⟩ := WF.of_forward hh hfw hz hA
  refine ⟨(circular_iff _ _).2 (q_insert_head_wf s rs hw hre),
    (circular_iff _ _).2 (q_insert_tail_wf s rs hw hre),
    (circular_iff _ _).2 ⟨_, q_remove_head_wf sp bufsize hw⟩,
    (circular_iff _ _).2 ⟨_, q_remove_tail_wf sp bufsize hw⟩, ?_, ?_, ?_, ?_,
    (circular_iff _ _).2 ⟨ns, hw⟩, ?_⟩
  · obtain ⟨r1, ns1, e, hw1⟩ := q_delete_mid_wf hw hf
    exact ⟨r1, e, (circular_iff _ _).2 ⟨ns1, hw1⟩⟩
  · obtain ⟨h1, e, hw1, _, _⟩ := q_delete_dup_spec hw hf
    exact ⟨(h1, true), e, (circular_iff _ _).2 ⟨_, hw1⟩⟩
  · obtain ⟨h1, e, hw1, _⟩ := q_swap_spec hw hf
    exact ⟨h1, e, (circular_iff _ _).2 ⟨_, hw1⟩⟩
  · exact ⟨_, q_reverse_spec hw hf, (circular_iff _ _).2 ⟨_, swapLinks_wf hw⟩⟩
  · have hw2 : WF (q_new h0 r).1 (q_new h0 r).2 [] := by
      simp [q_new, malloc, hr, INIT_LIST_HEAD, WF, seg]
    refine ⟨(circular_iff _ _).2 ⟨[], hw2⟩, hw2.forward_eq (by simp), ?_, ?_⟩
    · have := hw2.2.2.2.2; exact this.1
    · have := hw2.2.2.2.2; exact this.2

theorem structural_invariants_witness :
    (1 ≠ 0 ∧ forward 3 (mkHeap [(2, [97]), (3, [98])]) 1 = some [2, 3] ∧ 0 ∉ [2, 3] ∧
      (∀ A ∈ 1 :: [2, 3],
        (mkHeap [(2, [97]), (3, [98])]).prev ((mkHeap [(2, [97]), (3, [98])]).next A) = A ∧
        (mkHeap [(2, [97]), (3, [98])]).next ((mkHeap [(2, [97]), (3, [98])]).prev A) = A) ∧
      (4 ≠ 0 → 4 ∉ 1 :: [2, 3]) ∧ 1 ≠ 0) ∧
    (∃ h1, q_swap 3 (mkHeap [(2, [97]), (3, [98])]) 1 = some h1 ∧ circular h1 1) :=
  ⟨by decide,
    (structural_invariants (mkHeap [(2, [97]), (3, [98])]) 1 [2, 3] [99] 4 5 0 0 3 zeroHeap 1
      (by decide) (by decide) (by decide) (by decide) (by decide) (by decide)).2.2.2.2.2.2.1⟩

/-- C5. `q_reverse` exchanges `next` and `prev` on every node: on a well-formed
queue, in particular on every non-empty one, it returns, and afterwards every node of the chain, the
sentinel included, has `next` equal to its former `prev` and `prev` equal to its
former `next`; the forward sequence of elements is the reverse of the original
one, and no text, no other link and nothing of the allocation state changes. -/
theorem q_reverse_exchanges_links (h : Heap) (head : Nat) (ns : List Nat) (fuel : Nat)
    (hw : WF h head ns) (hf : ns.length < fuel) :
    ∃ h1, q_reverse fuel h head = some h1 ∧
      (∀ x ∈ head :: ns, h1.next x = h.prev x ∧ h1.prev x = h.next x) ∧
      (∀ x, x ∉ head :: ns → h1.next x = h.next x ∧ h1.prev x = h.prev x) ∧
      WF h1 head ns.reverse ∧
      ns.reverse.map h1.text = (ns.map h.text).reverse ∧
      sameData h1 h := by
  refine ⟨_, q_reverse_spec hw hf, ?_, ?_, swapLinks_wf hw, ?_, ⟨rfl, rfl, rfl, rfl, rfl⟩⟩
  · intro x hx
    simp only [swapLinks, hx, if_true, and_self]
  · intro x hx
    simp only [swapLinks, hx, if_false, and_self]
  · rw [List.map_reverse]
    rfl

theorem q_reverse_exchanges_links_witness :
    (WF (mkHeap [(2, [97]), (3, [98])]) 1 [2, 3] ∧ [2, 3].length < 3) ∧
      ∃ h1, q_reverse 3 (mkHeap [(2, [97]), (3, [98])]) 1 = some h1 ∧
        (∀ x ∈ 1 :: [2, 3], h1.next x = (mkHeap [(2, [97]), (3, [98])]).prev x ∧
          h1.prev x = (mkHeap [(2, [97]), (3, [98])]).next x) ∧
        (∀ x, x ∉ 1 :: [2, 3] → h1.next x = (mkHeap [(2, [97]), (3, [98])]).next x ∧
          h1.prev x = (mkHeap [(2, [97]), (3, [98])]).prev x) ∧
        WF h1 1 [2, 3].reverse ∧
        [2, 3].reverse.map h1.text = ([2, 3].map (mkHeap [(2, [97]), (3, [98])]).text).reverse ∧
        sameData h1 (mkHeap [(2, [97]), (3, [98])]) :=
  ⟨by decide, q_reverse_exchanges_links (mkHeap [(2, [97]), (3, [98])]) 1 [2, 3] 3
    (by decide) (by decide)⟩

/-- C6. Reverse is an involution: on a well-formed queue, empty or not, and
on an absent queue, two calls of `q_reverse` in a row return and give back
exactly the memory they started from: the same links on every node, hence the
same forward order. -/
theorem q_reverse_involution (h : Heap) (head : Nat) (ns : List Nat) (fuel : Nat)
    (hw : head = 0 ∨ WF h head ns) (hf : ns.length < fuel) :
    (q_reverse fuel h head).bind (fun h1 => q_reverse fuel h1 head) = some h := by
  rcases hw with rfl | hw
  · simp [q_reverse]
  · rw [q_reverse_spec hw hf, Option.some_bind,
      q_reverse_spec (swapLinks_wf hw) (by simpa using hf)]
    rw [swapLinks_swapLinks]
    intro x
    simp

theorem q_reverse_involution_witness :
    ((1 = 0 ∨ WF (mkHeap [(2, [97]), (3, [98])]) 1 [2, 3]) ∧ [2, 3].length < 3) ∧
      (q_reverse 3 (mkHeap [(2, [97]), (3, [98])]) 1).bind (fun h1 => q_reverse 3 h1 1) =
        some (mkHeap [(2, [97]), (3, [98])]) :=
  ⟨by decide, q_reverse_involution (mkHeap [(2, [97]), (3, [98])]) 1 [2, 3] 3
    (Or.inr (by decide)) (by decide)⟩

/-- C7. `q_swap` exchanges every adjacent pair counted from the front: on a
well-formed queue with forward sequence `e0 .. e(n-1)` it returns, and the new
forward sequence has `e(2i+1)` at position `2i` and `e(2i)` at position `2i+1`
whenever `2i+1 < n`, and keeps the last element in place when `n` is odd; the
elements are the same nodes and no text changes.  In particular `[a, b, c, d]`
becomes `[b, a, d, c]` and `[a, b, c]` becomes `[b, a, c]`. -/
theorem q_swap_exchanges_pairs (h : Heap) (head : Nat) (ns : List Nat) (fuel : Nat)
    (hw : WF h head ns) (hf : ns.length < fuel) :
    ∃ h1 ns1, q_swap fuel h head = some h1 ∧ WF h1 head ns1 ∧
      ns1.length = ns.length ∧
      (∀ i, 2 * i + 1 < ns.length →
        ns1[2 * i]? = ns[2 * i + 1]? ∧ ns1[2 * i + 1]? = ns[2 * i]?) ∧
      (ns.length % 2 = 1 → ns1[ns.length - 1]? = ns[ns.length - 1]?) ∧
      h1.text = h.text ∧ sameData h1 h ∧
      (∀ a b c d, ns = [a, b, c, d] → ns1 = [b, a, d, c]) ∧
      (∀ a b c, ns = [a, b, c] → ns1 = [b, a, c]) := by
  obtain ⟨h1, e, hw1, hd⟩ := q_swap_spec hw hf
  refine ⟨h1, swapPairs ns, e, hw1, swapPairs_length ns, swapPairs_pair ns, swapPairs_last ns,
    text_congr hd.1 hd.2.1, hd, ?_, ?_⟩
  · rintro a b c d rfl; rfl
  · rintro a b c rfl; rfl

theorem q_swap_exchanges_pairs_witness :
    (WF (mkHeap [(2, [97]), (3, [98]), (4, [99])]) 1 [2, 3, 4] ∧ [2, 3, 4].length < 4) ∧
      ∃ h1 ns1, q_swap 4 (mkHeap [(2, [97]), (3, [98]), (4, [99])]) 1 = some h1 ∧
        WF h1 1 ns1 ∧ ns1.length = [2, 3, 4].length ∧
        (∀ i, 2 * i + 1 < [2, 3, 4].length →
          ns1[2 * i]? = [2, 3, 4][2 * i + 1]? ∧ ns1[2 * i + 1]? = [2, 3, 4][2 * i]?) ∧
        ([2, 3, 4].length % 2 = 1 → ns1[[2, 3, 4].length - 1]? = [2, 3, 4][[2, 3, 4].length - 1]?) ∧
        h1.text = (mkHeap [(2, [97]), (3, [98]), (4, [99])]).text ∧
        sameData h1 (mkHeap [(2, [97]), (3, [98]), (4, [99])]) ∧
        (∀ a b c d, [2, 3, 4] = [a, b, c, d] → ns1 = [b, a, d, c]) ∧
        (∀ a b c, [2, 3, 4] = [a, b, c] → ns1 = [b, a, c]) :=
  ⟨by decide, q_swap_exchanges_pairs (mkHeap [(2, [97]), (3, [98]), (4, [99])]) 1 [2, 3, 4] 4
    (by decide) (by decide)⟩

/-! ## Deleting the middle element -/

/-- C8. On the queue `[a, b]` of two elements `q_delete_mid` returns `true` and
unlinks the first element, the one at index `0`, so that `[b]` is left: the
element at index `⌊2 / 2⌋ = 1` named by the documentation of the function is
still in the queue. -/
theorem q_delete_mid_two_elements :
    ∃ h1, q_delete_mid 2 (mkHeap [(2, [97]), (3, [98])]) 1 = some (h1, true) ∧
      WF h1 1 [3] ∧ ¬ WF h1 1 ([2, 3].eraseIdx (2 / 2)) :=
  ⟨_, rfl, by decide, by decide⟩

/-- C9. `q_delete_mid` on the documented examples: on every queue of exactly six
elements `[a, b, c, d, e, f]` it returns `true` and leaves `[a, b, d, e, f]` (the
third element, at index `2`, is removed), and on every queue of exactly three
elements `[x, y, z]` it returns `true` and leaves `[x, z]`; the texts of the
remaining elements do not change. -/
theorem q_delete_mid_examples (h6 h3 : Heap) (head6 head3 a b c d e f x y z fuel : Nat)
    (hw6 : WF h6 head6 [a, b, c, d, e, f]) (hw3 : WF h3 head3 [x, y, z]) (hf : 6 ≤ fuel) :
    (∃ h1, q_delete_mid fuel h6 head6 = some (h1, true) ∧ WF h1 head6 [a, b, d, e, f] ∧
        h1.text = h6.text) ∧
      (∃ h1, q_delete_mid fuel h3 head3 = some (h1, true) ∧ WF h1 head3 [x, z] ∧
        h1.text = h3.text) := by
  constructor
  · obtain ⟨m, hm, hr, hw1⟩ := q_delete_mid_spec hw6 (by simp) (show 6 ≤ fuel from hf)
    have e6 : ([a, b, c, d, e, f].length - 1) / 2 = 2 := by simp
    rw [e6] at hm hw1
    have hm2 : some c = some m := hm
    have hw2 : WF (q_release_element (list_del h6 m) m) head6 [a, b, d, e, f] := hw1
    cases hm2
    exact ⟨_, hr, hw2, text_congr (by simp [list_del]) (by simp [list_del])⟩
  · obtain ⟨m, hm, hr, hw1⟩ := q_delete_mid_spec hw3 (by simp) (show 3 ≤ fuel by omega)
    have e3 : ([x, y, z].length - 1) / 2 = 1 := by simp
    rw [e3] at hm hw1
    have hm2 : some y = some m := hm
    have hw2 : WF (q_release_element (list_del h3 m) m) head3 [x, z] := hw1
    cases hm2
    exact ⟨_, hr, hw2, text_congr (by simp [list_del]) (by simp [list_del])⟩

theorem q_delete_mid_examples_witness :
    (WF (mkHeap [(2, [97]), (3, [98]), (4, [99]), (5, [100]), (6, [101]), (7, [102])]) 1
        [2, 3, 4, 5, 6, 7] ∧
      WF (mkHeap [(2, [97]), (3, [98]), (4, [99])]) 1 [2, 3, 4] ∧ 6 ≤ 6) ∧
    ((∃ h1, q_delete_mid 6
          (mkHeap [(2, [97]), (3, [98]), (4, [99]), (5, [100]), (6, [101]), (7, [102])]) 1 =
          some (h1, true) ∧ WF h1 1 [2, 3, 5, 6, 7] ∧
        h1.text =
          (mkHeap [(2, [97]), (3, [98]), (4, [99]), (5, [100]), (6, [101]), (7, [102])]).text) ∧
      (∃ h1, q_delete_mid 6 (mkHeap [(2, [97]), (3, [98]), (4, [99])]) 1 = some (h1, true) ∧
        WF h1 1 [2, 4] ∧ h1.text = (mkHeap [(2, [97]), (3, [98]), (4, [99])]).text)) :=
  ⟨by decide, q_delete_mid_examples _ _ 1 1 2 3 4 5 6 7 2 3 4 6 (by decide) (by decide)
    (by decide)⟩

/-! ## Deleting duplicates -/

/-- C10. `q_delete_dup` keeps exactly the values that were unique: on a
well-formed queue whose texts are sorted ascending for `strcmp` it returns `true`,
and the new forward sequence consists of exactly the elements whose text occurs
exactly once in the original queue, in their original relative order; every
element whose text occurs twice or more is removed, the first copy included, no
text changes, and the remaining texts are pairwise distinct. -/
theorem q_delete_dup_sorted (h : Heap) (head : Nat) (ns : List Nat) (fuel : Nat)
    (hw : WF h head ns) (hs : sortedTexts h ns) (hf : ns.length < fuel) :
    ∃ h1, q_delete_dup fuel h head = some (h1, true) ∧
      WF h1 head (uniqueTexts h ns) ∧
      (∀ e, e ∈ uniqueTexts h ns ↔ e ∈ ns ∧ (ns.map h.text).count (h.text e) = 1) ∧
      (uniqueTexts h ns).Sublist ns ∧
      h1.text = h.text ∧
      ((uniqueTexts h ns).map h1.text).Nodup := by
  obtain ⟨h1, e, hw1, hv, hst⟩ := q_delete_dup_spec hw hf
  rw [dropRuns_sorted_eq h ns hs] at hw1
  have ht := text_congr hv hst
  refine ⟨h1, e, hw1, ?_, List.filter_sublist _, ht, ?_⟩
  · intro x
    simp [uniqueTexts, List.mem_filter]
  · rw [ht]
    exact uniqueTexts_nodup h ns

theorem q_delete_dup_sorted_witness :
    (WF (mkHeap [(2, [97]), (3, [97]), (4, [98]), (5, [99]), (6, [99]), (7, [99]), (8, [100])]) 1
        [2, 3, 4, 5, 6, 7, 8] ∧
      sortedTexts
        (mkHeap [(2, [97]), (3, [97]), (4, [98]), (5, [99]), (6, [99]), (7, [99]), (8, [100])])
        [2, 3, 4, 5, 6, 7, 8] ∧
      [2, 3, 4, 5, 6, 7, 8].length < 8) ∧
    uniqueTexts
        (mkHeap [(2, [97]), (3, [97]), (4, [98]), (5, [99]), (6, [99]), (7, [99]), (8, [100])])
        [2, 3, 4, 5, 6, 7, 8] = [4, 8] ∧
    ∃ h1, q_delete_dup 8
        (mkHeap [(2, [97]), (3, [97]), (4, [98]), (5, [99]), (6, [99]), (7, [99]), (8, [100])]) 1 =
        some (h1, true) ∧ WF h1 1 [4, 8] :=
  ⟨by decide, by decide,
    (q_delete_dup_sorted
      (mkHeap [(2, [97]), (3, [97]), (4, [98]), (5, [99]), (6, [99]), (7, [99]), (8, [100])]) 1
      [2, 3, 4, 5, 6, 7, 8] 8 (by decide) (by decide) (by decide)).imp
      (fun _ hx => ⟨hx.1, hx.2.1⟩)⟩

/-! ## Sorting -/

/-- C15. `q_sort` is a no-op: for every queue, absent, empty or with any
number of elements in any order, the memory after `q_sort` is the memory before
the call, so the forward order of the elements, the links and the texts are the
same. -/
theorem q_sort_noop (h : Heap) (head fuel : Nat) :
    q_sort h head = h ∧ forward fuel (q_sort h head) head = forward fuel h head ∧
      (q_sort h head).text = h.text :=
  ⟨rfl, rfl, rfl⟩

/-- C16. On the queue `[e2, e3]` whose texts are `"b"`, `"a"` in this order,
`q_sort` leaves the forward sequence `[e2, e3]` and the texts `"b"`, `"a"`, which
are not in ascending order: the body of the function is empty, whereas its
documentation says that it sorts the elements in ascending order. -/
theorem q_sort_does_not_sort :
    WF (mkHeap [(2, [98]), (3, [97])]) 1 [2, 3] ∧
      forward 3 (q_sort (mkHeap [(2, [98]), (3, [97])]) 1) 1 = some [2, 3] ∧
      [2, 3].map (q_sort (mkHeap [(2, [98]), (3, [97])]) 1).text = [[98], [97]] ∧
      ¬ sortedTexts (q_sort (mkHeap [(2, [98]), (3, [97])]) 1) [2, 3] := by
  decide

/-! ## The index removed by `q_delete_mid` -/

/-- C18. The index removed by the two cursors of `q_delete_mid`: on a well-formed
queue of `n ≥ 1` elements the loop terminates, the call returns `true`, and the
element unlinked and released (its text buffer, then the element) is the one at
index `⌊(n - 1) / 2⌋` from the front: the only element for `n = 1`, the first for
`n = 2`, the second for `n = 4`.  The result has `n - 1` elements, the others in
their original relative order, with their texts. -/
theorem q_delete_mid_index (h : Heap) (head : Nat) (ns : List Nat) (fuel : Nat)
    (hw : WF h head ns) (hne : ns ≠ []) (hf : ns.length ≤ fuel) :
    ∃ e h1, ns[(ns.length - 1) / 2]? = some e ∧
      q_delete_mid fuel h head = some (h1, true) ∧
      WF h1 head (ns.eraseIdx ((ns.length - 1) / 2)) ∧
      (ns.eraseIdx ((ns.length - 1) / 2)).length = ns.length - 1 ∧
      (ns.eraseIdx ((ns.length - 1) / 2)).Sublist ns ∧
      e ∉ ns.eraseIdx ((ns.length - 1) / 2) ∧
      h1.text = h.text ∧
      h1.freed = h.freed ++ ((if h.value e = 0 then [] else [h.value e]) ++ [e]) ∧
      (∀ a, ns = [a] → e = a) ∧ (∀ a b, ns = [a, b] → e = a) ∧
      (∀ a b c d, ns = [a, b, c, d] → e = b) := by
  obtain ⟨e, he, hr, hw1⟩ := q_delete_mid_spec hw hne hf
  have hlt : (ns.length - 1) / 2 < ns.length := by
    have : 0 < ns.length := List.length_pos.2 hne
    omega
  have hmem : e ∈ ns := List.getElem?_mem he
  have he0 : e ≠ 0 := fun c => hw.2.1 (c ▸ hmem)
  refine ⟨e, _, he, hr, hw1, ?_, List.eraseIdx_sublist _ _, ?_, ?_, ?_, ?_, ?_, ?_⟩
  · rw [List.length_eraseIdx, if_pos hlt]
  · intro c
    have hnd := hw.2.2.2.1
    rw [List.getElem?_eq_getElem hlt] at he
    have he1 : ns[(ns.length - 1) / 2] = e := Option.some.inj he
    have hsplit : ns = ns.take ((ns.length - 1) / 2) ++
        e :: ns.drop ((ns.length - 1) / 2 + 1) := by
      rw [← he1, ← List.drop_eq_getElem_cons hlt, List.take_append_drop]
    rw [List.eraseIdx_eq_take_drop_succ] at c
    rw [hsplit] at hnd
    have h1 := List.nodup_append.1 hnd
    rcases List.mem_append.1 c with c | c
    · exact h1.2.2 c (by simp)
    · exact (List.nodup_cons.1 h1.2.1).1 c
  · exact text_congr (by simp [list_del]) (by simp [list_del])
  · rw [release_freed]
    simp [list_del, he0]
  · rintro a rfl
    simpa using he.symm
  · rintro a b rfl
    have e2 : ([a, b].length - 1) / 2 = 0 := by simp
    rw [e2] at he
    simpa using he.symm
  · rintro a b c d rfl
    have e4 : ([a, b, c, d].length - 1) / 2 = 1 := by simp
    rw [e4] at he
    simpa using he.symm

theorem q_delete_mid_index_witness :
    (WF (mkHeap [(2, [97]), (3, [98]), (4, [99]), (5, [100])]) 1 [2, 3, 4, 5] ∧
      [2, 3, 4, 5] ≠ [] ∧ [2, 3, 4, 5].length ≤ 4) ∧
    ∃ e h1, [2, 3, 4, 5][([2, 3, 4, 5].length - 1) / 2]? = some e ∧
      q_delete_mid 4 (mkHeap [(2, [97]), (3, [98]), (4, [99]), (5, [100])]) 1 = some (h1, true) ∧
      WF h1 1 [2, 4, 5] ∧ e = 3 :=
  ⟨by decide,
    (q_delete_mid_index (mkHeap [(2, [97]), (3, [98]), (4, [99]), (5, [100])]) 1 [2, 3, 4, 5] 4
      (by decide) (by decide) (by decide)).imp (fun _ hx => hx.imp (fun _ hy =>
        ⟨hy.1, hy.2.1, hy.2.2.1, hy.2.2.2.2.2.2.2.2.2.2 _ _ _ _ rfl⟩))⟩


/-! ## Absent and empty queues -/

/-- C12. Absent and empty queues.  On an absent (`NULL`) queue `q_insert_head` and
`q_insert_tail` return `false`, `q_remove_head` and `q_remove_tail` return `NULL`,
`q_size` returns `0`, `q_delete_mid` and `q_delete_dup` return `false`, and `q_swap`,
`q_reverse` and `q_free` return.  On an empty queue (`sentinel.next == sentinel`)
`q_remove_head` and `q_remove_tail` return `NULL`, `q_size` returns `0`,
`q_delete_mid` returns `false`, `q_delete_dup` returns `true`, and `q_swap` and
`q_reverse` return.  In every one of these cases the memory after the call is
the memory before it: no link changes, nothing is allocated or released, and
the output buffer is not written. -/
theorem absent_and_empty_safety (h : Heap) (head : Nat) (s : List Nat)
    (re rs sp bufsize fuel : Nat) (hh : head ≠ 0) (he : list_empty h head = true)
    (hf : 0 < fuel) :
    (q_insert_head h 0 s re rs = (h, false) ∧ q_insert_tail h 0 s re rs = (h, false) ∧
      q_remove_head h 0 sp bufsize = (h, 0) ∧ q_remove_tail h 0 sp bufsize = (h, 0) ∧
      q_size fuel h 0 = some 0 ∧ q_delete_mid fuel h 0 = some (h, false) ∧
      q_delete_dup fuel h 0 = some (h, false) ∧ q_swap fuel h 0 = some h ∧
      q_reverse fuel h 0 = some h ∧ q_free fuel h 0 = some h) ∧
    (q_remove_head h head sp bufsize = (h, 0) ∧ q_remove_tail h head sp bufsize = (h, 0) ∧
      q_size fuel h head = some 0 ∧ q_delete_mid fuel h head = some (h, false) ∧
      q_delete_dup fuel h head = some (h, true) ∧ q_swap fuel h head = some h ∧
      q_reverse fuel h head = some h) := by
  obtain ⟨fuel, rfl⟩ : ∃ k, fuel = k + 1 := ⟨fuel - 1, by omega⟩
  have hn : h.next head = head := by simpa [list_empty] using he
  refine ⟨⟨?_, ?_, ?_, ?_, ?_, ?_, ?_, ?_, ?_, ?_⟩, ?_, ?_, ?_, ?_, ?_, ?_, ?_⟩
  · simp [q_insert_head]
  · simp [q_insert_tail]
  · simp [q_remove_head]
  · simp [q_remove_tail]
  · simp [q_size]
  · simp [q_delete_mid]
  · simp [q_delete_dup]
  · simp [q_swap]
  · simp [q_reverse]
  · simp [q_free]
  · simp [q_remove_head, he]
  · simp [q_remove_tail, he]
  · simp [q_size, he]
  · simp [q_delete_mid, he]
  · simp [q_delete_dup, hh, q_delete_dup_loop, hn]
  · simp [q_swap, he]
  · simp [q_reverse, he]

theorem absent_and_empty_safety_witness :
    (1 ≠ 0 ∧ list_empty (mkHeap []) 1 = true ∧ 0 < 1) ∧
      q_remove_head (mkHeap []) 1 7 0 = (mkHeap [], 0) ∧
      q_delete_dup 1 (mkHeap []) 1 = some (mkHeap [], true) ∧
      q_delete_dup 1 (mkHeap []) 0 = some (mkHeap [], false) :=
  ⟨by decide,
    (absent_and_empty_safety (mkHeap []) 1 [97] 2 3 7 0 1 (by decide) (by decide)
      (by decide)).2.1,
    (absent_and_empty_safety (mkHeap []) 1 [97] 2 3 7 0 1 (by decide) (by decide)
      (by decide)).2.2.2.2.2.1,
    (absent_and_empty_safety (mkHeap []) 1 [97] 2 3 7 0 1 (by decide) (by decide)
      (by decide)).1.2.2.2.2.2.2.1⟩


/-! ## The output buffer of a removal -/

/-- C11. Silent truncation on removal.  On a non-empty well-formed queue, with a
non-null output buffer of capacity `k ≥ 1` (a `size_t`, so `k < 2^64`),
`q_remove_head` returns the first element and `q_remove_tail` the last one, and
after the call the buffer holds, as a null-terminated string, exactly the first
`min(len, k - 1)` bytes of the text of the removed element; position `k - 1` of
the buffer is a terminator, no position at an index `≥ k` and no other buffer is
written, and the text stored in the element does not change. -/
theorem removal_truncates (h : Heap) (head : Nat) (ns : List Nat) (a z sp k : Nat)
    (hw : WF h head ns) (ha : ns.head? = some a) (hz : ns.getLast? = some z) (hsp : sp ≠ 0)
    (hk1 : 1 ≤ k) (hk2 : k < 2 ^ 64) :
    ((q_remove_head h head sp k).2 = a ∧
      readString ((q_remove_head h head sp k).1.buf sp) k 0 =
        (h.text a).take (min (h.text a).length (k - 1)) ∧
      (q_remove_head h head sp k).1.buf sp (k - 1) = 0 ∧
      (∀ i, k ≤ i → (q_remove_head h head sp k).1.buf sp i = h.buf sp i) ∧
      (∀ p, p ≠ sp → (q_remove_head h head sp k).1.buf p = h.buf p) ∧
      (q_remove_head h head sp k).1.text a = h.text a) ∧
    ((q_remove_tail h head sp k).2 = z ∧
      readString ((q_remove_tail h head sp k).1.buf sp) k 0 =
        (h.text z).take (min (h.text z).length (k - 1)) ∧
      (q_remove_tail h head sp k).1.buf sp (k - 1) = 0 ∧
      (∀ i, k ≤ i → (q_remove_tail h head sp k).1.buf sp i = h.buf sp i) ∧
      (∀ p, p ≠ sp → (q_remove_tail h head sp k).1.buf p = h.buf p) ∧
      (q_remove_tail h head sp k).1.text z = h.text z) := by
  constructor
  · obtain ⟨t, rfl⟩ : ∃ t, ns = a :: t := by
      cases ns with
      | nil => simp at ha
      | cons x t => exact ⟨t, by simp at ha; rw [ha]⟩
    obtain ⟨r1, _, r3, r4⟩ := q_remove_head_spec sp k hw
    obtain ⟨c1, c2, c3, c4⟩ := copy_out_spec h sp k (h.str (h.value a)) hk1 hk2
    rw [q_remove_head_buf k hw hsp]
    exact ⟨r1, c1, c2, c3, c4, by rw [text_congr r3 r4]⟩
  · obtain ⟨t, rfl⟩ : ∃ t, ns = t ++ [z] := by
      rcases List.eq_nil_or_concat ns with rfl | ⟨t, y, rfl⟩
      · simp at hz
      · rw [List.concat_eq_append] at hz ⊢
        simp at hz
        exact ⟨t, by rw [hz]⟩
    obtain ⟨r1, _, r3, r4⟩ := q_remove_tail_spec sp k hw
    obtain ⟨c1, c2, c3, c4⟩ := copy_out_spec h sp k (h.str (h.value z)) hk1 hk2
    rw [q_remove_tail_buf k hw hsp]
    exact ⟨r1, c1, c2, c3, c4, by rw [text_congr r3 r4]⟩

theorem removal_truncates_witness :
    (WF (mkHeap [(2, [104, 105, 33]), (3, [111])]) 1 [2, 3] ∧
      [2, 3].head? = some 2 ∧ [2, 3].getLast? = some 3 ∧ 7 ≠ 0 ∧ 1 ≤ 3 ∧ 3 < 2 ^ 64) ∧
    readString ((q_remove_head (mkHeap [(2, [104, 105, 33]), (3, [111])]) 1 7 3).1.buf 7) 3 0 =
      [104, 105] ∧
    readString ((q_remove_tail (mkHeap [(2, [104, 105, 33]), (3, [111])]) 1 7 3).1.buf 7) 3 0 =
      [111] :=
  ⟨by decide,
    (removal_truncates (mkHeap [(2, [104, 105, 33]), (3, [111])]) 1 [2, 3] 2 3 7 3 (by decide)
      (by decide) (by decide) (by decide) (by decide) (by decide)).1.2.1,
    (removal_truncates (mkHeap [(2, [104, 105, 33]), (3, [111])]) 1 [2, 3] 2 3 7 3 (by decide)
      (by decide) (by decide) (by decide) (by decide) (by decide)).2.2.1⟩

/-- C20. With the capacity `0` and a non-null output buffer, `q_remove_head` and
`q_remove_tail` write the buffer at positions `0`, `1` and `2^64 - 1`, all of them
at an index `≥ 0`: `bufsize - 1` is `2^64 - 1` in the arithmetic of `size_t`, so
`strncpy` copies the text and pads with `0`, and the terminator goes to position
`2^64 - 1`.  The claim says that nothing is written. -/
theorem removal_overruns_at_zero :
    WF inkHeap 1 [2] ∧ inkHeap.text 2 = [97] ∧
      inkHeap.buf 9 0 = 7 ∧ inkHeap.buf 9 1 = 7 ∧ inkHeap.buf 9 18446744073709551615 = 7 ∧
      (q_remove_head inkHeap 1 9 0).1.buf 9 0 = 97 ∧
      (q_remove_head inkHeap 1 9 0).1.buf 9 1 = 0 ∧
      (q_remove_head inkHeap 1 9 0).1.buf 9 18446744073709551615 = 0 ∧
      (q_remove_tail inkHeap 1 9 0).1.buf 9 0 = 97 ∧
      (q_remove_tail inkHeap 1 9 0).1.buf 9 1 = 0 ∧
      (q_remove_tail inkHeap 1 9 0).1.buf 9 18446744073709551615 = 0 := by
  decide


/-! ## Insertion and allocation failure -/

/-- C13. Insertion is atomic under allocation failure.  Take a well-formed queue
whose nodes and text buffers are allocated, and an allocator that answers `NULL`
or a block that is not allocated.  If the allocation of the element fails
(`re1 = 0`) or the duplication of the text fails (`rs1 = 0`), `q_insert_head` and
`q_insert_tail` return `false` and the queue is as before the call: the same
links, the same forward sequence, the same texts; nothing remains allocated, the
element allocated before a failed duplication being released (and when the
first allocation fails, the memory is untouched).  When both allocations
succeed (`re2`, `rs2`), the call returns `true` and the new element, whose text is
a copy of the argument, is the first element for `q_insert_head` and the last
one for `q_insert_tail`, all previous elements staying in their order with their
texts. -/
theorem insertion_atomic (h : Heap) (head : Nat) (ns s : List Nat) (re1 rs1 re2 rs2 : Nat)
    (hw : WF h head ns) (hl : ∀ x ∈ head :: ns, h.live x = true)
    (hv : ∀ x ∈ ns, h.live (h.value x) = true) (hfail : re1 = 0 ∨ rs1 = 0)
    (hre1 : re1 ≠ 0 → h.live re1 = false) (hre2 : re2 ≠ 0) (hrs2 : rs2 ≠ 0)
    (hfre2 : h.live re2 = false) (hfrs2 : (malloc h re2).1.live rs2 = false) :
    ((q_insert_head h head s re1 rs1).2 = false ∧
      WF (q_insert_head h head s re1 rs1).1 head ns ∧
      (q_insert_head h head s re1 rs1).1.next = h.next ∧
      (q_insert_head h head s re1 rs1).1.prev = h.prev ∧
      (∀ x ∈ ns, (q_insert_head h head s re1 rs1).1.text x = h.text x) ∧
      (q_insert_head h head s re1 rs1).1.live = h.live ∧
      (re1 = 0 → q_insert_head h head s re1 rs1 = (h, false)) ∧
      (re1 ≠ 0 → (q_insert_head h head s re1 rs1).1.freed = h.freed ++ [re1])) ∧
    ((q_insert_tail h head s re1 rs1).2 = false ∧
      WF (q_insert_tail h head s re1 rs1).1 head ns ∧
      (q_insert_tail h head s re1 rs1).1.next = h.next ∧
      (q_insert_tail h head s re1 rs1).1.prev = h.prev ∧
      (∀ x ∈ ns, (q_insert_tail h head s re1 rs1).1.text x = h.text x) ∧
      (q_insert_tail h head s re1 rs1).1.live = h.live ∧
      (re1 = 0 → q_insert_tail h head s re1 rs1 = (h, false)) ∧
      (re1 ≠ 0 → (q_insert_tail h head s re1 rs1).1.freed = h.freed ++ [re1])) ∧
    ((q_insert_head h head s re2 rs2).2 = true ∧
      WF (q_insert_head h head s re2 rs2).1 head (re2 :: ns) ∧
      (q_insert_head h head s re2 rs2).1.text re2 = cstr s ∧
      (∀ x ∈ ns, (q_insert_head h head s re2 rs2).1.text x = h.text x)) ∧
    ((q_insert_tail h head s re2 rs2).2 = true ∧
      WF (q_insert_tail h head s re2 rs2).1 head (ns ++ [re2]) ∧
      (q_insert_tail h head s re2 rs2).1.text re2 = cstr s ∧
      (∀ x ∈ ns, (q_insert_tail h head s re2 rs2).1.text x = h.text x)) := by
  have hfresh : ∀ re, h.live re = false → re ∉ head :: ns := by
    intro re hre c
    rw [hl re c] at hre
    exact Bool.noConfusion hre
  have hn1 : re1 ∉ ns := by
    intro c
    by_cases hr : re1 = 0
    · exact hw.2.1 (hr ▸ c)
    · exact hfresh re1 (hre1 hr) (List.mem_cons_of_mem _ c)
  have hm2 := hfresh re2 hfre2
  simp only [List.mem_cons, not_or] at hm2
  have hrs : rs2 ≠ re2 ∧ h.live rs2 = false := by
    simp only [malloc, hre2, if_false, Function.update_apply] at hfrs2
    by_cases c : rs2 = re2
    · simp [c] at hfrs2
    · simpa [c] using hfrs2
  have hvs : ∀ x ∈ ns, h.value x ≠ rs2 := by
    intro x hx c
    have := hv x hx
    rw [c, hrs.2] at this
    exact Bool.noConfusion this
  refine ⟨?_, ?_, ?_, ?_⟩
  · obtain ⟨e, hn, hp⟩ := q_insert_head_fail_links h head s re1 rs1 hfail
    obtain ⟨f1, f2, _, f4, f5, f6⟩ := q_insert_head_fail_spec h head s re1 rs1 hfail hre1
    refine ⟨e, hw.congr hn hp, hn, hp, ?_, f1, f5, f6 hw.1⟩
    intro x hx
    have hx1 : x ≠ re1 := by rintro rfl; exact hn1 hx
    simp [Heap.text, f2, f4 x hx1]
  · obtain ⟨e, hn, hp⟩ := q_insert_tail_fail_links h head s re1 rs1 hfail
    obtain ⟨f1, f2, _, f4, f5, f6⟩ := q_insert_tail_fail_spec h head s re1 rs1 hfail hre1
    refine ⟨e, hw.congr hn hp, hn, hp, ?_, f1, f5, f6 hw.1⟩
    intro x hx
    have hx1 : x ≠ re1 := by rintro rfl; exact hn1 hx
    simp [Heap.text, f2, f4 x hx1]
  · obtain ⟨e, hw1, hv1, hs1⟩ := q_insert_head_spec s hw hre2 hrs2 hm2.1 hm2.2
    refine ⟨e, hw1, ?_, text_frame hv1 hs1 hm2.2 hvs⟩
    simp [Heap.text, hv1, hs1, cstr_idem]
  · obtain ⟨e, hw1, hv1, hs1⟩ := q_insert_tail_spec s hw hre2 hrs2 hm2.1 hm2.2
    refine ⟨e, hw1, ?_, text_frame hv1 hs1 hm2.2 hvs⟩
    simp [Heap.text, hv1, hs1, cstr_idem]

theorem insertion_atomic_witness :
    (WF (mkHeap [(2, [97]), (3, [98])]) 1 [2, 3] ∧
      (∀ x ∈ 1 :: [2, 3], (mkHeap [(2, [97]), (3, [98])]).live x = true) ∧
      (∀ x ∈ [2, 3],
        (mkHeap [(2, [97]), (3, [98])]).live ((mkHeap [(2, [97]), (3, [98])]).value x) = true) ∧
      (4 = 0 ∨ 0 = 0) ∧ (4 ≠ 0 → (mkHeap [(2, [97]), (3, [98])]).live 4 = false) ∧
      4 ≠ 0 ∧ 5 ≠ 0 ∧ (mkHeap [(2, [97]), (3, [98])]).live 4 = false ∧
      (malloc (mkHeap [(2, [97]), (3, [98])]) 4).1.live 5 = false) ∧
    ((q_insert_head (mkHeap [(2, [97]), (3, [98])]) 1 [99] 4 0).2 = false ∧
      WF (q_insert_head (mkHeap [(2, [97]), (3, [98])]) 1 [99] 4 0).1 1 [2, 3]) ∧
    ((q_insert_tail (mkHeap [(2, [97]), (3, [98])]) 1 [99] 4 5).2 = true ∧
      WF (q_insert_tail (mkHeap [(2, [97]), (3, [98])]) 1 [99] 4 5).1 1 ([2, 3] ++ [4]) ∧
      (q_insert_tail (mkHeap [(2, [97]), (3, [98])]) 1 [99] 4 5).1.text 4 = cstr [99]) :=
  ⟨by decide,
    ⟨(insertion_atomic (mkHeap [(2, [97]), (3, [98])]) 1 [2, 3] [99] 4 0 4 5 (by decide)
        (by decide) (by decide) (by decide) (by decide) (by decide) (by decide) (by decide)
        (by decide)).1.1,
      (insertion_atomic (mkHeap [(2, [97]), (3, [98])]) 1 [2, 3] [99] 4 0 4 5 (by decide)
        (by decide) (by decide) (by decide) (by decide) (by decide) (by decide) (by decide)
        (by decide)).1.2.1⟩,
    ⟨(insertion_atomic (mkHeap [(2, [97]), (3, [98])]) 1 [2, 3] [99] 4 0 4 5 (by decide)
        (by decide) (by decide) (by decide) (by decide) (by decide) (by decide) (by decide)
        (by decide)).2.2.2.1,
      (insertion_atomic (mkHeap [(2, [97]), (3, [98])]) 1 [2, 3] [99] 4 0 4 5 (by decide)
        (by decide) (by decide) (by decide) (by decide) (by decide) (by decide) (by decide)
        (by decide)).2.2.2.2.1,
      (insertion_atomic (mkHeap [(2, [97]), (3, [98])]) 1 [2, 3] [99] 4 0 4 5 (by decide)
        (by decide) (by decide) (by decide) (by decide) (by decide) (by decide) (by decide)
        (by decide)).2.2.2.2.2.1⟩⟩


/-! ## Deleting duplicates without the sortedness precondition -/

/-- C19. `q_delete_dup` on texts in any order: on a well-formed queue with
elements `e0 .. e(n-1)` and texts `v0 .. v(n-1)` it returns `true`, and the new
forward sequence is exactly the subsequence of the elements `ei` such that `vi`
differs from `v(i-1)` (when `i > 0`) and from `v(i+1)` (when `i < n - 1`): every
maximal run of two or more adjacent equal texts is removed entirely, and
nothing else is.  Equal texts that are not adjacent stay, and texts made
adjacent by a removal are not examined again: `[a, b, b, a]` becomes `[a, a]`. -/
theorem q_delete_dup_unsorted (h : Heap) (head : Nat) (ns : List Nat) (fuel : Nat)
    (hw : WF h head ns) (hf : ns.length < fuel) :
    ∃ h1, q_delete_dup fuel h head = some (h1, true) ∧
      WF h1 head (isolated h false ns) ∧
      (isolated h false ns).Sublist ns ∧
      (∀ i e, ns[i]? = some e →
        (e ∈ isolated h false ns ↔
          (∀ p, 0 < i → ns[i - 1]? = some p → h.text p ≠ h.text e) ∧
            (∀ n, ns[i + 1]? = some n → h.text e ≠ h.text n))) ∧
      h1.text = h.text ∧
      (∀ a b c d, ns = [a, b, c, d] → h.text a ≠ h.text b → h.text b = h.text c →
        h.text c ≠ h.text d → isolated h false ns = [a, d]) := by
  obtain ⟨h1, e, hw1, hv, hst⟩ := q_delete_dup_spec hw hf
  rw [dropRuns_eq_isolated] at hw1
  refine ⟨h1, e, hw1, ?_, ?_, text_congr hv hst, ?_⟩
  · rw [← dropRuns_eq_isolated]
    exact dropRuns_sublist h ns false
  · intro i x hi
    rw [mem_isolated, ← keptAt_iff h ns hi]
    constructor
    · rintro ⟨j, hj, hk⟩
      rw [nodup_index_unique hw.2.2.2.1 hi hj]
      exact hk
    · intro hk
      exact ⟨i, hi, hk⟩
  · rintro a b c d rfl hab hbc hcd
    have s1 : ¬ sameText h a b := fun c1 => hab ((sameText_iff h a b).1 c1)
    have s2 : sameText h b c := (sameText_iff h b c).2 hbc
    have s3 : ¬ sameText h c d := fun c1 => hcd ((sameText_iff h c d).1 c1)
    rw [← dropRuns_eq_isolated]
    simp [dropRuns, s1, s2, s3]

theorem q_delete_dup_unsorted_witness :
    (WF (mkHeap [(2, [97]), (3, [98]), (4, [98]), (5, [97])]) 1 [2, 3, 4, 5] ∧
      [2, 3, 4, 5].length < 5) ∧
    (∃ h1, q_delete_dup 5 (mkHeap [(2, [97]), (3, [98]), (4, [98]), (5, [97])]) 1 =
        some (h1, true) ∧
      WF h1 1 [2, 5] ∧ [2, 5].map h1.text = [[97], [97]]) ∧
    ((q_delete_dup 5 (mkHeap [(2, [97]), (3, [98]), (4, [98]), (5, [97])]) 1).bind
        (fun r => q_delete_dup 5 r.1 1)).map (fun r => decide (WF r.1 1 [])) = some true :=
  ⟨by decide,
    (q_delete_dup_unsorted (mkHeap [(2, [97]), (3, [98]), (4, [98]), (5, [97])]) 1 [2, 3, 4, 5] 5
      (by decide) (by decide)).imp
      (fun _ hx => ⟨hx.1, hx.2.1, by rw [hx.2.2.2.2.1]; decide⟩),
    by decide⟩


/-! ## Destruction -/

/-- C14. Destruction completeness.  On a well-formed queue with elements
`e0 .. e(n-1)`, each of which owns its text buffer, `q_free` returns, and the
blocks it frees are, in this order, the text buffer of `e0`, `e0`, the text
buffer of `e1`, `e1`, .., and at last the sentinel: every one of them exactly
once, and nothing else (any other block, such as an element taken out earlier by
`q_remove_head` or `q_remove_tail`, is as allocated as before).  No block is
read again once it has been freed: in particular no link of a released element
is read. -/
theorem destruction_completeness (h : Heap) (head : Nat) (ns : List Nat) (fuel : Nat)
    (hw : WF h head ns) (ho : owned h head ns) (hf : ns.length < fuel) :
    ∃ h1 tr, q_free_tr fuel h head = some (h1, tr) ∧ q_free fuel h head = some h1 ∧
      frees tr = ns.flatMap (fun e => [h.value e, e]) ++ [head] ∧
      h1.freed = h.freed ++ frees tr ∧
      (frees tr).Nodup ∧
      (∀ x, h1.live x = if x ∈ frees tr then false else h.live x) ∧
      safeTrace tr := by
  obtain ⟨h1, tr, hr, r1, r2, r3, r4, _⟩ := q_free_tr_spec hw ho hf
  refine ⟨h1, tr, hr, ?_, r3, by rw [r1, r3], safeTrace_frees_nodup tr r4, ?_, r4⟩
  · rw [← q_free_tr_heap, hr]
    rfl
  · intro x
    rw [r2, r3]

theorem destruction_completeness_witness :
    (WF (mkHeap [(2, [97]), (3, [98])]) 1 [2, 3] ∧ owned (mkHeap [(2, [97]), (3, [98])]) 1 [2, 3] ∧
      [2, 3].length < 3) ∧
    ∃ h1 tr, q_free_tr 3 (mkHeap [(2, [97]), (3, [98])]) 1 = some (h1, tr) ∧
      q_free 3 (mkHeap [(2, [97]), (3, [98])]) 1 = some h1 ∧
      frees tr = [102, 2, 103, 3, 1] :=
  ⟨by decide,
    (destruction_completeness (mkHeap [(2, [97]), (3, [98])]) 1 [2, 3] 3 (by decide) (by decide)
      (by decide)).imp (fun _ hx => hx.imp (fun _ hy => ⟨hy.1, hy.2.1, hy.2.2.1⟩))⟩



/-! ## The scan of `q_delete_dup` -/

/-- C17. The scan of `q_delete_dup` is safe.  On a well-formed queue, sorted or
not, each of whose elements owns its text buffer, the scan returns (after at
most one round per element) with `*curr` at the sentinel, and its heap is the
one `q_delete_dup` returns.  Every text comparison is made between two elements
of the queue as it is at the moment of the comparison, both different from the
sentinel; `ks` records these comparisons with the memory they are made in, and
they are the comparisons of the trace `tr`.  No block is read, written, compared
or freed once it has been freed, the sentinel is never freed, and every link
the cursor writes through is a link of the sentinel or of an element that stays
in the queue. -/
theorem q_delete_dup_scan_safe (h : Heap) (head : Nat) (ns : List Nat) (fuel : Nat)
    (hw : WF h head ns) (ho : owned h head ns) (hf : ns.length < fuel) :
    ∃ h1 c1 tr ks, q_delete_dup_loop_tr head fuel h head = some (h1, c1, tr, ks) ∧
      q_delete_dup fuel h head = some (h1, true) ∧
      h1.next c1 = head ∧
      WF h1 head (dropRuns h false ns) ∧
      cmps tr = ks.map (fun s => (s.2.1, s.2.2)) ∧
      (∀ s ∈ ks, ∃ m, WF s.1 head m ∧ s.2.1 ∈ m ∧ s.2.2 ∈ m ∧ s.2.1 ≠ head ∧ s.2.2 ≠ head) ∧
      (∀ a b, Ev.cmp a b ∈ tr → a ∈ ns ∧ b ∈ ns ∧ a ≠ head ∧ b ≠ head) ∧
      safeTrace tr ∧
      (∀ t1 ev t2, tr = t1 ++ ev :: t2 → ∀ p ∈ frees t1, p ∉ ev.mentions) ∧
      (∀ p ∈ frees tr, p ≠ head) ∧
      (∀ c2, Ev.through c2 ∈ tr → c2 = head ∨ c2 ∈ dropRuns h false ns) := by
  obtain ⟨h1, c1, tr, ks, hl, hw1, _, _, hn1, _, iS, iF, iC, iT, iK⟩ :=
    q_delete_dup_loop_tr_spec head ns.length ns [] [] head h fuel rfl hw ho rfl hf
  simp only [List.nil_append] at hw1
  have hhn : head ∉ ns := hw.2.2.1
  refine ⟨h1, c1, tr, ks, hl, ?_, hn1, hw1, q_delete_dup_loop_tr_cmps head fuel h head _ hl, ?_,
    ?_, iS, ?_, ?_, iT⟩
  · have := q_delete_dup_loop_tr_heap head fuel h head
    rw [hl] at this
    simp only [Option.map_some'] at this
    simp [q_delete_dup, hw.1, ← this]
  · intro s hs
    obtain ⟨m, hm, ha, hb⟩ := iK s hs
    exact ⟨m, hm, ha, hb, fun c => hm.2.2.1 (c ▸ ha), fun c => hm.2.2.1 (c ▸ hb)⟩
  · intro a b hab
    obtain ⟨ha, hb⟩ := iC a b hab
    exact ⟨ha, hb, fun c => hhn (c ▸ ha), fun c => hhn (c ▸ hb)⟩
  · intro t1 ev t2 ht p hp
    rw [ht, safeTrace_append] at iS
    exact iS.2.2 p hp ev (List.mem_cons_self _ _)
  · intro p hp c
    subst c
    rcases iF p hp with c1 | c1
    · exact hhn c1
    · obtain ⟨e, he, hpe⟩ := List.mem_map.1 c1
      exact ho.2.1 e he (by simp [hpe])

theorem q_delete_dup_scan_safe_witness :
    (WF (mkHeap [(2, [97]), (3, [97]), (4, [98])]) 1 [2, 3, 4] ∧
      owned (mkHeap [(2, [97]), (3, [97]), (4, [98])]) 1 [2, 3, 4] ∧ [2, 3, 4].length < 4) ∧
    ∃ h1 c1 tr ks,
      q_delete_dup_loop_tr 1 4 (mkHeap [(2, [97]), (3, [97]), (4, [98])]) 1 =
        some (h1, c1, tr, ks) ∧
      h1.next c1 = 1 ∧ safeTrace tr ∧ (∀ p ∈ frees tr, p ≠ 1) :=
  ⟨by decide,
    (q_delete_dup_scan_safe (mkHeap [(2, [97]), (3, [97]), (4, [98])]) 1 [2, 3, 4] 4 (by decide)
      (by decide) (by decide)).imp (fun _ hx => hx.imp (fun _ hy => hy.imp (fun _ hz =>
        hz.imp (fun _ hu => ⟨hu.1, hu.2.2.1, hu.2.2.2.2.2.2.2.1, hu.2.2.2.2.2.2.2.2.2.1⟩))))⟩


end Queue
